import Mathlib

/-!
The taihen-parser tokenizer, validator and section filter.

A shallow embedding of `src/lexer.c` and `src/parser.c`.

Representation choices.

* A byte is a `Nat`; a C string is the `List Nat` of its bytes before the terminating NUL.
  Reading at the end of such a list reads the terminator, i.e. the value `0`.
* The pair of pointers `ctx->input`, `ctx->end` is the list of bytes in `[input, end)`;
  `input >= end` is emptiness of that list (this includes `input = end + 1`).
* The line buffer `ctx->line` is the C string it holds and `ctx->line_pos` is an offset
  into it.
* The handler calls made by `taihen_config_parse` are returned as the list of their
  string arguments, in call order.
* The `while` loops of the two consumers and of `check_utf8` run on a step budget; running
  out of budget is `none`, so `= some r` states that the C loop returns with result `r`.
* Pointer arguments are always present, so the `NULL` checks are not part of the model.
-/

namespace Taihen

/-! ## lexer.h -/

/-- The enumeration `taihen_config_lexer_token`. -/
inductive taihen_config_lexer_token
  | CONFIG_START_TOKEN
  | CONFIG_END_TOKEN
  | CONFIG_COMMENT_TOKEN
  | CONFIG_SECTION_TOKEN
  | CONFIG_SECTION_HALT_TOKEN
  | CONFIG_SECTION_NAME_TOKEN
  | CONFIG_PATH_TOKEN
  deriving DecidableEq

open taihen_config_lexer_token

/-- The constant `CONFIG_MAX_LINE_LENGTH`. -/
def CONFIG_MAX_LINE_LENGTH : Nat := 256

/-- The structure `taihen_config_lexer`: `input` holds the bytes in `[input, end)`, `line` the
C string in the line buffer and `line_pos` the offset of the payload cursor into it. -/
structure taihen_config_lexer where
  input : List Nat
  token : taihen_config_lexer_token
  line : List Nat
  line_pos : Nat
  deriving DecidableEq

/-! ## lexer.c -/

/-- The character constant `TOKEN_EMPTY`. -/
def TOKEN_EMPTY : Nat := 0
/-- The character constant `TOKEN_COMMENT_START`, `'#'`. -/
def TOKEN_COMMENT_START : Nat := 35
/-- The character constant `TOKEN_SECTION_START`, `'*'`. -/
def TOKEN_SECTION_START : Nat := 42
/-- The character constant `TOKEN_HALT`, `'!'`. -/
def TOKEN_HALT : Nat := 33

/-- The "C" locale `isspace`: space, `\t`, `\n`, `\v`, `\f`, `\r`. -/
def isspace (c : Nat) : Bool :=
  c == 32 || c == 9 || c == 10 || c == 11 || c == 12 || c == 13

/-- The function `strlen` on a byte buffer: the number of bytes before the first NUL. -/
def strlen : List Nat → Nat
  | [] => 0
  | c :: cs => if c = 0 then 0 else strlen cs + 1

/-- The loop of `skip_whitespace` on the C string under the pointer: how far the pointer
moves. -/
def skip_whitespace_run : List Nat → Nat
  | [] => 0
  | c :: cs => if isspace c then skip_whitespace_run cs + 1 else 0

/-- The function `skip_whitespace`, for a pointer at offset `pos` of the line buffer `buf`:
the offset of the returned pointer. -/
def skip_whitespace (buf : List Nat) (pos : Nat) : Nat :=
  pos + skip_whitespace_run (buf.drop pos)

/-- The loop of `trim_whitespace` seen from the end of the string: NUL is written over the
trailing run of whitespace. The argument is the string after its first byte, which the loop
condition `end > input` protects. -/
def trim_whitespace_run (cs : List Nat) : List Nat :=
  (cs.reverse.dropWhile isspace).reverse

/-- The function `trim_whitespace`, for a pointer at offset `pos` of the line buffer `buf`:
the C string the buffer holds afterwards. -/
def trim_whitespace (buf : List Nat) (pos : Nat) : List Nat :=
  match buf.drop pos with
  | [] => buf
  | c :: cs => buf.take pos ++ c :: trim_whitespace_run cs

/-- The function `get_newline`: the distance from the pointer to the first `\r`, `\n` or NUL. -/
def get_newline : List Nat → Nat
  | [] => 0
  | c :: cs => if c = 0 ∨ c = 13 ∨ c = 10 then 0 else get_newline cs + 1

/-- The byte under the payload cursor, `*ctx->line_pos`. -/
def line_pos_byte (buf : List Nat) (pos : Nat) : Nat :=
  buf.getD pos 0

/-- The function `lex_line`. -/
def lex_line (ctx : taihen_config_lexer) : Int × taihen_config_lexer :=
  if ctx.input = [] then
    (0, { ctx with token := CONFIG_END_TOKEN })
  else
    let len := get_newline ctx.input
    if len ≥ CONFIG_MAX_LINE_LENGTH then
      (-1, ctx)
    else
      let line := ctx.input.take len
      let input := ctx.input.drop (len + 1)
      let pos := skip_whitespace line 0
      if line_pos_byte line pos = TOKEN_EMPTY ∨ line_pos_byte line pos = TOKEN_COMMENT_START then
        (1, { input := input, token := CONFIG_COMMENT_TOKEN, line := line, line_pos := pos })
      else
        let line := trim_whitespace line pos
        if line_pos_byte line pos = TOKEN_EMPTY then
          (1, { input := input, token := CONFIG_COMMENT_TOKEN, line := line, line_pos := pos })
        else if line_pos_byte line pos = TOKEN_SECTION_START then
          (1, { input := input, token := CONFIG_SECTION_TOKEN, line := line, line_pos := pos })
        else
          (1, { input := input, token := CONFIG_PATH_TOKEN, line := line, line_pos := pos })

/-- The function `lex_section_halt`. -/
def lex_section_halt (ctx : taihen_config_lexer) : Int × taihen_config_lexer :=
  let pos := skip_whitespace ctx.line (ctx.line_pos + 1)
  if line_pos_byte ctx.line pos = TOKEN_HALT then
    (1, { ctx with line_pos := pos, token := CONFIG_SECTION_HALT_TOKEN })
  else
    (1, { ctx with line_pos := pos, token := CONFIG_SECTION_NAME_TOKEN })

/-- The function `lex_section_name`. -/
def lex_section_name (ctx : taihen_config_lexer) : Int × taihen_config_lexer :=
  let pos := skip_whitespace ctx.line (ctx.line_pos + 1)
  (1, { ctx with line_pos := pos, token := CONFIG_SECTION_NAME_TOKEN })

/-- The function `taihen_config_init_lexer` for present arguments: the context it sets up
(its return value is then `0`). -/
def taihen_config_init_lexer (input : List Nat) : taihen_config_lexer :=
  { input := input.take (strlen input), token := CONFIG_START_TOKEN, line := [], line_pos := 0 }

/-- The function `taihen_config_lex`: the return value and the updated context. -/
def taihen_config_lex (ctx : taihen_config_lexer) : Int × taihen_config_lexer :=
  match ctx.token with
  | CONFIG_START_TOKEN => lex_line ctx
  | CONFIG_COMMENT_TOKEN => lex_line ctx
  | CONFIG_PATH_TOKEN => lex_line ctx
  | CONFIG_SECTION_NAME_TOKEN => lex_line ctx
  | CONFIG_SECTION_TOKEN => lex_section_halt ctx
  | CONFIG_SECTION_HALT_TOKEN => lex_section_name ctx
  | CONFIG_END_TOKEN => (-1, ctx)

/-- The C string under the payload cursor, `ctx->line_pos` read as a string. -/
def line_pos_str (ctx : taihen_config_lexer) : List Nat :=
  ctx.line.drop ctx.line_pos

/-! ## parser.c -/

/-- The string constant `TOKEN_ALL_SECTION`, `"ALL"`. -/
def TOKEN_ALL_SECTION : List Nat := [65, 76, 76]
/-- The string constant `TOKEN_KERNEL_SECTION`, `"KERNEL"`. -/
def TOKEN_KERNEL_SECTION : List Nat := [75, 69, 82, 78, 69, 76]

/-- The function `strcmp` on two byte buffers. Bytes are compared as unsigned values; the
callers only test the result against zero. -/
def strcmp : List Nat → List Nat → Int
  | [], [] => 0
  | [], b :: _ => 0 - (b : Int)
  | a :: _, [] => (a : Int)
  | a :: as, b :: bs => if a ≠ 0 ∧ a = b then strcmp as bs else (a : Int) - (b : Int)

/-- The function `is_continuation_byte`. -/
def is_continuation_byte (b : Nat) : Bool :=
  (b &&& 0xC0) == 0x80

/-- The `for` loop of `check_continuation_bytes` over `start[0 .. len)`. -/
def check_continuation_loop : List Nat → Nat → Int
  | _, 0 => 1
  | [], _ + 1 => 0
  | b :: bs, n + 1 => if is_continuation_byte b then check_continuation_loop bs n else 0

/-- The function `check_continuation_bytes`; `s` holds the bytes in `[start, end)`. -/
def check_continuation_bytes (s : List Nat) (len : Nat) : Int :=
  if s.length < len then 0 else check_continuation_loop s len

/-- The function `check_utf8_sequence`; `s` holds the bytes in `[str, end)`. -/
def check_utf8_sequence (s : List Nat) (mask lead : Nat) (cont_len : Nat) : Int :=
  if (s.headD 0 &&& mask) = lead then
    if check_continuation_bytes s.tail cont_len ≠ 0 then -1 else 1
  else 0

/-- The table `utf8_lut` of `check_utf8`: mask, lead, cont_len. -/
def utf8_lut : List (Nat × Nat × Nat) :=
  [(0x80, 0x00, 0), (0xE0, 0xC0, 1), (0xF0, 0xE0, 2), (0xF8, 0xF0, 3)]

/-- The inner `for` loop of `check_utf8` over the table rows still to try: `some k` when the
pointer is to advance by `k` bytes, `none` when `check_utf8` is to return `0` (a negative
result, or no row left, `i == 4`). -/
def check_utf8_rows (s : List Nat) : List (Nat × Nat × Nat) → Option Nat
  | [] => none
  | (mask, lead, cont_len) :: rows =>
    if check_utf8_sequence s mask lead cont_len < 0 then none
    else if check_utf8_sequence s mask lead cont_len > 0 then some (cont_len + 1)
    else check_utf8_rows s rows

/-- The `while (str < end)` loop of `check_utf8`; `s` holds the bytes in `[str, end)`. -/
def check_utf8_loop : Nat → List Nat → Option Int
  | _, [] => some 1
  | 0, _ :: _ => none
  | fuel + 1, c :: cs =>
    match check_utf8_rows (c :: cs) utf8_lut with
    | none => some 0
    | some k => check_utf8_loop fuel ((c :: cs).drop k)

/-- The function `check_utf8`. -/
def check_utf8 (str : List Nat) : Option Int :=
  check_utf8_loop (strlen str) (str.take (strlen str))

/-- The `while` loop of `taihen_config_validate`. -/
def validate_loop : Nat → taihen_config_lexer → Bool → Option Int
  | 0, _, _ => none
  | fuel + 1, ctx, have_section =>
    if (taihen_config_lex ctx).1 > 0 then
      match (taihen_config_lex ctx).2.token with
      | CONFIG_SECTION_NAME_TOKEN =>
        if strlen (line_pos_str (taihen_config_lex ctx).2) = 0 then some 0
        else
          match check_utf8 (line_pos_str (taihen_config_lex ctx).2) with
          | none => none
          | some v =>
            if v = 0 then some 0
            else validate_loop fuel (taihen_config_lex ctx).2 true
      | CONFIG_PATH_TOKEN =>
        if have_section = false then some 0
        else if strlen (line_pos_str (taihen_config_lex ctx).2) = 0 then some 0
        else
          match check_utf8 (line_pos_str (taihen_config_lex ctx).2) with
          | none => none
          | some v =>
            if v = 0 then some 0
            else validate_loop fuel (taihen_config_lex ctx).2 have_section
      | CONFIG_SECTION_HALT_TOKEN => validate_loop fuel (taihen_config_lex ctx).2 have_section
      | CONFIG_COMMENT_TOKEN => validate_loop fuel (taihen_config_lex ctx).2 have_section
      | CONFIG_SECTION_TOKEN => validate_loop fuel (taihen_config_lex ctx).2 have_section
      | CONFIG_END_TOKEN => validate_loop fuel (taihen_config_lex ctx).2 have_section
      | CONFIG_START_TOKEN => some 0
    else
      some (if (taihen_config_lex ctx).1 = 0 then 1 else 0)

/-- The function `taihen_config_validate`. Every call of `taihen_config_lex` with a positive
result either consumes at least one input byte or moves along the chain Section, SectionHalt,
SectionName on one line, so three steps per input byte and one for the final call suffice. -/
def taihen_config_validate (input : List Nat) : Option Int :=
  validate_loop (3 * input.length + 1) (taihen_config_init_lexer input) false

/-- The `while` loop of `taihen_config_parse`: the arguments of the handler calls it makes. -/
def parse_loop (section_ : List Nat) :
    Nat → taihen_config_lexer → Bool → Bool → Option (List (List Nat))
  | 0, _, _, _ => none
  | fuel + 1, ctx, halt_flag, record_entries =>
    if (taihen_config_lex ctx).1 > 0 then
      match (taihen_config_lex ctx).2.token with
      | CONFIG_SECTION_HALT_TOKEN =>
        parse_loop section_ fuel (taihen_config_lex ctx).2 true record_entries
      | CONFIG_SECTION_NAME_TOKEN =>
        if strcmp (line_pos_str (taihen_config_lex ctx).2) TOKEN_ALL_SECTION = 0
            ∧ strcmp section_ TOKEN_KERNEL_SECTION ≠ 0 then
          parse_loop section_ fuel (taihen_config_lex ctx).2 halt_flag true
        else if strcmp section_ (line_pos_str (taihen_config_lex ctx).2) = 0 then
          parse_loop section_ fuel (taihen_config_lex ctx).2 halt_flag true
        else
          parse_loop section_ fuel (taihen_config_lex ctx).2 halt_flag false
      | CONFIG_SECTION_TOKEN =>
        if record_entries = true ∧ halt_flag = true then some []
        else parse_loop section_ fuel (taihen_config_lex ctx).2 false record_entries
      | CONFIG_PATH_TOKEN =>
        if record_entries = true then
          (parse_loop section_ fuel (taihen_config_lex ctx).2 halt_flag record_entries).map
            (fun calls => line_pos_str (taihen_config_lex ctx).2 :: calls)
        else
          parse_loop section_ fuel (taihen_config_lex ctx).2 halt_flag record_entries
      | CONFIG_START_TOKEN =>
        parse_loop section_ fuel (taihen_config_lex ctx).2 halt_flag record_entries
      | CONFIG_END_TOKEN =>
        parse_loop section_ fuel (taihen_config_lex ctx).2 halt_flag record_entries
      | CONFIG_COMMENT_TOKEN =>
        parse_loop section_ fuel (taihen_config_lex ctx).2 halt_flag record_entries
    else
      some []

/-- The function `taihen_config_parse`: the sequence of strings passed to the handler. -/
def taihen_config_parse (input section_ : List Nat) : Option (List (List Nat)) :=
  parse_loop section_ (3 * input.length + 1) (taihen_config_init_lexer input) false false

/-- The bytes of an ASCII string literal. -/
def bytes (s : String) : List Nat :=
  s.data.map Char.toNat

/-! ## The text format, as the specification words it -/

/-- A line terminator of the text format: `\n` or `\r`. -/
def isEol (c : Nat) : Bool :=
  c == 10 || c == 13

/-- The physical lines of a document: the runs of bytes between line terminators. -/
def physLines (doc : List Nat) : List (List Nat) :=
  doc.splitOnP isEol

/-- A line with its leading and its trailing whitespace removed. -/
def strip (l : List Nat) : List Nat :=
  (l.dropWhile isspace).rdropWhile isspace

/-- What a physical line is in the text format. -/
inductive LineKind
  | comment
  | header (halt : Bool) (name : List Nat)
  | path (p : List Nat)
  deriving DecidableEq

/-- The kind of a physical line: blank or `#` first is a comment; `*` first is a section
header, halt-marked when the next non-whitespace character is `!`, named by the remaining
trimmed text; any other line is a path entry, the trimmed line. -/
def classify (l : List Nat) : LineKind :=
  match strip l with
  | [] => LineKind.comment
  | c :: r =>
    if c = 35 then LineKind.comment
    else if c = 42 then
      if (r.dropWhile isspace).head? = some 33 then
        LineKind.header true ((r.dropWhile isspace).tail.dropWhile isspace)
      else LineKind.header false (r.dropWhile isspace)
    else LineKind.path (c :: r)

/-- The section-matching rule: a section named `name` is recorded for the query `q` when
`name` is `q`, or `name` is `"ALL"` and `q` is not `"KERNEL"`. -/
def recorded (q name : List Nat) : Bool :=
  decide (name = q) || (decide (name = TOKEN_ALL_SECTION) && !decide (q = TOKEN_KERNEL_SECTION))

/-- The path entries of a sequence of lines whose nearest preceding section header has a name
satisfying `sel`, in document order; `cur` is the header in force at the start. -/
def pathsUnder (sel : List Nat → Bool) : Option (List Nat) → List (List Nat) → List (List Nat)
  | _, [] => []
  | cur, l :: ls =>
    match classify l with
    | LineKind.comment => pathsUnder sel cur ls
    | LineKind.header _ name => pathsUnder sel (some name) ls
    | LineKind.path p =>
      if cur.any sel then p :: pathsUnder sel cur ls else pathsUnder sel cur ls

/-! ## Line-level view of the two consumers -/

/-- The handler calls of the filter when it goes through whole lines, from the flags
`halt_flag` and `record_entries`; an over-long line and a header after a recorded halt-marked
block end the scan. -/
def scanOut (q : List Nat) : List (List Nat) → Bool → Bool → List (List Nat)
  | [], _, _ => []
  | l :: ls, h, r =>
    if 256 ≤ l.length then []
    else
      match classify l with
      | LineKind.comment => scanOut q ls h r
      | LineKind.header hm name => if r && h then [] else scanOut q ls hm (recorded q name)
      | LineKind.path p => if r then p :: scanOut q ls h r else scanOut q ls h r

/-- The flags of the filter after whole lines, `none` when the scan has ended on the way. -/
def scanEnd (q : List Nat) : List (List Nat) → Bool → Bool → Option (Bool × Bool)
  | [], h, r => some (h, r)
  | l :: ls, h, r =>
    if 256 ≤ l.length then none
    else
      match classify l with
      | LineKind.comment => scanEnd q ls h r
      | LineKind.header hm name => if r && h then none else scanEnd q ls hm (recorded q name)
      | LineKind.path _ => scanEnd q ls h r

/-- The verdict of the validator when it goes through whole lines, from the flag
`have_section`. -/
def validLines : List (List Nat) → Bool → Bool
  | [], _ => true
  | l :: ls, hs =>
    if 256 ≤ l.length then false
    else
      match classify l with
      | LineKind.comment => validLines ls hs
      | LineKind.header _ name =>
        decide (name ≠ []) && decide (check_utf8 name ≠ some 0) && validLines ls true
      | LineKind.path p =>
        hs && decide (p ≠ []) && decide (check_utf8 p ≠ some 0) && validLines ls hs

/-! ## Further notions used to state the properties -/

/-- The tokens after which `taihen_config_lex` reads a new physical line. -/
def AtLineStart (t : taihen_config_lexer_token) : Prop :=
  t = CONFIG_START_TOKEN ∨ t = CONFIG_COMMENT_TOKEN ∨ t = CONFIG_PATH_TOKEN
    ∨ t = CONFIG_SECTION_NAME_TOKEN

/-- A halt-marked section header line. -/
def isHaltHeader (l : List Nat) : Bool :=
  match classify l with
  | LineKind.header true _ => true
  | _ => false

/-- A halt-marked section header line whose name is recorded for the requested section `q`. -/
def isRecordedHaltHeader (q l : List Nat) : Bool :=
  match classify l with
  | LineKind.header true n => recorded q n
  | _ => false

/-- A section header line. -/
def isHeader (l : List Nat) : Bool :=
  match classify l with
  | LineKind.header _ _ => true
  | _ => false

/-- A prefix of a document that stops at a line boundary: empty, or ending in a line
terminator. -/
def atLineBoundary (a : List Nat) : Bool :=
  match a.getLast? with
  | none => true
  | some e => isEol e

/-- The line-level scan resumed from the flags an earlier part left, if it left any. -/
def scanResume (q : List Nat) (ls : List (List Nat)) : Option (Bool × Bool) → List (List Nat)
  | none => []
  | some st => scanOut q ls st.1 st.2

/-- A byte of the form `10xxxxxx`. -/
def isContinuation (b : Nat) : Bool :=
  decide (128 ≤ b) && decide (b < 192)

/-- The number of continuation bytes a lead byte announces: `0xxxxxxx` none, `110xxxxx` one,
`1110xxxx` two, `11110xxx` three; no other byte is a lead byte. -/
def announced (b : Nat) : Option Nat :=
  if b < 128 then some 0
  else if 192 ≤ b ∧ b < 224 then some 1
  else if 224 ≤ b ∧ b < 240 then some 2
  else if 240 ≤ b ∧ b < 248 then some 3
  else none

/-- Well-formed text in the sense of the specification: a concatenation of sequences, each a
lead byte followed by exactly the announced number of continuation bytes. The first argument
counts the continuation bytes the current sequence still needs. -/
def wellFormedFrom : Nat → List Nat → Bool
  | 0, [] => true
  | _ + 1, [] => false
  | 0, b :: rest =>
    match announced b with
    | none => false
    | some k => wellFormedFrom k rest
  | k + 1, b :: rest => isContinuation b && wellFormedFrom k rest

/-- Well-formed text in the sense of the specification. -/
def wellFormedUtf8 (s : List Nat) : Bool :=
  wellFormedFrom 0 s

/-- The verdict the specification asks of the validator, line by line: no over-long line,
every section name and path non-empty and well-formed, no path before the first section
header. -/
def specValid : List (List Nat) → Bool → Bool
  | [], _ => true
  | l :: ls, seen =>
    if 256 ≤ l.length then false
    else
      match classify l with
      | LineKind.comment => specValid ls seen
      | LineKind.header _ name =>
        decide (name ≠ []) && wellFormedUtf8 name && specValid ls true
      | LineKind.path p => seen && decide (p ≠ []) && wellFormedUtf8 p && specValid ls seen

/-- A path entry line. -/
def isPath (l : List Nat) : Bool :=
  match classify l with
  | LineKind.path _ => true
  | _ => false

/-- A section header line whose name is empty: stripped of surrounding whitespace it is `*`
alone, or `*` followed only by whitespace and an optional `!`. -/
def isEmptyNameHeader (l : List Nat) : Bool :=
  match strip l with
  | [] => false
  | c :: r =>
    decide (c = 42) && (decide (r.dropWhile isspace = []) || decide (r.dropWhile isspace = [33]))

/-- A document with `\n` line endings rewritten with `\r\n` line endings. -/
def toCRLF : List Nat → List Nat
  | [] => []
  | b :: bs => if b = 10 then 13 :: 10 :: toCRLF bs else b :: toCRLF bs

/-! ## Notions used to state the properties of the tokenizer -/

/-- The first `n` successive calls of `taihen_config_lex` from a context: the return value of
each call and the context it leaves. -/
def lex_calls : Nat → taihen_config_lexer → List (Int × taihen_config_lexer)
  | 0, _ => []
  | n + 1, ctx => taihen_config_lex ctx :: lex_calls n (taihen_config_lex ctx).2

/-- The tokenizer states reached from `taihen_config_init_lexer input` by one or more calls
of `taihen_config_lex` that each returned a positive value. -/
inductive Reachable (input : List Nat) : taihen_config_lexer → Prop
  | first : 0 < (taihen_config_lex (taihen_config_init_lexer input)).1 →
      Reachable input (taihen_config_lex (taihen_config_init_lexer input)).2
  | next (ctx : taihen_config_lexer) : Reachable input ctx → 0 < (taihen_config_lex ctx).1 →
      Reachable input (taihen_config_lex ctx).2

/-- Whitespace that can occur inside a line: space, tab, vertical tab, form feed. -/
def isBlank (c : Nat) : Bool :=
  c == 32 || c == 9 || c == 11 || c == 12

/-- A line with its leading and its trailing blanks removed. -/
def trimBlank (l : List Nat) : List Nat :=
  (l.dropWhile isBlank).rdropWhile isBlank

/-- A single line of text: no NUL, no `\r` and no `\n` in it. -/
def singleLine (l : List Nat) : Prop :=
  ∀ b ∈ l, b ≠ 0 ∧ b ≠ 10 ∧ b ≠ 13

/-- What holds of the payload cursor in every state reached by calls with a positive return
value: it is inside the line, on the `*` under a Section token and on the `!` under a
SectionHalt token. -/
def CursorInv (ctx : taihen_config_lexer) : Prop :=
  ctx.line_pos ≤ ctx.line.length
    ∧ (ctx.token = CONFIG_SECTION_TOKEN → line_pos_byte ctx.line ctx.line_pos = 42)
    ∧ (ctx.token = CONFIG_SECTION_HALT_TOKEN → line_pos_byte ctx.line ctx.line_pos = 33)
    ∧ ctx.token ≠ CONFIG_START_TOKEN ∧ ctx.token ≠ CONFIG_END_TOKEN

/-! ## Bytes, strings and lines -/

theorem isspace_iff (c : Nat) :
    isspace c = true ↔ c = 32 ∨ c = 9 ∨ c = 10 ∨ c = 11 ∨ c = 12 ∨ c = 13 := by
  simp [isspace, or_assoc]

theorem isEol_iff (c : Nat) : isEol c = true ↔ c = 10 ∨ c = 13 := by
  simp [isEol]

theorem strlen_le (s : List Nat) : strlen s ≤ s.length := by
  induction s with
  | nil => simp [strlen]
  | cons c cs ih => by_cases h : c = 0 <;> simp [strlen, h]; omega

theorem strlen_eq_length {s : List Nat} (h : 0 ∉ s) : strlen s = s.length := by
  induction s with
  | nil => simp [strlen]
  | cons c cs ih =>
    simp only [List.mem_cons, not_or] at h
    have hc : c ≠ 0 := fun e => h.1 e.symm
    simp [strlen, hc, ih h.2]

theorem take_strlen_of_not_mem {s : List Nat} (h : 0 ∉ s) : s.take (strlen s) = s := by
  rw [strlen_eq_length h, List.take_length]

theorem zero_not_mem_take_strlen (s : List Nat) : 0 ∉ s.take (strlen s) := by
  induction s with
  | nil => simp [strlen]
  | cons c cs ih =>
    by_cases h : c = 0
    · simp [strlen, h]
    · simp only [strlen, h, if_false, List.take_succ_cons, List.mem_cons, not_or]
      exact ⟨fun e => h e.symm, ih⟩

theorem take_strlen_append_of_mem {a : List Nat} (h : 0 ∈ a) (b : List Nat) :
    (a ++ b).take (strlen (a ++ b)) = a.take (strlen a) := by
  induction a with
  | nil => simp at h
  | cons c cs ih =>
    by_cases hc : c = 0
    · simp [strlen, hc]
    · have h' : 0 ∈ cs := by
        rcases List.mem_cons.1 h with e | e
        · exact absurd e.symm hc
        · exact e
      simp [strlen, hc, ih h']

theorem take_strlen_append_of_not_mem {a : List Nat} (h : 0 ∉ a) (b : List Nat) :
    (a ++ b).take (strlen (a ++ b)) = a ++ b.take (strlen b) := by
  induction a with
  | nil => simp
  | cons c cs ih =>
    simp only [List.mem_cons, not_or] at h
    have hc : c ≠ 0 := fun e => h.1 e.symm
    simp [strlen, hc, ih h.2]

/-! ## The buffer operations of the tokenizer -/

theorem line_pos_byte_eq (buf : List Nat) (pos : Nat) :
    line_pos_byte buf pos = (buf.drop pos).headD 0 := by
  induction buf generalizing pos with
  | nil => simp [line_pos_byte]
  | cons c cs ih =>
    cases pos with
    | zero => simp [line_pos_byte]
    | succ n => simp [line_pos_byte]

theorem drop_skip_whitespace_run (s : List Nat) :
    s.drop (skip_whitespace_run s) = s.dropWhile isspace := by
  induction s with
  | nil => simp [skip_whitespace_run]
  | cons c cs ih =>
    by_cases h : isspace c = true
    · simp [skip_whitespace_run, h, ih]
    · simp [skip_whitespace_run, h]

theorem drop_skip_whitespace (buf : List Nat) (pos : Nat) :
    buf.drop (skip_whitespace buf pos) = (buf.drop pos).dropWhile isspace := by
  rw [skip_whitespace, ← List.drop_drop, drop_skip_whitespace_run]

theorem trim_whitespace_run_eq (cs : List Nat) :
    trim_whitespace_run cs = cs.rdropWhile isspace := rfl

theorem drop_trim_whitespace (buf : List Nat) (pos : Nat) (c : Nat) (cs : List Nat)
    (h : buf.drop pos = c :: cs) :
    (trim_whitespace buf pos).drop pos = c :: cs.rdropWhile isspace := by
  have hlen : pos ≤ buf.length := by
    by_contra hc
    have : buf.drop pos = [] := List.drop_eq_nil_of_le (by omega)
    simp [this] at h
  simp only [trim_whitespace, h, trim_whitespace_run_eq]
  rw [List.drop_append_eq_append_drop]
  simp [List.length_take, Nat.min_eq_left hlen]

theorem rdropWhile_cons_of_neg {p : Nat → Bool} (c : Nat) (cs : List Nat) (h : p c = false) :
    (c :: cs).rdropWhile p = c :: cs.rdropWhile p := by
  induction cs using List.reverseRecOn with
  | nil => simp [List.rdropWhile_singleton, h]
  | append_singleton l a ih =>
    by_cases ha : p a = true
    · rw [← List.cons_append, List.rdropWhile_concat_pos _ _ _ ha,
        List.rdropWhile_concat_pos _ _ _ ha, ih]
    · rw [← List.cons_append, List.rdropWhile_concat_neg _ _ _ ha,
        List.rdropWhile_concat_neg _ _ _ ha, List.cons_append]

/-! ## One physical line through the tokenizer -/

theorem lex_of_atLineStart {ctx : taihen_config_lexer} (h : AtLineStart ctx.token) :
    taihen_config_lex ctx = lex_line ctx := by
  rcases h with h | h | h | h <;> simp [taihen_config_lex, h]

theorem lex_line_nil {ctx : taihen_config_lexer} (h : ctx.input = []) :
    lex_line ctx = (0, { ctx with token := CONFIG_END_TOKEN }) := by
  simp [lex_line, h]

theorem lex_line_long {ctx : taihen_config_lexer} (hne : ctx.input ≠ [])
    (h : 256 ≤ get_newline ctx.input) : lex_line ctx = (-1, ctx) := by
  simp [lex_line, hne, CONFIG_MAX_LINE_LENGTH, h]

theorem dropWhile_head_not_space (l : List Nat) (c : Nat) (cs : List Nat)
    (h : l.dropWhile isspace = c :: cs) : isspace c = false := by
  have := List.head_dropWhile_not isspace l (by simp [h])
  simpa [h] using this

theorem strip_of_dropWhile_cons (l : List Nat) (c : Nat) (cs : List Nat)
    (h : l.dropWhile isspace = c :: cs) : strip l = c :: cs.rdropWhile isspace := by
  rw [strip, h, rdropWhile_cons_of_neg c cs (dropWhile_head_not_space l c cs h)]

theorem strip_of_dropWhile_nil (l : List Nat) (h : l.dropWhile isspace = []) : strip l = [] := by
  simp [strip, h]

theorem mem_take_get_newline (s : List Nat) :
    ∀ x ∈ s.take (get_newline s), x ≠ 0 ∧ x ≠ 13 ∧ x ≠ 10 := by
  induction s with
  | nil => simp [get_newline]
  | cons c cs ih =>
    by_cases h : c = 0 ∨ c = 13 ∨ c = 10
    · simp [get_newline, h]
    · intro x hx
      simp only [get_newline, h, if_false, List.take_succ_cons, List.mem_cons] at hx
      rcases hx with e | e
      · subst e; simpa [not_or] using h
      · exact ih x e

theorem lex_line_spec (ctx : taihen_config_lexer) (hne : ctx.input ≠ [])
    (hlen : get_newline ctx.input < 256) :
    ∃ ctx1, lex_line ctx = (1, ctx1)
      ∧ ctx1.input = ctx.input.drop (get_newline ctx.input + 1)
      ∧ ((classify (ctx.input.take (get_newline ctx.input)) = LineKind.comment
            ∧ ctx1.token = CONFIG_COMMENT_TOKEN)
        ∨ (∃ p, classify (ctx.input.take (get_newline ctx.input)) = LineKind.path p
            ∧ ctx1.token = CONFIG_PATH_TOKEN ∧ line_pos_str ctx1 = p)
        ∨ (∃ r, strip (ctx.input.take (get_newline ctx.input)) = 42 :: r
            ∧ ctx1.token = CONFIG_SECTION_TOKEN ∧ line_pos_str ctx1 = 42 :: r)) := by
  have hmem := mem_take_get_newline ctx.input
  generalize hl : ctx.input.take (get_newline ctx.input) = l at hmem
  have hlen' : ¬ (get_newline ctx.input ≥ CONFIG_MAX_LINE_LENGTH) := by
    simp [CONFIG_MAX_LINE_LENGTH]; omega
  have hd : l.drop (skip_whitespace l 0) = l.dropWhile isspace := by
    simpa using drop_skip_whitespace l 0
  cases hs : l.dropWhile isspace with
  | nil =>
    refine ⟨{ input := ctx.input.drop (get_newline ctx.input + 1),
              token := CONFIG_COMMENT_TOKEN, line := l, line_pos := skip_whitespace l 0 },
      ?_, rfl, Or.inl ⟨?_, rfl⟩⟩
    · simp [lex_line, hne, hlen', hl, line_pos_byte_eq, hd, hs, TOKEN_EMPTY]
    · simp [classify, strip_of_dropWhile_nil l hs]
  | cons c cs =>
    have hc := dropWhile_head_not_space l c cs hs
    have hc0 : c ≠ 0 := by
      have hin : c ∈ l := by
        have : c ∈ l.dropWhile isspace := by simp [hs]
        exact (List.dropWhile_sublist isspace).subset this
      exact (hmem c hin).1
    have hstrip := strip_of_dropWhile_cons l c cs hs
    have htrim := drop_trim_whitespace l (skip_whitespace l 0) c cs (by rw [hd, hs])
    by_cases h35 : c = 35
    · refine ⟨{ input := ctx.input.drop (get_newline ctx.input + 1),
                token := CONFIG_COMMENT_TOKEN, line := l, line_pos := skip_whitespace l 0 },
        ?_, rfl, Or.inl ⟨?_, rfl⟩⟩
      · simp [lex_line, hne, hlen', hl, line_pos_byte_eq, hd, hs, TOKEN_EMPTY,
          TOKEN_COMMENT_START, h35]
      · simp [classify, hstrip, h35]
    · by_cases h42 : c = 42
      · refine ⟨{ input := ctx.input.drop (get_newline ctx.input + 1),
                  token := CONFIG_SECTION_TOKEN,
                  line := trim_whitespace l (skip_whitespace l 0),
                  line_pos := skip_whitespace l 0 },
          ?_, rfl, Or.inr (Or.inr ⟨cs.rdropWhile isspace, ?_, rfl, ?_⟩)⟩
        · simp [lex_line, hne, hlen', hl, line_pos_byte_eq, hd, hs, TOKEN_EMPTY,
            TOKEN_COMMENT_START, TOKEN_SECTION_START, h42, htrim]
        · rw [hstrip, h42]
        · simp [line_pos_str, htrim, h42]
      · refine ⟨{ input := ctx.input.drop (get_newline ctx.input + 1),
                  token := CONFIG_PATH_TOKEN,
                  line := trim_whitespace l (skip_whitespace l 0),
                  line_pos := skip_whitespace l 0 },
          ?_, rfl, Or.inr (Or.inl ⟨c :: cs.rdropWhile isspace, ?_, rfl, ?_⟩)⟩
        · simp [lex_line, hne, hlen', hl, line_pos_byte_eq, hd, hs, TOKEN_EMPTY,
            TOKEN_COMMENT_START, TOKEN_SECTION_START, h42, h35, hc0, htrim]
        · simp [classify, hstrip, h35, h42]
        · simp [line_pos_str, htrim]

theorem lex_section_spec (ctx1 : taihen_config_lexer) (r : List Nat)
    (htok : ctx1.token = CONFIG_SECTION_TOKEN) (hstr : line_pos_str ctx1 = 42 :: r) :
    ((r.dropWhile isspace).head? = some 33 →
      ∃ ctx2 ctx3, taihen_config_lex ctx1 = (1, ctx2)
        ∧ ctx2.token = CONFIG_SECTION_HALT_TOKEN
        ∧ taihen_config_lex ctx2 = (1, ctx3)
        ∧ ctx3.token = CONFIG_SECTION_NAME_TOKEN ∧ ctx3.input = ctx1.input
        ∧ line_pos_str ctx3 = (r.dropWhile isspace).tail.dropWhile isspace)
    ∧ ((r.dropWhile isspace).head? ≠ some 33 →
      ∃ ctx2, taihen_config_lex ctx1 = (1, ctx2)
        ∧ ctx2.token = CONFIG_SECTION_NAME_TOKEN ∧ ctx2.input = ctx1.input
        ∧ line_pos_str ctx2 = r.dropWhile isspace) := by
  have h1 : ctx1.line.drop (skip_whitespace ctx1.line (ctx1.line_pos + 1))
      = r.dropWhile isspace := by
    rw [drop_skip_whitespace, ← List.tail_drop]
    simp only [line_pos_str] at hstr
    rw [hstr, List.tail_cons]
  constructor
  · intro h33
    have hb : line_pos_byte ctx1.line (skip_whitespace ctx1.line (ctx1.line_pos + 1)) = 33 := by
      rw [line_pos_byte_eq, h1]
      cases hr : r.dropWhile isspace with
      | nil => simp [hr] at h33
      | cons a as => simpa [hr] using h33
    refine ⟨{ ctx1 with line_pos := skip_whitespace ctx1.line (ctx1.line_pos + 1),
                        token := CONFIG_SECTION_HALT_TOKEN },
            { ctx1 with line_pos := skip_whitespace ctx1.line
                          (skip_whitespace ctx1.line (ctx1.line_pos + 1) + 1),
                        token := CONFIG_SECTION_NAME_TOKEN }, ?_, rfl, ?_, rfl, rfl, ?_⟩
    · simp [taihen_config_lex, htok, lex_section_halt, hb, TOKEN_HALT]
    · simp [taihen_config_lex, lex_section_name]
    · simp only [line_pos_str]
      rw [drop_skip_whitespace, ← List.tail_drop, h1]
  · intro h33
    have hb : line_pos_byte ctx1.line (skip_whitespace ctx1.line (ctx1.line_pos + 1)) ≠ 33 := by
      rw [line_pos_byte_eq, h1]
      cases hr : r.dropWhile isspace with
      | nil => simp
      | cons a as => simpa [hr] using h33
    refine ⟨{ ctx1 with line_pos := skip_whitespace ctx1.line (ctx1.line_pos + 1),
                        token := CONFIG_SECTION_NAME_TOKEN }, ?_, rfl, rfl, ?_⟩
    · simp [taihen_config_lex, htok, lex_section_halt, hb, TOKEN_HALT]
    · simpa [line_pos_str] using h1

theorem classify_of_strip_star (l r : List Nat) (h : strip l = 42 :: r) :
    classify l = if (r.dropWhile isspace).head? = some 33
      then LineKind.header true ((r.dropWhile isspace).tail.dropWhile isspace)
      else LineKind.header false (r.dropWhile isspace) := by
  simp [classify, h]

theorem get_newline_le (s : List Nat) : get_newline s ≤ s.length := by
  induction s with
  | nil => simp [get_newline]
  | cons c cs ih => by_cases h : c = 0 ∨ c = 13 ∨ c = 10 <;> simp [get_newline, h]; omega

theorem get_newline_decomp (s : List Nat) (h0 : 0 ∉ s) :
    (get_newline s = s.length ∧ ∀ x ∈ s, ¬ isEol x = true)
    ∨ (get_newline s < s.length ∧ ∃ sep, isEol sep = true
        ∧ s = s.take (get_newline s) ++ sep :: s.drop (get_newline s + 1)) := by
  induction s with
  | nil => simp [get_newline]
  | cons c cs ih =>
    simp only [List.mem_cons, not_or] at h0
    have hc0 : c ≠ 0 := fun e => h0.1 e.symm
    by_cases h : c = 13 ∨ c = 10
    · right
      have h' : c = 0 ∨ c = 13 ∨ c = 10 := Or.inr h
      refine ⟨by simp [get_newline, h'], c, ?_, by simp [get_newline, h']⟩
      rcases h with e | e <;> simp [isEol, e]
    · have h' : ¬ (c = 0 ∨ c = 13 ∨ c = 10) := by
        simp only [not_or] at h ⊢; exact ⟨hc0, h.1, h.2⟩
      have hce : ¬ isEol c = true := by
        simp only [not_or] at h; simp [isEol, h.1, h.2]
      rcases ih h0.2 with ⟨e, hall⟩ | ⟨hlt, sep, hsep, hdec⟩
      · left
        refine ⟨by simp [get_newline, h', e], ?_⟩
        intro x hx
        rcases List.mem_cons.1 hx with e' | e'
        · subst e'; exact hce
        · exact hall x e'
      · right
        refine ⟨by simp [get_newline, h']; omega, sep, hsep, ?_⟩
        simp only [get_newline, h', if_false, List.take_succ_cons, List.drop_succ_cons,
          List.cons_append]
        rw [← hdec]

theorem not_isEol_of_mem_take (s : List Nat) :
    ∀ x ∈ s.take (get_newline s), ¬ isEol x = true := by
  intro x hx
  have := mem_take_get_newline s x hx
  simp [isEol, this.2.1, this.2.2]

/-- The lines of a non-empty NUL-free input: the line `get_newline` delimits, then the lines
of the input after its terminator, if it has one. -/
theorem physLines_eq (s : List Nat) (h0 : 0 ∉ s) :
    (get_newline s = s.length ∧ physLines s = [s.take (get_newline s)]
      ∧ s.drop (get_newline s + 1) = [])
    ∨ (get_newline s < s.length
        ∧ physLines s = s.take (get_newline s) :: physLines (s.drop (get_newline s + 1))) := by
  rcases get_newline_decomp s h0 with ⟨e, hall⟩ | ⟨hlt, sep, hsep, hdec⟩
  · left
    refine ⟨e, ?_, ?_⟩
    · rw [e, List.take_length, physLines, List.splitOnP_eq_single isEol s hall]
    · rw [e]; simp
  · right
    refine ⟨hlt, ?_⟩
    conv_lhs => rw [physLines, hdec]
    rw [List.splitOnP_first isEol _ (not_isEol_of_mem_take s) sep hsep, physLines]

theorem strcmp_eq_zero_iff (a b : List Nat) :
    strcmp a b = 0 ↔ a.take (strlen a) = b.take (strlen b) := by
  induction a generalizing b with
  | nil =>
    cases b with
    | nil => simp [strcmp, strlen]
    | cons b bs =>
      by_cases hb : b = 0
      · simp [strcmp, strlen, hb]
      · simp [strcmp, strlen, hb]
  | cons a as ih =>
    cases b with
    | nil =>
      by_cases ha : a = 0
      · simp [strcmp, strlen, ha]
      · simp [strcmp, strlen, ha]
    | cons b bs =>
      by_cases ha : a = 0
      · by_cases hb : b = 0
        · simp [strcmp, strlen, ha, hb]
        · have : (b : Int) ≠ 0 := by exact_mod_cast hb
          simp [strcmp, strlen, ha, hb, this]
      · by_cases hab : a = b
        · subst hab
          simp [strcmp, strlen, ha, ih]
        · have hne : (a : Int) - (b : Int) ≠ 0 := by
            intro e; apply hab; have : (a : Int) = b := by omega
            exact_mod_cast this
          by_cases hb : b = 0
          · simp [strcmp, strlen, ha, hab, hb, hne]
          · simp [strcmp, strlen, ha, hab, hb, hne]

/-! ## The filter loop, line by line -/

theorem strip_subset (l : List Nat) : ∀ x ∈ strip l, x ∈ l := by
  intro x hx
  have h1 : x ∈ l.dropWhile isspace := (List.rdropWhile_prefix isspace _).subset hx
  exact (List.dropWhile_sublist isspace).subset h1

theorem classify_header_subset {l : List Nat} {hm : Bool} {n : List Nat}
    (h : classify l = LineKind.header hm n) : ∀ x ∈ n, x ∈ l := by
  intro x hx
  apply strip_subset
  unfold classify at h
  split at h
  · simp at h
  · rename_i c r hs
    rw [hs]
    split_ifs at h with h1 h2 h3
    · simp only [LineKind.header.injEq] at h
      rw [← h.2] at hx
      have h4 : x ∈ (r.dropWhile isspace).tail := (List.dropWhile_sublist isspace).subset hx
      have h5 : x ∈ r.dropWhile isspace := List.mem_of_mem_tail h4
      exact List.mem_cons_of_mem _ ((List.dropWhile_sublist isspace).subset h5)
    · simp only [LineKind.header.injEq] at h
      rw [← h.2] at hx
      exact List.mem_cons_of_mem _ ((List.dropWhile_sublist isspace).subset hx)

theorem classify_path_eq {l p : List Nat} (h : classify l = LineKind.path p) :
    p = strip l ∧ p ≠ [] := by
  unfold classify at h
  split at h
  · simp at h
  · rename_i c r hs
    split_ifs at h with h1 h2 h3
    simp only [LineKind.path.injEq] at h
    rw [hs, ← h]; simp

theorem parse_loop_step_le (q : List Nat) (f : Nat) (ctx ctx1 : taihen_config_lexer)
    (v : Int) (h r : Bool) (hlex : taihen_config_lex ctx = (v, ctx1)) (hv : v ≤ 0) :
    parse_loop q (f + 1) ctx h r = some [] := by
  have : ¬ v > 0 := by omega
  simp [parse_loop, hlex, this]

theorem parse_loop_step_comment (q : List Nat) (f : Nat) (ctx ctx1 : taihen_config_lexer)
    (h r : Bool) (hlex : taihen_config_lex ctx = (1, ctx1))
    (htok : ctx1.token = CONFIG_COMMENT_TOKEN) :
    parse_loop q (f + 1) ctx h r = parse_loop q f ctx1 h r := by
  simp [parse_loop, hlex, htok]

theorem parse_loop_step_path (q : List Nat) (f : Nat) (ctx ctx1 : taihen_config_lexer)
    (h r : Bool) (hlex : taihen_config_lex ctx = (1, ctx1))
    (htok : ctx1.token = CONFIG_PATH_TOKEN) :
    parse_loop q (f + 1) ctx h r =
      if r = true then (parse_loop q f ctx1 h r).map (fun calls => line_pos_str ctx1 :: calls)
      else parse_loop q f ctx1 h r := by
  simp [parse_loop, hlex, htok]

theorem parse_loop_step_section (q : List Nat) (f : Nat) (ctx ctx1 : taihen_config_lexer)
    (h r : Bool) (hlex : taihen_config_lex ctx = (1, ctx1))
    (htok : ctx1.token = CONFIG_SECTION_TOKEN) :
    parse_loop q (f + 1) ctx h r =
      if (r && h) = true then some [] else parse_loop q f ctx1 false r := by
  simp [parse_loop, hlex, htok]

theorem parse_loop_step_halt (q : List Nat) (f : Nat) (ctx ctx1 : taihen_config_lexer)
    (h r : Bool) (hlex : taihen_config_lex ctx = (1, ctx1))
    (htok : ctx1.token = CONFIG_SECTION_HALT_TOKEN) :
    parse_loop q (f + 1) ctx h r = parse_loop q f ctx1 true r := by
  simp [parse_loop, hlex, htok]

theorem ite_record {α : Type} (P : Bool → α) (a b c d : Prop) [Decidable a] [Decidable b]
    [Decidable c] [Decidable d] (hcd : c ↔ d) :
    (if a ∧ ¬ b then P true else if c then P true else P false)
      = P (decide d || (decide a && !decide b)) := by
  by_cases ha : a <;> by_cases hb : b <;> by_cases hc : c <;>
    simp [ha, hb, hc, ← hcd]

theorem parse_loop_step_name (q : List Nat) (f : Nat) (ctx ctx1 : taihen_config_lexer)
    (h r : Bool) (hlex : taihen_config_lex ctx = (1, ctx1))
    (htok : ctx1.token = CONFIG_SECTION_NAME_TOKEN) (h0 : 0 ∉ line_pos_str ctx1) :
    parse_loop q (f + 1) ctx h r =
      parse_loop q f ctx1 h (recorded (q.take (strlen q)) (line_pos_str ctx1)) := by
  have e1 : strcmp (line_pos_str ctx1) TOKEN_ALL_SECTION = 0
      ↔ line_pos_str ctx1 = TOKEN_ALL_SECTION := by
    rw [strcmp_eq_zero_iff, take_strlen_of_not_mem h0]; exact Iff.rfl
  have e2 : strcmp q TOKEN_KERNEL_SECTION = 0
      ↔ q.take (strlen q) = TOKEN_KERNEL_SECTION := by
    rw [strcmp_eq_zero_iff]; exact Iff.rfl
  have e3 : strcmp q (line_pos_str ctx1) = 0 ↔ q.take (strlen q) = line_pos_str ctx1 := by
    rw [strcmp_eq_zero_iff, take_strlen_of_not_mem h0]
  rw [parse_loop]
  simp only [hlex, htok, e1, e2, e3, recorded, gt_iff_lt, Int.one_pos, if_true, ne_eq]
  exact ite_record (fun b => parse_loop q f ctx1 h b) _ _ _ _ eq_comm

theorem classify_nil : classify [] = LineKind.comment := by
  simp [classify, strip]

theorem physLines_nil : physLines [] = [[]] := by
  simp [physLines]

theorem physLines_cons (s : List Nat) (h0 : 0 ∉ s) :
    ∃ tl, physLines s = s.take (get_newline s) :: tl
      ∧ (tl = physLines (s.drop (get_newline s + 1))
          ∨ (tl = [] ∧ s.drop (get_newline s + 1) = [])) := by
  rcases physLines_eq s h0 with ⟨_, h2, h3⟩ | ⟨_, h2⟩
  · exact ⟨[], h2, Or.inr ⟨rfl, h3⟩⟩
  · exact ⟨_, h2, Or.inl rfl⟩

theorem scanOut_tail (q : List Nat) (rest : List Nat) (tl' : List (List Nat))
    (h : tl' = physLines rest ∨ (tl' = [] ∧ rest = [])) (hf rf : Bool) :
    scanOut q tl' hf rf = scanOut q (physLines rest) hf rf := by
  rcases h with h | ⟨h1, h2⟩
  · rw [h]
  · rw [h1, h2, physLines_nil]; simp [scanOut, classify_nil]

theorem length_take_get_newline (s : List Nat) : (s.take (get_newline s)).length = get_newline s := by
  rw [List.length_take, Nat.min_eq_left (get_newline_le s)]

theorem not_mem_drop {s : List Nat} (h0 : 0 ∉ s) (k : Nat) : 0 ∉ s.drop k :=
  fun h => h0 ((List.drop_sublist k s).subset h)

theorem zero_not_mem_take_get_newline (s : List Nat) : 0 ∉ s.take (get_newline s) :=
  fun h => (mem_take_get_newline s 0 h).1 rfl

theorem length_drop_lt {s : List Nat} (h : s ≠ []) (k : Nat) : (s.drop (k + 1)).length < s.length := by
  have : 0 < s.length := List.length_pos.2 h
  rw [List.length_drop]; omega

/-- The filter loop, started where a line is to be read with enough budget, makes the calls
the line-level scan lists. -/
theorem parse_loop_eq (q : List Nat) :
    ∀ (n : Nat) (ctx : taihen_config_lexer) (h r : Bool) (fuel : Nat),
      ctx.input.length ≤ n → AtLineStart ctx.token → 0 ∉ ctx.input →
      3 * ctx.input.length + 1 ≤ fuel →
      parse_loop q fuel ctx h r
        = some (scanOut (q.take (strlen q)) (physLines ctx.input) h r) := by
  intro n
  induction n with
  | zero =>
    intro ctx h r fuel hn hs h0 hf
    have hnil : ctx.input = [] := List.length_eq_zero.1 (by omega)
    obtain ⟨f, rfl⟩ : ∃ f, fuel = f + 1 := ⟨fuel - 1, by omega⟩
    rw [parse_loop_step_le q f ctx _ 0 h r
      (by rw [lex_of_atLineStart hs, lex_line_nil hnil]) (le_refl _), hnil, physLines_nil]
    simp [scanOut, classify_nil]
  | succ n ih =>
    intro ctx h r fuel hn hs h0 hf
    by_cases hnil : ctx.input = []
    · obtain ⟨f, rfl⟩ : ∃ f, fuel = f + 1 := ⟨fuel - 1, by omega⟩
      rw [parse_loop_step_le q f ctx _ 0 h r
        (by rw [lex_of_atLineStart hs, lex_line_nil hnil]) (le_refl _), hnil, physLines_nil]
      simp [scanOut, classify_nil]
    · obtain ⟨tl, hpl, htl⟩ := physLines_cons ctx.input h0
      have hrest := length_drop_lt hnil (get_newline ctx.input)
      have h0r : 0 ∉ ctx.input.drop (get_newline ctx.input + 1) := not_mem_drop h0 _
      have hll := length_take_get_newline ctx.input
      obtain ⟨f, rfl⟩ : ∃ f, fuel = f + 3 := ⟨fuel - 3, by omega⟩
      by_cases hlong : 256 ≤ get_newline ctx.input
      · rw [parse_loop_step_le q (f + 2) ctx ctx (-1) h r
          (by rw [lex_of_atLineStart hs, lex_line_long hnil hlong]) (by omega), hpl]
        simp [scanOut, hll, hlong]
      · have hshort : ¬ 256 ≤ (ctx.input.take (get_newline ctx.input)).length := by
          rw [hll]; exact hlong
        obtain ⟨ctx1, hlex, hin, hk⟩ := lex_line_spec ctx hnil (by omega)
        rw [← lex_of_atLineStart hs] at hlex
        rw [hpl]
        rcases hk with ⟨hc, htok⟩ | ⟨p, hc, htok, hp⟩ | ⟨r', hst, htok, hp⟩
        · rw [parse_loop_step_comment q (f + 2) ctx ctx1 h r hlex htok,
            ih ctx1 h r (f + 2) (by rw [hin]; omega) (by simp [AtLineStart, htok])
              (by rw [hin]; exact h0r) (by rw [hin]; omega), hin]
          simp only [scanOut, hshort, if_false, hc]
          rw [scanOut_tail _ _ _ htl]
        · rw [parse_loop_step_path q (f + 2) ctx ctx1 h r hlex htok,
            ih ctx1 h r (f + 2) (by rw [hin]; omega) (by simp [AtLineStart, htok])
              (by rw [hin]; exact h0r) (by rw [hin]; omega), hin, hp]
          simp only [scanOut, hshort, if_false, hc]
          rw [scanOut_tail _ _ _ htl]
          cases r <;> simp
        · have hcl := classify_of_strip_star _ r' hst
          rw [parse_loop_step_section q (f + 2) ctx ctx1 h r hlex htok]
          obtain ⟨hyes, hno⟩ := lex_section_spec ctx1 r' htok hp
          by_cases h33 : (r'.dropWhile isspace).head? = some 33
          · rw [if_pos h33] at hcl
            obtain ⟨ctx2, ctx3, hlex2, htok2, hlex3, htok3, hin3, hp3⟩ := hyes h33
            have hn0 : 0 ∉ line_pos_str ctx3 := by
              rw [hp3]
              exact fun hm => zero_not_mem_take_get_newline ctx.input
                (classify_header_subset hcl 0 hm)
            simp only [scanOut, hshort, if_false, hcl]
            by_cases hrh : (r && h) = true
            · simp [hrh]
            · rw [if_neg hrh, if_neg hrh, parse_loop_step_halt q (f + 1) ctx1 ctx2 false r hlex2 htok2,
                parse_loop_step_name q f ctx2 ctx3 true r hlex3 htok3 hn0,
                ih ctx3 _ _ f (by rw [hin3, hin]; omega) (by simp [AtLineStart, htok3])
                  (by rw [hin3, hin]; exact h0r) (by rw [hin3, hin]; omega), hin3, hin, hp3]
              rw [scanOut_tail _ _ _ htl]
          · rw [if_neg h33] at hcl
            obtain ⟨ctx2, hlex2, htok2, hin2, hp2⟩ := hno h33
            have hn0 : 0 ∉ line_pos_str ctx2 := by
              rw [hp2]
              exact fun hm => zero_not_mem_take_get_newline ctx.input
                (classify_header_subset hcl 0 hm)
            simp only [scanOut, hshort, if_false, hcl]
            by_cases hrh : (r && h) = true
            · simp [hrh]
            · rw [if_neg hrh, if_neg hrh,
                parse_loop_step_name q (f + 1) ctx1 ctx2 false r hlex2 htok2 hn0,
                ih ctx2 _ _ (f + 1) (by rw [hin2, hin]; omega) (by simp [AtLineStart, htok2])
                  (by rw [hin2, hin]; exact h0r) (by rw [hin2, hin]; omega), hin2, hin, hp2]
              rw [scanOut_tail _ _ _ htl]

/-- The filter, line by line: its calls are those of the line-level scan of the physical lines
of the document, read up to its terminator, for the requested section read up to its own. -/
theorem taihen_config_parse_eq (input q : List Nat) :
    taihen_config_parse input q
      = some (scanOut (q.take (strlen q)) (physLines (input.take (strlen input))) false false) := by
  have hlen : (input.take (strlen input)).length ≤ input.length := by
    rw [List.length_take]; exact Nat.min_le_right _ _
  exact parse_loop_eq q _ (taihen_config_init_lexer input) false false _ (le_refl _)
    (Or.inl rfl) (zero_not_mem_take_strlen input)
    (by simp only [taihen_config_init_lexer]; omega)

/-! ## The validator loop, line by line -/

theorem check_utf8_rows_pos (s : List Nat) (rows : List (Nat × Nat × Nat)) (k : Nat)
    (h : check_utf8_rows s rows = some k) : 1 ≤ k := by
  induction rows with
  | nil => simp [check_utf8_rows] at h
  | cons row rows ih =>
    obtain ⟨mask, lead, cont_len⟩ := row
    simp only [check_utf8_rows] at h
    split_ifs at h with h1 h2
    · simp only [Option.some.injEq] at h; omega
    · exact ih h

theorem check_utf8_loop_isSome (fuel : Nat) (s : List Nat) (h : s.length ≤ fuel) :
    ∃ v, check_utf8_loop fuel s = some v := by
  induction fuel generalizing s with
  | zero =>
    have : s = [] := List.length_eq_zero.1 (by omega)
    subst this
    exact ⟨1, by simp [check_utf8_loop]⟩
  | succ f ih =>
    cases s with
    | nil => exact ⟨1, by simp [check_utf8_loop]⟩
    | cons c cs =>
      simp only [check_utf8_loop]
      cases hr : check_utf8_rows (c :: cs) utf8_lut with
      | none => exact ⟨0, rfl⟩
      | some k =>
        have hk := check_utf8_rows_pos _ _ _ hr
        apply ih
        rw [List.length_drop]
        simp only [List.length_cons] at h ⊢
        omega

/-- The well-formedness scan returns. -/
theorem check_utf8_isSome (str : List Nat) : ∃ v, check_utf8 str = some v :=
  check_utf8_loop_isSome _ _ (by rw [List.length_take]; exact Nat.min_le_left _ _)

theorem strlen_eq_zero_iff {s : List Nat} (h0 : 0 ∉ s) : strlen s = 0 ↔ s = [] := by
  rw [strlen_eq_length h0, List.length_eq_zero]

theorem validate_loop_step_le (f : Nat) (ctx ctx1 : taihen_config_lexer) (v : Int) (hs : Bool)
    (hlex : taihen_config_lex ctx = (v, ctx1)) (hv : v ≤ 0) :
    validate_loop (f + 1) ctx hs = some (if v = 0 then 1 else 0) := by
  have : ¬ v > 0 := by omega
  simp [validate_loop, hlex, this]

theorem validate_loop_step_comment (f : Nat) (ctx ctx1 : taihen_config_lexer) (hs : Bool)
    (hlex : taihen_config_lex ctx = (1, ctx1)) (htok : ctx1.token = CONFIG_COMMENT_TOKEN) :
    validate_loop (f + 1) ctx hs = validate_loop f ctx1 hs := by
  simp [validate_loop, hlex, htok]

theorem validate_loop_step_section (f : Nat) (ctx ctx1 : taihen_config_lexer) (hs : Bool)
    (hlex : taihen_config_lex ctx = (1, ctx1)) (htok : ctx1.token = CONFIG_SECTION_TOKEN) :
    validate_loop (f + 1) ctx hs = validate_loop f ctx1 hs := by
  simp [validate_loop, hlex, htok]

theorem validate_loop_step_halt (f : Nat) (ctx ctx1 : taihen_config_lexer) (hs : Bool)
    (hlex : taihen_config_lex ctx = (1, ctx1)) (htok : ctx1.token = CONFIG_SECTION_HALT_TOKEN) :
    validate_loop (f + 1) ctx hs = validate_loop f ctx1 hs := by
  simp [validate_loop, hlex, htok]

theorem validate_loop_step_name (f : Nat) (ctx ctx1 : taihen_config_lexer) (hs : Bool)
    (hlex : taihen_config_lex ctx = (1, ctx1)) (htok : ctx1.token = CONFIG_SECTION_NAME_TOKEN)
    (h0 : 0 ∉ line_pos_str ctx1) :
    validate_loop (f + 1) ctx hs =
      if (decide (line_pos_str ctx1 ≠ []) && decide (check_utf8 (line_pos_str ctx1) ≠ some 0)) = true
      then validate_loop f ctx1 true else some 0 := by
  obtain ⟨v, hv⟩ := check_utf8_isSome (line_pos_str ctx1)
  rw [validate_loop]
  simp only [hlex, htok, strlen_eq_zero_iff h0, hv]
  by_cases h1 : line_pos_str ctx1 = [] <;> by_cases h2 : v = 0 <;> simp [h1, h2]

theorem validate_loop_step_path (f : Nat) (ctx ctx1 : taihen_config_lexer) (hs : Bool)
    (hlex : taihen_config_lex ctx = (1, ctx1)) (htok : ctx1.token = CONFIG_PATH_TOKEN)
    (h0 : 0 ∉ line_pos_str ctx1) :
    validate_loop (f + 1) ctx hs =
      if (hs && decide (line_pos_str ctx1 ≠ [])
          && decide (check_utf8 (line_pos_str ctx1) ≠ some 0)) = true
      then validate_loop f ctx1 hs else some 0 := by
  obtain ⟨v, hv⟩ := check_utf8_isSome (line_pos_str ctx1)
  rw [validate_loop]
  simp only [hlex, htok, strlen_eq_zero_iff h0, hv]
  cases hs <;> by_cases h1 : line_pos_str ctx1 = [] <;> by_cases h2 : v = 0 <;> simp [h1, h2]

theorem validLines_tail (rest : List Nat) (tl' : List (List Nat))
    (h : tl' = physLines rest ∨ (tl' = [] ∧ rest = [])) (hs : Bool) :
    validLines tl' hs = validLines (physLines rest) hs := by
  rcases h with h | ⟨h1, h2⟩
  · rw [h]
  · rw [h1, h2, physLines_nil]; simp [validLines, classify_nil]

theorem classify_path_subset {l p : List Nat} (h : classify l = LineKind.path p) :
    ∀ x ∈ p, x ∈ l := by
  rw [(classify_path_eq h).1]; exact strip_subset l

/-- The validator loop, started where a line is to be read with enough budget, returns the
line-level verdict. -/
theorem validate_loop_eq :
    ∀ (n : Nat) (ctx : taihen_config_lexer) (hs : Bool) (fuel : Nat),
      ctx.input.length ≤ n → AtLineStart ctx.token → 0 ∉ ctx.input →
      3 * ctx.input.length + 1 ≤ fuel →
      validate_loop fuel ctx hs
        = some (if validLines (physLines ctx.input) hs = true then 1 else 0) := by
  intro n
  induction n with
  | zero =>
    intro ctx hs fuel hn hst h0 hf
    have hnil : ctx.input = [] := List.length_eq_zero.1 (by omega)
    obtain ⟨f, rfl⟩ : ∃ f, fuel = f + 1 := ⟨fuel - 1, by omega⟩
    rw [validate_loop_step_le f ctx _ 0 hs
      (by rw [lex_of_atLineStart hst, lex_line_nil hnil]) (le_refl _), hnil, physLines_nil]
    simp [validLines, classify_nil]
  | succ n ih =>
    intro ctx hs fuel hn hst h0 hf
    by_cases hnil : ctx.input = []
    · obtain ⟨f, rfl⟩ : ∃ f, fuel = f + 1 := ⟨fuel - 1, by omega⟩
      rw [validate_loop_step_le f ctx _ 0 hs
        (by rw [lex_of_atLineStart hst, lex_line_nil hnil]) (le_refl _), hnil, physLines_nil]
      simp [validLines, classify_nil]
    · obtain ⟨tl, hpl, htl⟩ := physLines_cons ctx.input h0
      have hrest := length_drop_lt hnil (get_newline ctx.input)
      have h0r : 0 ∉ ctx.input.drop (get_newline ctx.input + 1) := not_mem_drop h0 _
      have hll := length_take_get_newline ctx.input
      obtain ⟨f, rfl⟩ : ∃ f, fuel = f + 3 := ⟨fuel - 3, by omega⟩
      by_cases hlong : 256 ≤ get_newline ctx.input
      · rw [validate_loop_step_le (f + 2) ctx ctx (-1) hs
          (by rw [lex_of_atLineStart hst, lex_line_long hnil hlong]) (by omega), hpl]
        simp [validLines, hll, hlong]
      · have hshort : ¬ 256 ≤ (ctx.input.take (get_newline ctx.input)).length := by
          rw [hll]; exact hlong
        obtain ⟨ctx1, hlex, hin, hk⟩ := lex_line_spec ctx hnil (by omega)
        rw [← lex_of_atLineStart hst] at hlex
        rw [hpl]
        rcases hk with ⟨hc, htok⟩ | ⟨p, hc, htok, hp⟩ | ⟨r', hstr, htok, hp⟩
        · rw [validate_loop_step_comment (f + 2) ctx ctx1 hs hlex htok,
            ih ctx1 hs (f + 2) (by rw [hin]; omega) (by simp [AtLineStart, htok])
              (by rw [hin]; exact h0r) (by rw [hin]; omega), hin]
          simp only [validLines, hshort, if_false, hc]
          rw [validLines_tail _ _ htl]
        · have hn0 : 0 ∉ line_pos_str ctx1 := by
            rw [hp]
            exact fun hm => zero_not_mem_take_get_newline ctx.input
              (classify_path_subset hc 0 hm)
          rw [validate_loop_step_path (f + 2) ctx ctx1 hs hlex htok hn0,
            ih ctx1 hs (f + 2) (by rw [hin]; omega) (by simp [AtLineStart, htok])
              (by rw [hin]; exact h0r) (by rw [hin]; omega), hin, hp]
          simp only [validLines, hshort, if_false, hc]
          rw [validLines_tail _ _ htl]
          generalize (hs && decide (p ≠ []) && decide (check_utf8 p ≠ some 0)) = b
          cases b <;> simp
        · have hcl := classify_of_strip_star _ r' hstr
          rw [validate_loop_step_section (f + 2) ctx ctx1 hs hlex htok]
          obtain ⟨hyes, hno⟩ := lex_section_spec ctx1 r' htok hp
          by_cases h33 : (r'.dropWhile isspace).head? = some 33
          · rw [if_pos h33] at hcl
            obtain ⟨ctx2, ctx3, hlex2, htok2, hlex3, htok3, hin3, hp3⟩ := hyes h33
            have hn0 : 0 ∉ line_pos_str ctx3 := by
              rw [hp3]
              exact fun hm => zero_not_mem_take_get_newline ctx.input
                (classify_header_subset hcl 0 hm)
            simp only [validLines, hshort, if_false, hcl]
            rw [validate_loop_step_halt (f + 1) ctx1 ctx2 hs hlex2 htok2,
              validate_loop_step_name f ctx2 ctx3 hs hlex3 htok3 hn0,
              ih ctx3 _ f (by rw [hin3, hin]; omega) (by simp [AtLineStart, htok3])
                (by rw [hin3, hin]; exact h0r) (by rw [hin3, hin]; omega), hin3, hin, hp3]
            rw [validLines_tail _ _ htl]
            generalize (r'.dropWhile isspace).tail.dropWhile isspace = nm
            generalize (decide (nm ≠ []) && decide (check_utf8 nm ≠ some 0)) = b
            cases b <;> simp
          · rw [if_neg h33] at hcl
            obtain ⟨ctx2, hlex2, htok2, hin2, hp2⟩ := hno h33
            have hn0 : 0 ∉ line_pos_str ctx2 := by
              rw [hp2]
              exact fun hm => zero_not_mem_take_get_newline ctx.input
                (classify_header_subset hcl 0 hm)
            simp only [validLines, hshort, if_false, hcl]
            rw [validate_loop_step_name (f + 1) ctx1 ctx2 hs hlex2 htok2 hn0,
              ih ctx2 _ (f + 1) (by rw [hin2, hin]; omega) (by simp [AtLineStart, htok2])
                (by rw [hin2, hin]; exact h0r) (by rw [hin2, hin]; omega), hin2, hin, hp2]
            rw [validLines_tail _ _ htl]
            generalize r'.dropWhile isspace = nm
            generalize (decide (nm ≠ []) && decide (check_utf8 nm ≠ some 0)) = b
            cases b <;> simp

/-- The validator, line by line. -/
theorem taihen_config_validate_eq (input : List Nat) :
    taihen_config_validate input
      = some (if validLines (physLines (input.take (strlen input))) false = true
          then 1 else 0) := by
  have hlen : (input.take (strlen input)).length ≤ input.length := by
    rw [List.length_take]; exact Nat.min_le_right _ _
  exact validate_loop_eq _ (taihen_config_init_lexer input) false _ (le_refl _)
    (Or.inl rfl) (zero_not_mem_take_strlen input)
    (by simp only [taihen_config_init_lexer]; omega)

/-! ## Composition of line-level scans -/

theorem scanOut_append (q : List Nat) (l1 l2 : List (List Nat)) (h r : Bool) :
    scanOut q (l1 ++ l2) h r = scanOut q l1 h r ++ scanResume q l2 (scanEnd q l1 h r) := by
  induction l1 generalizing h r with
  | nil => simp [scanOut, scanEnd, scanResume]
  | cons l ls ih =>
    by_cases hlong : 256 ≤ l.length
    · simp [scanOut, scanEnd, hlong, scanResume]
    · cases hc : classify l with
      | comment =>
        simp only [List.cons_append, scanOut, scanEnd, hlong, if_false, hc]
        exact ih h r
      | header hm n =>
        simp only [List.cons_append, scanOut, scanEnd, hlong, if_false, hc]
        by_cases hrh : (r && h) = true
        · simp [hrh, scanResume]
        · simp only [hrh, if_false]
          exact ih _ _
      | path p =>
        simp only [List.cons_append, scanOut, scanEnd, hlong, if_false, hc]
        cases r with
        | true => simp [ih]
        | false => simpa using ih h false

theorem scanOut_initial_pathsUnder (q : List Nat) (ls : List (List Nat)) (h r : Bool)
    (cur : Option (List Nat)) (hr : r = cur.any (recorded q)) :
    scanOut q ls h r <+: pathsUnder (recorded q) cur ls := by
  induction ls generalizing h r cur with
  | nil => simp [scanOut, pathsUnder]
  | cons l ls ih =>
    by_cases hlong : 256 ≤ l.length
    · simp [scanOut, hlong]
    · cases hc : classify l with
      | comment =>
        simp only [scanOut, pathsUnder, hlong, if_false, hc]
        exact ih h r cur hr
      | header hm n =>
        simp only [scanOut, pathsUnder, hlong, if_false, hc]
        by_cases hrh : (r && h) = true
        · simp [hrh]
        · simp only [hrh, if_false]
          exact ih hm (recorded q n) (some n) (by simp)
      | path p =>
        simp only [scanOut, pathsUnder, hlong, if_false, hc]
        rw [← hr]
        cases r with
        | true => simpa [List.cons_prefix_cons] using ih h true cur hr
        | false => simpa using ih h false cur hr

theorem scanOut_eq_pathsUnder (q : List Nat) (ls : List (List Nat)) (r : Bool)
    (cur : Option (List Nat)) (hr : r = cur.any (recorded q))
    (hshort : ∀ l ∈ ls, l.length < 256) (hnohalt : ∀ l ∈ ls, isHaltHeader l = false) :
    scanOut q ls false r = pathsUnder (recorded q) cur ls := by
  induction ls generalizing r cur with
  | nil => simp [scanOut, pathsUnder]
  | cons l ls ih =>
    have hs : ¬ 256 ≤ l.length := by
      have := hshort l (List.mem_cons_self _ _); omega
    have hh := hnohalt l (List.mem_cons_self _ _)
    have hshort' : ∀ l' ∈ ls, l'.length < 256 := fun l' hl' => hshort l' (List.mem_cons_of_mem _ hl')
    have hnohalt' : ∀ l' ∈ ls, isHaltHeader l' = false :=
      fun l' hl' => hnohalt l' (List.mem_cons_of_mem _ hl')
    simp only [scanOut, pathsUnder, hs, if_false]
    cases hc : classify l with
    | comment => exact ih r cur hr hshort' hnohalt'
    | header hm n =>
      have hm' : hm = false := by
        cases hm with
        | false => rfl
        | true => simp [isHaltHeader, hc] at hh
      subst hm'
      simp only [Bool.and_false, Bool.false_eq_true, if_false]
      exact ih (recorded q n) (some n) (by simp) hshort' hnohalt'
    | path p =>
      simp only
      rw [← hr]
      cases r with
      | true => simpa using ih true cur hr hshort' hnohalt'
      | false => simpa using ih false cur hr hshort' hnohalt'

theorem physLines_ne_nil (s : List Nat) : physLines s ≠ [] :=
  List.splitOnP_ne_nil isEol s

theorem physLines_cons_eol (e : Nat) (y : List Nat) (he : isEol e = true) :
    physLines (e :: y) = [] :: physLines y := by
  simp [physLines, List.splitOnP_cons, he]

theorem physLines_cons_not_eol (x : Nat) (y : List Nat) (hx : isEol x = false) :
    physLines (x :: y) = (physLines y).modifyHead (fun l => x :: l) := by
  simp [physLines, List.splitOnP_cons, hx]

theorem modifyHead_append {α : Type} (f : α → α) (a b : List α) (ha : a ≠ []) :
    (a ++ b).modifyHead f = a.modifyHead f ++ b := by
  cases a with
  | nil => exact absurd rfl ha
  | cons x xs => simp [List.modifyHead]

theorem physLines_append_eol (x y : List Nat) (e : Nat) (he : isEol e = true) :
    physLines (x ++ e :: y) = physLines x ++ physLines y := by
  induction x with
  | nil => simp [physLines_cons_eol e y he, physLines_nil]
  | cons a as ih =>
    by_cases ha : isEol a = true
    · simp [physLines_cons_eol a _ ha, ih]
    · have ha' : isEol a = false := by simpa using ha
      rw [List.cons_append, physLines_cons_not_eol a _ ha', ih, physLines_cons_not_eol a _ ha',
        modifyHead_append _ _ _ (physLines_ne_nil as)]

theorem physLines_append_of_not_eol (l y : List Nat) (hl : ∀ b ∈ l, isEol b = false) :
    physLines (l ++ y) = (physLines y).modifyHead (fun r => l ++ r) := by
  induction l with
  | nil =>
    cases h : physLines y with
    | nil => simp [List.modifyHead, h]
    | cons a as => simp [List.modifyHead, h]
  | cons a as ih =>
    have ha : isEol a = false := hl a (List.mem_cons_self _ _)
    rw [List.cons_append, physLines_cons_not_eol a _ ha,
      ih (fun b hb => hl b (List.mem_cons_of_mem _ hb))]
    cases h : physLines y with
    | nil => simp [List.modifyHead]
    | cons c cs => simp [List.modifyHead]

theorem atLineBoundary_cases {a : List Nat} (h : atLineBoundary a = true) :
    a = [] ∨ ∃ a' e, a = a' ++ [e] ∧ isEol e = true := by
  rcases List.eq_nil_or_concat a with e | ⟨a', e, he⟩
  · exact Or.inl e
  · right
    rw [List.concat_eq_append] at he
    subst he
    exact ⟨a', e, rfl, by simpa [atLineBoundary] using h⟩

/-- The lines of a document after a prefix that stops at a line boundary. -/
theorem physLines_append_of_boundary {a : List Nat} (h : atLineBoundary a = true)
    (y : List Nat) :
    physLines (a ++ y) = (physLines a).dropLast ++ physLines y
      ∧ physLines a = (physLines a).dropLast ++ [[]] := by
  rcases atLineBoundary_cases h with e | ⟨a', e, rfl, he⟩
  · subst e; simp [physLines_nil]
  · have h1 : physLines (a' ++ [e]) = physLines a' ++ [[]] := by
      rw [physLines_append_eol a' [] e he, physLines_nil]
    rw [h1, List.dropLast_concat, List.append_assoc, List.singleton_append,
      physLines_append_eol a' y e he]
    exact ⟨rfl, rfl⟩

theorem scanEnd_append (q : List Nat) (l1 l2 : List (List Nat)) (h r : Bool) :
    scanEnd q (l1 ++ l2) h r =
      (scanEnd q l1 h r).bind (fun st => scanEnd q l2 st.1 st.2) := by
  induction l1 generalizing h r with
  | nil => simp [scanEnd]
  | cons l ls ih =>
    by_cases hlong : 256 ≤ l.length
    · simp [scanEnd, hlong]
    · cases hc : classify l with
      | comment =>
        simp only [List.cons_append, scanEnd, hlong, if_false, hc]
        exact ih h r
      | header hm n =>
        simp only [List.cons_append, scanEnd, hlong, if_false, hc]
        by_cases hrh : (r && h) = true
        · simp [hrh]
        · simp only [hrh, if_false]
          exact ih _ _
      | path p =>
        simp only [List.cons_append, scanEnd, hlong, if_false, hc]
        exact ih h r

theorem scanOut_blank (q : List Nat) (h r : Bool) : scanOut q [[]] h r = [] := by
  simp [scanOut, classify_nil]

theorem scanEnd_blank (q : List Nat) (h r : Bool) : scanEnd q [[]] h r = some (h, r) := by
  simp [scanEnd, classify_nil]

theorem scanEnd_no_header (q : List Nat) (ls : List (List Nat)) (h r : Bool)
    (hno : ∀ l ∈ ls, isHeader l = false) (st : Bool × Bool)
    (hst : scanEnd q ls h r = some st) : st = (h, r) := by
  induction ls with
  | nil => simpa [scanEnd, eq_comm] using hst
  | cons l ls ih =>
    have hl := hno l (List.mem_cons_self _ _)
    by_cases hlong : 256 ≤ l.length
    · simp [scanEnd, hlong] at hst
    · cases hc : classify l with
      | comment =>
        simp only [scanEnd, hlong, if_false, hc] at hst
        exact ih (fun l' hl' => hno l' (List.mem_cons_of_mem _ hl')) hst
      | header hm n => simp [isHeader, hc] at hl
      | path p =>
        simp only [scanEnd, hlong, if_false, hc] at hst
        exact ih (fun l' hl' => hno l' (List.mem_cons_of_mem _ hl')) hst

theorem scanOut_header_after_halt (q : List Nat) (ls : List (List Nat))
    (hhead : ls.head?.any isHeader = true) : scanOut q ls true true = [] := by
  cases ls with
  | nil => simp [scanOut]
  | cons l ls =>
    simp only [List.head?_cons, Option.any_some] at hhead
    by_cases hlong : 256 ≤ l.length
    · simp [scanOut, hlong]
    · cases hc : classify l with
      | comment => simp [isHeader, hc] at hhead
      | header hm n => simp [scanOut, hlong, hc]
      | path p => simp [isHeader, hc] at hhead

theorem physLines_single (l : List Nat) (hl : ∀ b ∈ l, isEol b = false) : physLines l = [l] :=
  List.splitOnP_eq_single isEol l (fun x hx => by simp [hl x hx])

theorem scanEnd_halt_header (q H n : List Nat) (h r : Bool) (st : Bool × Bool)
    (hHk : classify H = LineKind.header true n) (hrec : recorded q n = true)
    (hst : scanEnd q [H] h r = some st) : st = (true, true) := by
  by_cases hlong : 256 ≤ H.length
  · simp [scanEnd, hlong] at hst
  · simp only [scanEnd, hlong, if_false, hHk, hrec] at hst
    by_cases hrh : (r && h) = true
    · simp [hrh] at hst
    · simpa [hrh, eq_comm] using hst

theorem validLines_path_before_header (pre post : List (List Nat)) (l : List Nat)
    (hpre : ∀ l' ∈ pre, isHeader l' = false) (hl : isPath l = true) :
    validLines (pre ++ l :: post) false = false := by
  induction pre with
  | nil =>
    by_cases hlong : 256 ≤ l.length
    · simp [validLines, hlong]
    · cases hc : classify l with
      | comment => simp [isPath, hc] at hl
      | header hm n => simp [isPath, hc] at hl
      | path p => simp [validLines, hlong, hc]
  | cons l' pre ih =>
    have ih' := ih (fun x hx => hpre x (List.mem_cons_of_mem _ hx))
    have hl' := hpre l' (List.mem_cons_self _ _)
    by_cases hlong : 256 ≤ l'.length
    · simp [validLines, hlong]
    · cases hc : classify l' with
      | comment => simpa [validLines, hlong, hc] using ih'
      | header hm n => simp [isHeader, hc] at hl'
      | path p => simp [validLines, hlong, hc]

theorem classify_of_isEmptyNameHeader (l : List Nat) (h : isEmptyNameHeader l = true) :
    ∃ hm, classify l = LineKind.header hm [] := by
  unfold isEmptyNameHeader at h
  cases hs : strip l with
  | nil => simp [hs] at h
  | cons c r =>
    simp only [hs, Bool.and_eq_true, Bool.or_eq_true, decide_eq_true_eq] at h
    obtain ⟨hc, hr⟩ := h
    subst hc
    rcases hr with hr | hr
    · exact ⟨false, by simp [classify, hs, hr]⟩
    · exact ⟨true, by simp [classify, hs, hr]⟩

theorem validLines_empty_name (ls : List (List Nat)) (l : List Nat) (hm : Bool) (hs : Bool)
    (hl : l ∈ ls) (hc : classify l = LineKind.header hm []) : validLines ls hs = false := by
  induction ls generalizing hs with
  | nil => simp at hl
  | cons x xs ih =>
    by_cases hlong : 256 ≤ x.length
    · simp [validLines, hlong]
    · rcases List.mem_cons.1 hl with e | e
      · subst e
        simp [validLines, hlong, hc]
      · cases hx : classify x with
        | comment => simpa [validLines, hlong, hx] using ih hs e
        | header hm' n => simp [validLines, hlong, hx, ih true e]
        | path p => simp [validLines, hlong, hx, ih hs e]

theorem scanOut_comment_cons (q c : List Nat) (ls : List (List Nat)) (h r : Bool)
    (hlen : c.length < 256) (hc : classify c = LineKind.comment) :
    scanOut q (c :: ls) h r = scanOut q ls h r := by
  have : ¬ 256 ≤ c.length := by omega
  simp [scanOut, this, hc]

theorem validLines_comment_cons (c : List Nat) (ls : List (List Nat)) (hs : Bool)
    (hlen : c.length < 256) (hc : classify c = LineKind.comment) :
    validLines (c :: ls) hs = validLines ls hs := by
  have : ¬ 256 ≤ c.length := by omega
  simp [validLines, this, hc]

theorem scanOut_cons_congr (q l : List Nat) (a b : List (List Nat))
    (hab : ∀ h r, scanOut q a h r = scanOut q b h r) (h r : Bool) :
    scanOut q (l :: a) h r = scanOut q (l :: b) h r := by
  simp only [scanOut, hab]

theorem validLines_cons_congr (l : List Nat) (a b : List (List Nat))
    (hab : ∀ hs, validLines a hs = validLines b hs) (hs : Bool) :
    validLines (l :: a) hs = validLines (l :: b) hs := by
  simp only [validLines, hab]

theorem scanOut_append_congr (q : List Nat) (pre a b : List (List Nat))
    (hab : ∀ h r, scanOut q a h r = scanOut q b h r) (h r : Bool) :
    scanOut q (pre ++ a) h r = scanOut q (pre ++ b) h r := by
  induction pre generalizing h r with
  | nil => exact hab h r
  | cons l ls ih => exact scanOut_cons_congr q l _ _ ih h r

theorem validLines_append_congr (pre a b : List (List Nat))
    (hab : ∀ hs, validLines a hs = validLines b hs) (hs : Bool) :
    validLines (pre ++ a) hs = validLines (pre ++ b) hs := by
  induction pre generalizing hs with
  | nil => exact hab hs
  | cons l ls ih => exact validLines_cons_congr l _ _ ih hs

theorem intersperse_modifyHead {α : Type} (f : α → α) (sep : α) (ls : List α) :
    (ls.modifyHead f).intersperse sep = (ls.intersperse sep).modifyHead f := by
  cases ls with
  | nil => simp [List.modifyHead]
  | cons x xs =>
    cases xs with
    | nil => simp [List.modifyHead]
    | cons y ys => simp [List.modifyHead]

theorem physLines_toCRLF (doc : List Nat) (h13 : 13 ∉ doc) :
    physLines (toCRLF doc) = (physLines doc).intersperse [] := by
  induction doc with
  | nil => simp [toCRLF, physLines_nil]
  | cons b bs ih =>
    simp only [List.mem_cons, not_or] at h13
    have ih' := ih h13.2
    by_cases hb : b = 10
    · subst hb
      have h10 : isEol 10 = true := by decide
      have h13' : isEol 13 = true := by decide
      rw [toCRLF, if_pos rfl, physLines_cons_eol 13 _ h13', physLines_cons_eol 10 _ h10,
        physLines_cons_eol 10 _ h10, ih']
      cases hp : physLines bs with
      | nil => exact absurd hp (physLines_ne_nil bs)
      | cons y ys => simp
    · have hne : isEol b = false := by
        have : b ≠ 13 := fun e => h13.1 e.symm
        simp [isEol, hb, this]
      rw [toCRLF, if_neg hb, physLines_cons_not_eol b _ hne, physLines_cons_not_eol b _ hne, ih',
        intersperse_modifyHead]

theorem scanOut_intersperse_blank (q : List Nat) (ls : List (List Nat)) :
    ∀ h r, scanOut q (ls.intersperse []) h r = scanOut q ls h r := by
  induction ls with
  | nil => intro h r; simp
  | cons x xs ih =>
    cases xs with
    | nil => intro h r; simp
    | cons y ys =>
      intro h r
      rw [List.intersperse_cons_cons]
      exact scanOut_cons_congr q x _ _
        (fun h' r' => (scanOut_comment_cons q [] _ h' r' (by simp) classify_nil).trans
          (ih h' r')) h r

theorem validLines_intersperse_blank (ls : List (List Nat)) :
    ∀ hs, validLines (ls.intersperse []) hs = validLines ls hs := by
  induction ls with
  | nil => intro hs; simp
  | cons x xs ih =>
    cases xs with
    | nil => intro hs; simp
    | cons y ys =>
      intro hs
      rw [List.intersperse_cons_cons]
      exact validLines_cons_congr x _ _
        (fun hs' => (validLines_comment_cons [] _ hs' (by simp) classify_nil).trans (ih hs')) hs

theorem not_mem_toCRLF (doc : List Nat) (h0 : 0 ∉ doc) : 0 ∉ toCRLF doc := by
  induction doc with
  | nil => simp [toCRLF]
  | cons b bs ih =>
    simp only [List.mem_cons, not_or] at h0
    by_cases hb : b = 10
    · simp [toCRLF, hb, ih h0.2]
    · simp only [toCRLF, hb, if_false, List.mem_cons, not_or]
      exact ⟨h0.1, ih h0.2⟩

theorem scanOut_long_head (q : List Nat) (ls : List (List Nat)) (h r : Bool)
    (hhead : ∀ l, ls.head? = some l → 256 ≤ l.length) : scanOut q ls h r = [] := by
  cases ls with
  | nil => simp [scanOut]
  | cons l ls => simp [scanOut, hhead l rfl]

theorem pathsUnder_append_blank (sel : List Nat → Bool) (cur : Option (List Nat))
    (ls : List (List Nat)) : pathsUnder sel cur (ls ++ [[]]) = pathsUnder sel cur ls := by
  induction ls generalizing cur with
  | nil => simp [pathsUnder, classify_nil]
  | cons l ls ih =>
    cases hc : classify l with
    | comment => simp only [List.cons_append, pathsUnder, hc]; exact ih cur
    | header hm n => simp only [List.cons_append, pathsUnder, hc]; exact ih (some n)
    | path p => simp [pathsUnder, hc, ih cur]

theorem scanEnd_no_halt (q : List Nat) (ls : List (List Nat)) (r : Bool)
    (hshort : ∀ l ∈ ls, l.length < 256) (hnohalt : ∀ l ∈ ls, isHaltHeader l = false) :
    ∃ r', scanEnd q ls false r = some (false, r') := by
  induction ls generalizing r with
  | nil => exact ⟨r, rfl⟩
  | cons l ls ih =>
    have hs : ¬ 256 ≤ l.length := by
      have := hshort l (List.mem_cons_self _ _); omega
    have hh := hnohalt l (List.mem_cons_self _ _)
    have hshort' : ∀ l' ∈ ls, l'.length < 256 := fun l' hl' => hshort l' (List.mem_cons_of_mem _ hl')
    have hnohalt' : ∀ l' ∈ ls, isHaltHeader l' = false :=
      fun l' hl' => hnohalt l' (List.mem_cons_of_mem _ hl')
    cases hc : classify l with
    | comment => simpa [scanEnd, hs, hc] using ih r hshort' hnohalt'
    | header hm n =>
      have hm' : hm = false := by
        cases hm with
        | false => rfl
        | true => simp [isHaltHeader, hc] at hh
      subst hm'
      simpa [scanEnd, hs, hc] using ih (recorded q n) hshort' hnohalt'
    | path p => simpa [scanEnd, hs, hc] using ih r hshort' hnohalt'

theorem scanOut_block (q n : List Nat) (ls : List (List Nat)) (h : Bool)
    (hrec : recorded q n = true) (hshort : ∀ l ∈ ls, l.length < 256)
    (hno : ∀ l ∈ ls, isHeader l = false) :
    scanOut q ls h true = pathsUnder (recorded q) (some n) ls := by
  induction ls with
  | nil => simp [scanOut, pathsUnder]
  | cons l ls ih =>
    have hs : ¬ 256 ≤ l.length := by
      have := hshort l (List.mem_cons_self _ _); omega
    have hh := hno l (List.mem_cons_self _ _)
    have ih' := ih (fun l' hl' => hshort l' (List.mem_cons_of_mem _ hl'))
      (fun l' hl' => hno l' (List.mem_cons_of_mem _ hl'))
    cases hc : classify l with
    | comment => simpa [scanOut, pathsUnder, hs, hc] using ih'
    | header hm n' => simp [isHeader, hc] at hh
    | path p => simp [scanOut, pathsUnder, hs, hc, hrec, ih']

theorem scanOut_no_recorded_halt (q : List Nat) (ls : List (List Nat)) (h r : Bool)
    (cur : Option (List Nat)) (hr : r = cur.any (recorded q)) (hrh : (r && h) = false)
    (hshort : ∀ l ∈ ls, l.length < 256)
    (hno : ∀ l ∈ ls, isRecordedHaltHeader q l = false) :
    scanOut q ls h r = pathsUnder (recorded q) cur ls := by
  induction ls generalizing h r cur with
  | nil => simp [scanOut, pathsUnder]
  | cons l ls ih =>
    have hs : ¬ 256 ≤ l.length := by
      have := hshort l (List.mem_cons_self _ _); omega
    have hh := hno l (List.mem_cons_self _ _)
    have hshort' : ∀ l' ∈ ls, l'.length < 256 := fun l' hl' => hshort l' (List.mem_cons_of_mem _ hl')
    have hno' : ∀ l' ∈ ls, isRecordedHaltHeader q l' = false :=
      fun l' hl' => hno l' (List.mem_cons_of_mem _ hl')
    simp only [scanOut, pathsUnder, hs, if_false]
    cases hc : classify l with
    | comment => exact ih h r cur hr hrh hshort' hno'
    | header hm n =>
      have hnext : (recorded q n && hm) = false := by
        cases hm with
        | false => simp
        | true => simpa [isRecordedHaltHeader, hc] using hh
      simp only [hrh, Bool.false_eq_true, if_false]
      exact ih hm (recorded q n) (some n) (by simp) hnext hshort' hno'
    | path p =>
      simp only
      rw [← hr]
      cases r with
      | true => simpa using ih h true cur hr hrh hshort' hno'
      | false => simpa using ih h false cur hr hrh hshort' hno'

theorem scanEnd_no_recorded_halt (q : List Nat) (ls : List (List Nat)) (h r : Bool)
    (hrh : (r && h) = false) (hshort : ∀ l ∈ ls, l.length < 256)
    (hno : ∀ l ∈ ls, isRecordedHaltHeader q l = false) :
    ∃ h' r', scanEnd q ls h r = some (h', r') ∧ (r' && h') = false := by
  induction ls generalizing h r with
  | nil => exact ⟨h, r, rfl, hrh⟩
  | cons l ls ih =>
    have hs : ¬ 256 ≤ l.length := by
      have := hshort l (List.mem_cons_self _ _); omega
    have hh := hno l (List.mem_cons_self _ _)
    have hshort' : ∀ l' ∈ ls, l'.length < 256 := fun l' hl' => hshort l' (List.mem_cons_of_mem _ hl')
    have hno' : ∀ l' ∈ ls, isRecordedHaltHeader q l' = false :=
      fun l' hl' => hno l' (List.mem_cons_of_mem _ hl')
    cases hc : classify l with
    | comment => simpa [scanEnd, hs, hc] using ih h r hrh hshort' hno'
    | header hm n =>
      have hnext : (recorded q n && hm) = false := by
        cases hm with
        | false => simp
        | true => simpa [isRecordedHaltHeader, hc] using hh
      simp only [scanEnd, hs, if_false, hc, hrh, Bool.false_eq_true]
      exact ih hm (recorded q n) hnext hshort' hno'
    | path p => simpa [scanEnd, hs, hc] using ih h r hrh hshort' hno'

theorem mem_dropLast_of_mem {α : Type} {l : List α} {x : α} (h : x ∈ l.dropLast) : x ∈ l :=
  (List.dropLast_sublist l).subset h

/-! ## The line kinds, in the words of the text format -/

/-- A comment line is a blank line or a line whose first non-whitespace character is `#`. -/
theorem classify_comment_iff (l : List Nat) :
    classify l = LineKind.comment
      ↔ l.dropWhile isspace = [] ∨ (l.dropWhile isspace).head? = some 35 := by
  cases hs : l.dropWhile isspace with
  | nil => simp [classify, strip_of_dropWhile_nil l hs]
  | cons c cs =>
    by_cases h35 : c = 35
    · simp [classify, strip_of_dropWhile_cons l c cs hs, h35]
    · by_cases h42 : c = 42
      · have := classify_of_strip_star l (cs.rdropWhile isspace)
          (by rw [strip_of_dropWhile_cons l c cs hs, h42])
        rw [this]
        split_ifs <;> simp [h35]
      · simp [classify, strip_of_dropWhile_cons l c cs hs, h35, h42]

/-- A section header line is a line whose first non-whitespace character is `*`. -/
theorem isHeader_iff (l : List Nat) :
    isHeader l = true ↔ (l.dropWhile isspace).head? = some 42 := by
  cases hs : l.dropWhile isspace with
  | nil => simp [isHeader, classify, strip_of_dropWhile_nil l hs]
  | cons c cs =>
    by_cases h42 : c = 42
    · have := classify_of_strip_star l (cs.rdropWhile isspace)
        (by rw [strip_of_dropWhile_cons l c cs hs, h42])
      simp only [isHeader, this]
      split_ifs <;> simp [h42]
    · by_cases h35 : c = 35
      · simp [isHeader, classify, strip_of_dropWhile_cons l c cs hs, h35]
      · simp [isHeader, classify, strip_of_dropWhile_cons l c cs hs, h35, h42]

/-- A path line is a non-blank line whose first non-whitespace character is neither `#` nor
`*`. -/
theorem isPath_iff (l : List Nat) :
    isPath l = true
      ↔ ∃ c cs, l.dropWhile isspace = c :: cs ∧ c ≠ 35 ∧ c ≠ 42 := by
  cases hs : l.dropWhile isspace with
  | nil => simp [isPath, classify, strip_of_dropWhile_nil l hs]
  | cons c cs =>
    by_cases h42 : c = 42
    · have := classify_of_strip_star l (cs.rdropWhile isspace)
        (by rw [strip_of_dropWhile_cons l c cs hs, h42])
      simp only [isPath, this]
      split_ifs <;> simp [h42]
    · by_cases h35 : c = 35
      · simp [isPath, classify, strip_of_dropWhile_cons l c cs hs, h35]
      · simp [isPath, classify, strip_of_dropWhile_cons l c cs hs, h35, h42]

/-- A halt-marked header line is a header line in which the first non-whitespace character
after the `*` is `!`. -/
theorem isHaltHeader_iff (l : List Nat) :
    isHaltHeader l = true
      ↔ ∃ r, strip l = 42 :: r ∧ (r.dropWhile isspace).head? = some 33 := by
  cases hs : strip l with
  | nil => simp [isHaltHeader, classify, hs]
  | cons c r =>
    by_cases h42 : c = 42
    · subst h42
      simp only [isHaltHeader, classify_of_strip_star l r hs, List.cons.injEq, true_and,
        exists_eq_left']
      split_ifs with h <;> simp [h]
    · by_cases h35 : c = 35
      · simp [isHaltHeader, classify, hs, h35]
      · simp [isHaltHeader, classify, hs, h35, h42]

/-! ## The properties -/

/-- C1. For a document (a NUL-free byte string) whose physical lines are all shorter than 256
bytes and that has no halt-marked section header, and for every requested section `q` (a
NUL-free byte string), `taihen_config_parse` returns having called the handler exactly on the
path lines whose nearest preceding section header is named `q`, or `"ALL"` when `q` is not
`"KERNEL"`, in document order, each with the trimmed line as argument. -/
theorem parse_delivers_recorded_paths (doc q : List Nat) (hdoc : 0 ∉ doc) (hq : 0 ∉ q)
    (hshort : ∀ l ∈ physLines doc, l.length < 256)
    (hnohalt : ∀ l ∈ physLines doc, isHaltHeader l = false) :
    taihen_config_parse doc q = some (pathsUnder (recorded q) none (physLines doc)) := by
  rw [taihen_config_parse_eq, take_strlen_of_not_mem hdoc, take_strlen_of_not_mem hq,
    scanOut_eq_pathsUnder q _ false none rfl hshort hnohalt]

/-- Witness for C1 on the two scenarios of the specification. -/
theorem parse_delivers_recorded_paths_witness :
    taihen_config_parse (bytes "*ALL\n/a/b.so\n*GAME1\n/c/d.so\n") (bytes "GAME1")
        = some [bytes "/a/b.so", bytes "/c/d.so"]
      ∧ taihen_config_parse (bytes "*OTHER\n/x.so\n") (bytes "GAME1") = some [] :=
  ⟨(parse_delivers_recorded_paths (bytes "*ALL\n/a/b.so\n*GAME1\n/c/d.so\n") (bytes "GAME1")
      (by decide) (by decide) (by decide) (by decide)).trans (by decide),
   (parse_delivers_recorded_paths (bytes "*OTHER\n/x.so\n") (bytes "GAME1")
      (by decide) (by decide) (by decide) (by decide)).trans (by decide)⟩

/-- C2, as amended. When a halt-marked section header `H` names a section recorded for the
query `q`, `taihen_config_parse` stops at the next section header line, and when the scan
reaches `H` it delivers the paths of the block of `H` before it stops. The document (a
NUL-free byte string) is a prefix `A` ending at a line boundary, the header line `H` with its
terminator `t`, a block `B` of whole lines with no header among them, and a rest `S` that
begins with a section header line. First part, for every such document: the handler calls are
those made for the document cut off just before `S`. Second part: when no line up to the end
of the block has 256 bytes or more and no header of `A` is both halt-marked and named by a
section recorded for `q` (halt-marked headers of other sections may occur in `A`), the calls
are the paths of `A` under the sections recorded for `q`, followed by every path of the block
`B`, and nothing of `S`. -/
theorem parse_stops_after_recorded_halt (A H B S q n : List Nat) (t : Nat)
    (hdoc : 0 ∉ A ++ H ++ t :: (B ++ S)) (hq : 0 ∉ q)
    (hA : atLineBoundary A = true)
    (hH : ∀ b ∈ H, isEol b = false) (hHk : classify H = LineKind.header true n)
    (hrec : recorded q n = true) (ht : isEol t = true)
    (hB : ∀ l ∈ physLines B, isHeader l = false) (hBend : atLineBoundary B = true)
    (hS : (physLines S).head?.any isHeader = true) :
    (∃ calls, taihen_config_parse (A ++ H ++ t :: (B ++ S)) q = some calls
      ∧ taihen_config_parse (A ++ H ++ t :: B) q = some calls)
    ∧ ((∀ l ∈ physLines A, l.length < 256 ∧ isRecordedHaltHeader q l = false) →
        H.length < 256 → (∀ l ∈ physLines B, l.length < 256) →
        taihen_config_parse (A ++ H ++ t :: (B ++ S)) q
          = some (pathsUnder (recorded q) none (physLines A)
              ++ pathsUnder (recorded q) (some n) (physLines B))) := by
  have hcut : 0 ∉ A ++ H ++ t :: B := by
    intro hm
    apply hdoc
    simp only [List.mem_append, List.mem_cons] at hm ⊢
    tauto
  have hB' : ∀ l ∈ (physLines B).dropLast, isHeader l = false :=
    fun l hl => hB l (mem_dropLast_of_mem hl)
  have hfull : physLines (A ++ H ++ t :: (B ++ S))
      = ((physLines A).dropLast ++ [H] ++ (physLines B).dropLast) ++ physLines S := by
    rw [List.append_assoc, (physLines_append_of_boundary hA _).1,
      physLines_append_eol H _ t ht, physLines_single H hH,
      (physLines_append_of_boundary hBend S).1]
    simp [List.append_assoc]
  have hcutl : physLines (A ++ H ++ t :: B)
      = ((physLines A).dropLast ++ [H] ++ (physLines B).dropLast) ++ [[]] := by
    rw [List.append_assoc, (physLines_append_of_boundary hA _).1,
      physLines_append_eol H _ t ht, physLines_single H hH]
    conv_lhs => rw [(physLines_append_of_boundary hBend []).2]
    simp [List.append_assoc]
  have key : ∀ x, x.head?.any isHeader = true ∨ x = [[]] →
      scanResume q x
        (scanEnd q ((physLines A).dropLast ++ [H] ++ (physLines B).dropLast) false false)
        = [] := by
    intro x hx
    cases hst : scanEnd q ((physLines A).dropLast ++ [H] ++ (physLines B).dropLast)
        false false with
    | none => rfl
    | some st =>
      have hst' : st = (true, true) := by
        rw [scanEnd_append, scanEnd_append] at hst
        cases h1 : scanEnd q (physLines A).dropLast false false with
        | none => simp [h1] at hst
        | some st1 =>
          simp only [h1, Option.some_bind] at hst
          cases h2 : scanEnd q [H] st1.1 st1.2 with
          | none => simp [h2] at hst
          | some st2 =>
            simp only [h2, Option.some_bind] at hst
            have e2 := scanEnd_halt_header q H n _ _ st2 hHk hrec h2
            subst e2
            exact scanEnd_no_header q _ true true hB' st hst
      subst hst'
      rcases hx with hx | hx
      · exact scanOut_header_after_halt q _ hx
      · rw [hx]; exact scanOut_blank q _ _
  have hmain : taihen_config_parse (A ++ H ++ t :: (B ++ S)) q
      = some (scanOut q ((physLines A).dropLast ++ [H] ++ (physLines B).dropLast)
          false false) := by
    rw [taihen_config_parse_eq, take_strlen_of_not_mem hdoc, take_strlen_of_not_mem hq, hfull,
      scanOut_append, key _ (Or.inl hS), List.append_nil]
  refine ⟨⟨_, hmain, ?_⟩, ?_⟩
  · rw [taihen_config_parse_eq, take_strlen_of_not_mem hcut, take_strlen_of_not_mem hq, hcutl,
      scanOut_append, key _ (Or.inr rfl), List.append_nil]
  · intro hAl hHl hBl
    have hA1 : ∀ l ∈ (physLines A).dropLast, l.length < 256 :=
      fun l hl => (hAl l (mem_dropLast_of_mem hl)).1
    have hA2 : ∀ l ∈ (physLines A).dropLast, isRecordedHaltHeader q l = false :=
      fun l hl => (hAl l (mem_dropLast_of_mem hl)).2
    have hB1 : ∀ l ∈ (physLines B).dropLast, l.length < 256 :=
      fun l hl => hBl l (mem_dropLast_of_mem hl)
    obtain ⟨h', r', hr', hinv⟩ := scanEnd_no_recorded_halt q _ false false rfl hA1 hA2
    have hHs : ¬ 256 ≤ H.length := by omega
    rw [hmain, List.append_assoc, scanOut_append, hr',
      scanOut_no_recorded_halt q _ false false none rfl rfl hA1 hA2]
    conv_rhs => rw [(physLines_append_of_boundary hA []).2, pathsUnder_append_blank,
      (physLines_append_of_boundary hBend []).2, pathsUnder_append_blank]
    have hstep : scanResume q ([H] ++ (physLines B).dropLast) (some (h', r'))
        = scanOut q (physLines B).dropLast true true := by
      simp [scanResume, scanOut, hHs, hHk, hrec, hinv]
    rw [hstep, scanOut_block q n _ true hrec hB1 hB']

/-- Witness for C2, as amended: the halt scenario of the specification, and a document in
which a halt-marked header of a section that is not recorded comes before the recorded one. -/
theorem parse_stops_after_recorded_halt_witness :
    (taihen_config_parse (bytes "*!ALL\n/a.so\n*GAME1\n/b.so\n") (bytes "GAME1")
        = some [bytes "/a.so"]
      ∧ taihen_config_parse (bytes "*!ALL\n/a.so\n") (bytes "GAME1") = some [bytes "/a.so"])
    ∧ (isHaltHeader (bytes "*!X") = true
      ∧ taihen_config_parse (bytes "*X\n*!X\n*!ALL\n/p\n*G\n/z\n") (bytes "G")
        = some [bytes "/p"]) := by
  have h := parse_stops_after_recorded_halt [] (bytes "*!ALL") (bytes "/a.so\n")
    (bytes "*GAME1\n/b.so\n") (bytes "GAME1") (bytes "ALL") 10
    (by decide) (by decide) (by decide) (by decide) (by decide) (by decide) (by decide)
    (by decide) (by decide) (by decide)
  have hd : [] ++ bytes "*!ALL" ++ 10 :: (bytes "/a.so\n" ++ bytes "*GAME1\n/b.so\n")
      = bytes "*!ALL\n/a.so\n*GAME1\n/b.so\n" := by decide
  have hp : pathsUnder (recorded (bytes "GAME1")) none (physLines [])
      ++ pathsUnder (recorded (bytes "GAME1")) (some (bytes "ALL")) (physLines (bytes "/a.so\n"))
      = [bytes "/a.so"] := by decide
  have h2 := h.2 (by decide) (by decide) (by decide)
  rw [hd, hp] at h2
  have g := parse_stops_after_recorded_halt (bytes "*X\n*!X\n") (bytes "*!ALL") (bytes "/p\n")
    (bytes "*G\n/z\n") (bytes "G") (bytes "ALL") 10
    (by decide) (by decide) (by decide) (by decide) (by decide) (by decide) (by decide)
    (by decide) (by decide) (by decide)
  have gd : bytes "*X\n*!X\n" ++ bytes "*!ALL" ++ 10 :: (bytes "/p\n" ++ bytes "*G\n/z\n")
      = bytes "*X\n*!X\n*!ALL\n/p\n*G\n/z\n" := by decide
  have gp : pathsUnder (recorded (bytes "G")) none (physLines (bytes "*X\n*!X\n"))
      ++ pathsUnder (recorded (bytes "G")) (some (bytes "ALL")) (physLines (bytes "/p\n"))
      = [bytes "/p"] := by decide
  have g2 := g.2 (by decide) (by decide) (by decide)
  rw [gd, gp] at g2
  exact ⟨⟨h2, by decide⟩, by decide, g2⟩

/-- C2, counterexamples to the claim as stated. In `"*!ALL\n/a\n*!ALL\n/b\n*X\n/c\n"` queried
with `"GAME1"` the second header is halt-marked and named by a section recorded for the
query, its block holds the path `/b` and a section header line follows, yet the handler is
called on `/a` only: the scan stopped at that second header, which closes the first
halt-marked block. In the second document a line of 256 bytes comes before the halt-marked
header, in the third it is the first line of the block, before the path `/d`; in both the
handler is not called at all. -/
theorem halt_block_is_not_always_delivered :
    (classify (bytes "*!ALL") = LineKind.header true (bytes "ALL")
      ∧ recorded (bytes "GAME1") (bytes "ALL") = true
      ∧ pathsUnder (recorded (bytes "GAME1")) (some (bytes "ALL")) (physLines (bytes "/b\n"))
          = [bytes "/b"]
      ∧ (physLines (bytes "*X\n/c\n")).head?.any isHeader = true)
    ∧ (bytes "*!ALL\n/a\n" ++ bytes "*!ALL" ++ 10 :: (bytes "/b\n" ++ bytes "*X\n/c\n")
          = bytes "*!ALL\n/a\n*!ALL\n/b\n*X\n/c\n"
      ∧ taihen_config_parse (bytes "*!ALL\n/a\n*!ALL\n/b\n*X\n/c\n") (bytes "GAME1")
          = some [bytes "/a"]
      ∧ bytes "/b" ∉ [bytes "/a"])
    ∧ taihen_config_parse
        (List.replicate 256 120 ++ 10 :: (bytes "*!ALL" ++ 10 :: (bytes "/b\n" ++ bytes "*X\n/c\n")))
        (bytes "GAME1") = some []
    ∧ (classify (bytes "/d") = LineKind.path (bytes "/d")
      ∧ taihen_config_parse
          (bytes "*!ALL" ++ 10 :: (List.replicate 256 120 ++ 10 :: bytes "/d\n*X\n/c\n"))
          (bytes "GAME1") = some []) := by
  have hx : ∀ b ∈ List.replicate 256 120, isEol b = false := fun b hb => by
    rw [List.eq_of_mem_replicate hb]; decide
  have hx0 : (0 : Nat) ∉ List.replicate 256 120 := fun hm =>
    absurd (List.eq_of_mem_replicate hm) (by decide)
  refine ⟨by decide, ⟨by decide, ?_, by decide⟩, ?_, by decide, ?_⟩
  · rw [taihen_config_parse_eq]
    decide
  · have h0 : (0 : Nat) ∉ List.replicate 256 120
        ++ 10 :: (bytes "*!ALL" ++ 10 :: (bytes "/b\n" ++ bytes "*X\n/c\n")) := by
      intro hm
      rcases List.mem_append.1 hm with hm | hm
      · exact hx0 hm
      · exact absurd hm (by decide)
    rw [taihen_config_parse_eq, take_strlen_of_not_mem h0,
      physLines_append_eol _ _ 10 (by decide), physLines_single _ hx]
    refine congrArg some (scanOut_long_head _ _ _ _ ?_)
    intro l hl
    rw [List.singleton_append, List.head?_cons, Option.some.injEq] at hl
    rw [← hl, List.length_replicate]
  · have h0 : (0 : Nat) ∉ bytes "*!ALL"
        ++ 10 :: (List.replicate 256 120 ++ 10 :: bytes "/d\n*X\n/c\n") := by
      intro hm
      rcases List.mem_append.1 hm with hm | hm
      · exact absurd hm (by decide)
      · rcases List.mem_cons.1 hm with hm | hm
        · exact absurd hm (by decide)
        · rcases List.mem_append.1 hm with hm | hm
          · exact hx0 hm
          · exact absurd hm (by decide)
    rw [taihen_config_parse_eq, take_strlen_of_not_mem h0,
      physLines_append_eol _ _ 10 (by decide), physLines_append_eol _ _ 10 (by decide),
      physLines_single _ hx, scanOut_append]
    have he : scanEnd ((bytes "GAME1").take (strlen (bytes "GAME1"))) (physLines (bytes "*!ALL"))
        false false = some (true, true) := by decide
    have ho : scanOut ((bytes "GAME1").take (strlen (bytes "GAME1"))) (physLines (bytes "*!ALL"))
        false false = [] := by decide
    rw [he, ho, List.nil_append]
    refine congrArg some (scanOut_long_head _ _ true true ?_)
    intro l hl
    rw [List.singleton_append, List.head?_cons, Option.some.injEq] at hl
    rw [← hl, List.length_replicate]

/-- C3. With requested section `"KERNEL"`, `taihen_config_parse` returns having called the
handler only on path lines whose nearest preceding section header is named exactly
`"KERNEL"`: its calls are an initial part of the list of those lines, in document order; a
path under an `"ALL"` header is not among them. -/
theorem parse_kernel_only_kernel_paths (doc : List Nat) (hdoc : 0 ∉ doc) :
    ∃ calls, taihen_config_parse doc TOKEN_KERNEL_SECTION = some calls
      ∧ calls <+: pathsUnder (fun n => decide (n = TOKEN_KERNEL_SECTION)) none (physLines doc) := by
  refine ⟨_, taihen_config_parse_eq _ _, ?_⟩
  have hk : (0 : Nat) ∉ TOKEN_KERNEL_SECTION := by decide
  have hsel : recorded TOKEN_KERNEL_SECTION = fun n => decide (n = TOKEN_KERNEL_SECTION) := by
    funext n; simp [recorded]
  rw [take_strlen_of_not_mem hdoc, take_strlen_of_not_mem hk, ← hsel]
  exact scanOut_initial_pathsUnder _ _ false false none rfl

/-- Witness for C3 on the KERNEL scenario of the specification. -/
theorem parse_kernel_only_kernel_paths_witness :
    ∃ calls, taihen_config_parse (bytes "*ALL\n/a.so\n*KERNEL\n/k.so\n") TOKEN_KERNEL_SECTION
        = some calls
      ∧ calls <+: pathsUnder (fun n => decide (n = TOKEN_KERNEL_SECTION)) none
          (physLines (bytes "*ALL\n/a.so\n*KERNEL\n/k.so\n"))
      ∧ calls = [bytes "/k.so"] := by
  obtain ⟨calls, h1, h2⟩ :=
    parse_kernel_only_kernel_paths (bytes "*ALL\n/a.so\n*KERNEL\n/k.so\n") (by decide)
  refine ⟨calls, h1, h2, ?_⟩
  have h3 : taihen_config_parse (bytes "*ALL\n/a.so\n*KERNEL\n/k.so\n") TOKEN_KERNEL_SECTION
      = some [bytes "/k.so"] := by decide
  rw [h3] at h1
  exact (Option.some.inj h1).symm

/-- C4 (the code departs from the claim). On the all-ASCII document of the specification
`taihen_config_validate` returns zero, although the document meets every condition of the
claim: the well-formedness scan rejects a lead byte that is followed by its full count of
continuation bytes, so it rejects every ASCII character. -/
theorem validate_rejects_ascii_document :
    taihen_config_validate (bytes "*ALL\n/a/b.so\n*GAME1\n/c/d.so\n") = some 0
      ∧ specValid (physLines (bytes "*ALL\n/a/b.so\n*GAME1\n/c/d.so\n")) false = true := by
  decide

/-- C5 (the code departs from the claim). `check_utf8` rejects the single ASCII byte `A`,
which is well-formed, rejects the complete two-byte sequence `C0 80` and accepts the lone
lead byte `C3`, which is not well-formed; a byte `10xxxxxx` or `11111xxx` in lead position is
rejected, as the claim says. -/
theorem check_utf8_inverts_continuation_test :
    check_utf8 [0x41] = some 0 ∧ wellFormedUtf8 [0x41] = true
      ∧ check_utf8 [0xC0, 0x80] = some 0 ∧ wellFormedUtf8 [0xC0, 0x80] = true
      ∧ check_utf8 [0xED, 0xA0, 0x80] = some 0 ∧ check_utf8 [0xF7, 0xBF, 0xBF, 0xBF] = some 0
      ∧ check_utf8 [0xC3] = some 1 ∧ wellFormedUtf8 [0xC3] = false
      ∧ check_utf8 [0x80] = some 0 ∧ check_utf8 [0xF8] = some 0 := by
  decide

/-- C6 (the code departs from the claim). For the headers `*\xC3` and `*\xC3A`, whose name has
a lead byte announcing one continuation byte that does not follow, `taihen_config_validate`
returns non-zero. -/
theorem validate_accepts_truncated_sequence :
    taihen_config_validate [42, 0xC3] = some 1
      ∧ taihen_config_validate [42, 0xC3, 0x41] = some 1
      ∧ wellFormedUtf8 [0xC3] = false ∧ wellFormedUtf8 [0xC3, 0x41] = false := by
  decide

/-- C7. A document (a NUL-free byte string) in which a path line occurs with no section
header line before it makes `taihen_config_validate` return zero, whatever follows. -/
theorem validate_rejects_path_before_section (doc : List Nat) (pre post : List (List Nat))
    (l : List Nat) (hdoc : 0 ∉ doc) (hlines : physLines doc = pre ++ l :: post)
    (hpre : ∀ l' ∈ pre, isHeader l' = false) (hl : isPath l = true) :
    taihen_config_validate doc = some 0 := by
  rw [taihen_config_validate_eq, take_strlen_of_not_mem hdoc, hlines,
    validLines_path_before_header pre post l hpre hl]
  rfl

/-- Witness for C7: a comment, then a path, then a section. -/
theorem validate_rejects_path_before_section_witness :
    taihen_config_validate (bytes "# plugins\n/a.so\n*ALL\n") = some 0 :=
  validate_rejects_path_before_section (bytes "# plugins\n/a.so\n*ALL\n") [bytes "# plugins"]
    [bytes "*ALL", []] (bytes "/a.so") (by decide) (by decide) (by decide) (by decide)

/-- C8. A document (a NUL-free byte string) with a section header line whose name is empty
after trimming makes `taihen_config_validate` return zero. -/
theorem validate_rejects_empty_section_name (doc l : List Nat) (hdoc : 0 ∉ doc)
    (hl : l ∈ physLines doc) (hform : isEmptyNameHeader l = true) :
    taihen_config_validate doc = some 0 := by
  obtain ⟨hm, hc⟩ := classify_of_isEmptyNameHeader l hform
  rw [taihen_config_validate_eq, take_strlen_of_not_mem hdoc,
    validLines_empty_name _ l hm false hl hc]
  rfl

/-- Witness for C8 on the three headers of the claim. -/
theorem validate_rejects_empty_section_name_witness :
    taihen_config_validate (bytes "*") = some 0
      ∧ taihen_config_validate (bytes "# c\n*   \n") = some 0
      ∧ taihen_config_validate (bytes "# c\n*!") = some 0 :=
  ⟨validate_rejects_empty_section_name (bytes "*") (bytes "*") (by decide) (by decide)
      (by decide),
   validate_rejects_empty_section_name (bytes "# c\n*   \n") (bytes "*   ") (by decide)
      (by decide) (by decide),
   validate_rejects_empty_section_name (bytes "# c\n*!") (bytes "*!") (by decide) (by decide)
      (by decide)⟩

/-- C9. Comment lines are ignored by both consumers. First part: in a document (a NUL-free
byte string) `A ++ B` split at a line boundary, inserting a blank or `#`-first line `c` shorter
than 256 bytes together with a line terminator `t` changes neither the handler calls of
`taihen_config_parse`, for any requested section, nor the result of
`taihen_config_validate`. Second part: a document written with `\r\n` line endings gives the
same calls and the same result as the document written with `\n` line endings. -/
theorem comment_lines_are_ignored :
    (∀ (A B c q : List Nat) (t : Nat), 0 ∉ A ++ c ++ t :: B → atLineBoundary A = true →
      (∀ b ∈ c, isEol b = false) → c.length < 256 → classify c = LineKind.comment →
      isEol t = true →
      ∃ calls v, taihen_config_parse (A ++ c ++ t :: B) q = some calls
        ∧ taihen_config_parse (A ++ B) q = some calls
        ∧ taihen_config_validate (A ++ c ++ t :: B) = some v
        ∧ taihen_config_validate (A ++ B) = some v)
    ∧ (∀ (doc q : List Nat), 0 ∉ doc → 13 ∉ doc →
      ∃ calls v, taihen_config_parse (toCRLF doc) q = some calls
        ∧ taihen_config_parse doc q = some calls
        ∧ taihen_config_validate (toCRLF doc) = some v
        ∧ taihen_config_validate doc = some v) := by
  constructor
  · intro A B c q t hdoc hA hc hclen hkind ht
    have hAB : 0 ∉ A ++ B := by
      intro hm
      apply hdoc
      simp only [List.mem_append, List.mem_cons] at hm ⊢
      tauto
    have hl1 : physLines (A ++ c ++ t :: B) = (physLines A).dropLast ++ c :: physLines B := by
      rw [List.append_assoc, (physLines_append_of_boundary hA _).1,
        physLines_append_eol c B t ht, physLines_single c hc]
      rfl
    have hl2 : physLines (A ++ B) = (physLines A).dropLast ++ physLines B :=
      (physLines_append_of_boundary hA B).1
    refine ⟨_, _, ?_, taihen_config_parse_eq _ _, ?_, taihen_config_validate_eq _⟩
    · rw [taihen_config_parse_eq, take_strlen_of_not_mem hdoc, take_strlen_of_not_mem hAB,
        hl1, hl2]
      exact congrArg some (scanOut_append_congr _ _ _ _
        (fun h r => scanOut_comment_cons _ c _ h r hclen hkind) false false)
    · rw [taihen_config_validate_eq, take_strlen_of_not_mem hdoc, take_strlen_of_not_mem hAB,
        hl1, hl2, validLines_append_congr _ _ _
          (fun hs => validLines_comment_cons c _ hs hclen hkind) false]
  · intro doc q hdoc h13
    have h0 := not_mem_toCRLF doc hdoc
    refine ⟨_, _, ?_, taihen_config_parse_eq _ _, ?_, taihen_config_validate_eq _⟩
    · rw [taihen_config_parse_eq, take_strlen_of_not_mem hdoc, take_strlen_of_not_mem h0,
        physLines_toCRLF doc h13, scanOut_intersperse_blank]
    · rw [taihen_config_validate_eq, take_strlen_of_not_mem hdoc, take_strlen_of_not_mem h0,
        physLines_toCRLF doc h13, validLines_intersperse_blank]

/-- Witness for C9: a comment inserted before the second section of the scenario document,
and the scenario document with `\r\n` line endings. -/
theorem comment_lines_are_ignored_witness :
    (∃ calls v,
      taihen_config_parse (bytes "*ALL\n/a/b.so\n" ++ bytes " # note" ++ 10 :: bytes "*GAME1\n/c/d.so\n")
          (bytes "GAME1") = some calls
        ∧ taihen_config_parse (bytes "*ALL\n/a/b.so\n" ++ bytes "*GAME1\n/c/d.so\n") (bytes "GAME1")
          = some calls
        ∧ taihen_config_validate
            (bytes "*ALL\n/a/b.so\n" ++ bytes " # note" ++ 10 :: bytes "*GAME1\n/c/d.so\n") = some v
        ∧ taihen_config_validate (bytes "*ALL\n/a/b.so\n" ++ bytes "*GAME1\n/c/d.so\n") = some v)
    ∧ (∃ calls v,
      taihen_config_parse (toCRLF (bytes "*ALL\n/a/b.so\n")) (bytes "GAME1") = some calls
        ∧ taihen_config_parse (bytes "*ALL\n/a/b.so\n") (bytes "GAME1") = some calls
        ∧ taihen_config_validate (toCRLF (bytes "*ALL\n/a/b.so\n")) = some v
        ∧ taihen_config_validate (bytes "*ALL\n/a/b.so\n") = some v) :=
  ⟨comment_lines_are_ignored.1 (bytes "*ALL\n/a/b.so\n") (bytes "*GAME1\n/c/d.so\n")
      (bytes " # note") (bytes "GAME1") 10 (by decide) (by decide) (by decide) (by decide)
      (by decide) (by decide),
   comment_lines_are_ignored.2 (bytes "*ALL\n/a/b.so\n") (bytes "GAME1") (by decide)
      (by decide)⟩

/-- C10. In a document (a NUL-free byte string) `A ++ L ++ R` where `A` stops at a line
boundary and `L` is 256 or more bytes without a line terminator, so that a physical line of
256 or more bytes starts after `A`, `taihen_config_parse` returns having made, for every
requested section, exactly the handler calls it makes for `A` alone. The lines of `A` may
have any length. -/
theorem parse_truncates_at_overlong_line (A L R q : List Nat) (hdoc : 0 ∉ A ++ L ++ R)
    (hA : atLineBoundary A = true) (hL : ∀ b ∈ L, isEol b = false) (hlen : 256 ≤ L.length) :
    ∃ calls, taihen_config_parse (A ++ L ++ R) q = some calls
      ∧ taihen_config_parse A q = some calls := by
  have hA0 : 0 ∉ A := by
    intro hm
    apply hdoc
    simp only [List.mem_append] at hm ⊢
    tauto
  have hhead : ∀ l, (physLines (L ++ R)).head? = some l → 256 ≤ l.length := by
    intro l hl
    rw [physLines_append_of_not_eol L R hL] at hl
    cases hp : physLines R with
    | nil => exact absurd hp (physLines_ne_nil R)
    | cons y ys =>
      simp only [hp, List.modifyHead, List.head?_cons, Option.some.injEq] at hl
      rw [← hl, List.length_append]
      omega
  refine ⟨scanOut (q.take (strlen q)) (physLines A).dropLast false false, ?_, ?_⟩
  · rw [taihen_config_parse_eq, take_strlen_of_not_mem hdoc, List.append_assoc,
      (physLines_append_of_boundary hA _).1, scanOut_append]
    cases hst : scanEnd (q.take (strlen q)) (physLines A).dropLast false false with
    | none => simp [scanResume]
    | some st => simp [scanResume, scanOut_long_head _ _ _ _ hhead]
  · rw [taihen_config_parse_eq, take_strlen_of_not_mem hA0]
    conv_lhs => rw [(physLines_append_of_boundary hA []).2]
    rw [scanOut_append]
    cases hst : scanEnd (q.take (strlen q)) (physLines A).dropLast false false with
    | none => simp [scanResume]
    | some st => simp [scanResume, scanOut_blank]

/-- Witness for C10: a line of 256 bytes after one section with one path. -/
theorem parse_truncates_at_overlong_line_witness :
    ∃ calls, taihen_config_parse
        (bytes "*ALL\n/a.so\n" ++ List.replicate 256 120 ++ bytes "\n/b.so\n") (bytes "ALL")
        = some calls
      ∧ taihen_config_parse (bytes "*ALL\n/a.so\n") (bytes "ALL") = some calls :=
  parse_truncates_at_overlong_line (bytes "*ALL\n/a.so\n") (List.replicate 256 120)
    (bytes "\n/b.so\n") (bytes "ALL") (by decide) (by decide)
    (fun b hb => by rw [List.eq_of_mem_replicate hb]; decide)
    (Nat.le_of_eq (List.length_replicate 256 120).symm)

/-! ## The tokenizer, call by call -/

theorem rdropWhile_cons_of_ne_nil {p : Nat → Bool} (a : Nat) (as : List Nat)
    (h : as.rdropWhile p ≠ []) : (a :: as).rdropWhile p = a :: as.rdropWhile p := by
  induction as using List.reverseRecOn with
  | nil => simp at h
  | append_singleton l x ih =>
    by_cases hx : p x = true
    · rw [List.rdropWhile_concat_pos _ _ _ hx] at h
      rw [← List.cons_append, List.rdropWhile_concat_pos _ _ _ hx,
        List.rdropWhile_concat_pos _ _ _ hx, ih h]
    · rw [← List.cons_append, List.rdropWhile_concat_neg _ _ _ hx,
        List.rdropWhile_concat_neg _ _ _ hx, List.cons_append]

/-- Removing leading and trailing whitespace can be done in either order. -/
theorem dropWhile_rdropWhile_comm (p : Nat → Bool) (l : List Nat) :
    (l.rdropWhile p).dropWhile p = (l.dropWhile p).rdropWhile p := by
  induction l with
  | nil => simp
  | cons a as ih =>
    by_cases ha : p a = true
    · by_cases hall : as.rdropWhile p = []
      · have h1 : (a :: as).rdropWhile p = [] := by
          rw [List.rdropWhile_eq_nil_iff] at hall ⊢
          intro x hx
          rcases List.mem_cons.1 hx with e | e
          · rw [e]; exact ha
          · exact hall x e
        have h2 : as.dropWhile p = [] := by
          rw [List.rdropWhile_eq_nil_iff] at hall
          rw [List.dropWhile_eq_nil_iff]
          exact hall
        simp [h1, List.dropWhile_cons, ha, h2]
      · rw [rdropWhile_cons_of_ne_nil a as hall]
        simp only [List.dropWhile_cons, ha, if_true]
        exact ih
    · have ha' : p a = false := by simpa using ha
      rw [rdropWhile_cons_of_neg a as ha']
      simp [List.dropWhile_cons, ha', rdropWhile_cons_of_neg a as ha']

theorem strip_eq_dropWhile_rdropWhile (l : List Nat) :
    strip l = (l.rdropWhile isspace).dropWhile isspace := by
  rw [dropWhile_rdropWhile_comm]; rfl

theorem dropWhile_congr_mem {p q : Nat → Bool} (l : List Nat) (h : ∀ b ∈ l, p b = q b) :
    l.dropWhile p = l.dropWhile q := by
  induction l with
  | nil => rfl
  | cons a as ih =>
    have ha := h a (List.mem_cons_self _ _)
    simp only [List.dropWhile_cons, ha]
    split_ifs
    · exact ih (fun b hb => h b (List.mem_cons_of_mem _ hb))
    · rfl

theorem rdropWhile_congr_mem {p q : Nat → Bool} (l : List Nat) (h : ∀ b ∈ l, p b = q b) :
    l.rdropWhile p = l.rdropWhile q := by
  unfold List.rdropWhile
  rw [dropWhile_congr_mem l.reverse (fun b hb => h b (List.mem_reverse.1 hb))]

theorem isspace_eq_isBlank {b : Nat} (h10 : b ≠ 10) (h13 : b ≠ 13) : isspace b = isBlank b := by
  have e10 : (b == 10) = false := by simpa using h10
  have e13 : (b == 13) = false := by simpa using h13
  simp [isspace, isBlank, e10, e13]

/-- On a single line, whitespace is space, tab, vertical tab and form feed. -/
theorem strip_eq_trimBlank (l : List Nat) (hl : singleLine l) : strip l = trimBlank l := by
  have h1 : ∀ b ∈ l, isspace b = isBlank b :=
    fun b hb => isspace_eq_isBlank (hl b hb).2.1 (hl b hb).2.2
  unfold strip trimBlank
  rw [dropWhile_congr_mem l h1]
  exact rdropWhile_congr_mem _
    (fun b hb => h1 b ((List.dropWhile_sublist isBlank).subset hb))

theorem get_newline_of_singleLine (l : List Nat) (hl : singleLine l) :
    get_newline l = l.length := by
  induction l with
  | nil => rfl
  | cons a as ih =>
    have ha := hl a (List.mem_cons_self _ _)
    have : ¬ (a = 0 ∨ a = 13 ∨ a = 10) := by
      simp only [not_or]; exact ⟨ha.1, ha.2.2, ha.2.1⟩
    simp [get_newline, this, ih (fun b hb => hl b (List.mem_cons_of_mem _ hb))]

theorem init_input_of_singleLine (l : List Nat) (hl : singleLine l) :
    (taihen_config_init_lexer l).input = l := by
  have h0 : 0 ∉ l := fun h => (hl 0 h).1 rfl
  simp [taihen_config_init_lexer, take_strlen_of_not_mem h0]

/-- The call that follows the last line of the input returns `0` and sets the token to End. -/
theorem lex_at_end {ctx : taihen_config_lexer} (hs : AtLineStart ctx.token)
    (hin : ctx.input = []) :
    taihen_config_lex ctx = (0, { ctx with token := CONFIG_END_TOKEN }) := by
  rw [lex_of_atLineStart hs, lex_line_nil hin]

/-- The first call on a non-empty single-line input shorter than 256 bytes reads the whole
input as its line. -/
theorem lex_first_singleLine (l : List Nat) (hl : singleLine l) (hne : l ≠ [])
    (hlen : l.length < 256) :
    ∃ ctx1, taihen_config_lex (taihen_config_init_lexer l) = (1, ctx1) ∧ ctx1.input = []
      ∧ ((classify l = LineKind.comment ∧ ctx1.token = CONFIG_COMMENT_TOKEN)
        ∨ (∃ p, classify l = LineKind.path p ∧ ctx1.token = CONFIG_PATH_TOKEN
            ∧ line_pos_str ctx1 = p)
        ∨ (∃ r, strip l = 42 :: r ∧ ctx1.token = CONFIG_SECTION_TOKEN
            ∧ line_pos_str ctx1 = 42 :: r)) := by
  have hi := init_input_of_singleLine l hl
  have hg := get_newline_of_singleLine l hl
  have hs : AtLineStart (taihen_config_init_lexer l).token := Or.inl rfl
  obtain ⟨ctx1, h1, h2, h3⟩ := lex_line_spec (taihen_config_init_lexer l)
    (by rw [hi]; exact hne) (by rw [hi, hg]; exact hlen)
  rw [hi, hg] at h2 h3
  rw [List.take_length] at h3
  refine ⟨ctx1, by rw [lex_of_atLineStart hs]; exact h1, ?_, h3⟩
  rw [h2]; simp

theorem singleLine_of_sublist {l m : List Nat} (h : m.Sublist l) (hl : singleLine l) :
    singleLine m :=
  fun b hb => hl b (h.subset hb)

theorem head?_rdropWhile_of_dropWhile (p : Nat → Bool) (l : List Nat) :
    ((l.dropWhile p).rdropWhile p).head? = (l.dropWhile p).head? := by
  cases hd : l.dropWhile p with
  | nil => simp
  | cons a as =>
    have ha : p a = false := by
      have := List.head_dropWhile_not p l (by simp [hd])
      simpa [hd] using this
    rw [rdropWhile_cons_of_neg a as ha]; rfl

theorem tail_rdropWhile_of_dropWhile (p : Nat → Bool) (l : List Nat) :
    ((l.dropWhile p).rdropWhile p).tail = ((l.dropWhile p).tail).rdropWhile p := by
  cases hd : l.dropWhile p with
  | nil => simp
  | cons a as =>
    have ha : p a = false := by
      have := List.head_dropWhile_not p l (by simp [hd])
      simpa [hd] using this
    rw [rdropWhile_cons_of_neg a as ha]; rfl

theorem lex_calls_succ (n : Nat) (ctx : taihen_config_lexer) :
    lex_calls (n + 1) ctx = taihen_config_lex ctx :: lex_calls n (taihen_config_lex ctx).2 :=
  rfl

/-- The two calls on a single-line input that is a path entry. -/
theorem lex_path_line_trace (inp cs : List Nat) (c : Nat) (hl : singleLine inp)
    (hlen : inp.length < 256) (hfirst : inp.dropWhile isspace = c :: cs)
    (h35 : c ≠ 35) (h42 : c ≠ 42) :
    ∃ ctx1, lex_calls 2 (taihen_config_init_lexer inp)
        = [(1, ctx1), (0, { ctx1 with token := CONFIG_END_TOKEN })]
      ∧ ctx1.token = CONFIG_PATH_TOKEN ∧ line_pos_str ctx1 = strip inp := by
  have hne : inp ≠ [] := by
    intro e; rw [e] at hfirst; simp at hfirst
  have hstrip := strip_of_dropWhile_cons inp c cs hfirst
  have hcl : classify inp = LineKind.path (strip inp) := by
    simp [classify, hstrip, h35, h42]
  obtain ⟨ctx1, h1, hin1, hk⟩ := lex_first_singleLine inp hl hne hlen
  obtain ⟨htok1, hstr1⟩ : ctx1.token = CONFIG_PATH_TOKEN ∧ line_pos_str ctx1 = strip inp := by
    rcases hk with ⟨hc, _⟩ | ⟨p, hc, ht, hp⟩ | ⟨r, hr, _⟩
    · rw [hcl] at hc; exact absurd hc (by simp)
    · rw [hcl] at hc
      exact ⟨ht, by rw [hp]; exact (LineKind.path.inj hc).symm⟩
    · rw [hstrip] at hr; exact absurd (List.cons.inj hr).1 h42
  have h2 := @lex_at_end ctx1 (by simp [AtLineStart, htok1]) hin1
  exact ⟨ctx1, by simp [lex_calls, h1, h2], htok1, hstr1⟩

/-- A run whose second call returns 0 does not end in an error return. -/
theorem no_error_of_second_call_zero (ctx0 c1 c2 : taihen_config_lexer)
    (h : lex_calls 2 ctx0 = [(1, c1), (0, c2)]) :
    ¬ ∃ (k : Nat) (pre : List (Int × taihen_config_lexer)) (r : Int × taihen_config_lexer),
      lex_calls (k + 1) ctx0 = pre ++ [r]
      ∧ (∀ x ∈ pre, 0 < x.1 ∧ x.2.token ≠ CONFIG_END_TOKEN)
      ∧ r.1 < 0 ∧ r.2.token ≠ CONFIG_END_TOKEN := by
  have h1 : taihen_config_lex ctx0 = (1, c1) := by
    have := congrArg List.head? h
    simpa [lex_calls] using this
  have h2 : taihen_config_lex c1 = (0, c2) := by
    have := congrArg (fun l => l.tail.head?) h
    simpa [lex_calls, h1] using this
  rintro ⟨k, pre, r, hk, hpre, hneg, _⟩
  cases k with
  | zero =>
    have hk' : pre ++ [r] = [(1, c1)] := by rw [← hk]; simp [lex_calls, h1]
    cases pre with
    | nil =>
      simp only [List.nil_append, List.cons.injEq, and_true] at hk'
      rw [hk'] at hneg; norm_num at hneg
    | cons a as =>
      have hlen2 := congrArg List.length hk'
      simp at hlen2
  | succ k =>
    have hk2 : lex_calls (k + 1 + 1) ctx0 = (1, c1) :: (0, c2) :: lex_calls k c2 := by
      simp [lex_calls_succ, h1, h2]
    rw [hk2] at hk
    have hmem : ((0 : Int), c2) ∈ pre ++ [r] := by
      rw [← hk]; simp
    rcases List.mem_append.1 hmem with e | e
    · have := (hpre _ e).1; norm_num at this
    · rw [List.mem_singleton] at e
      rw [← e] at hneg; norm_num at hneg

/-- One physical line shorter than 256 bytes takes one, two or three calls, all with a
positive return value, and leaves the tokenizer where the next line is to be read. -/
theorem lex_consumes_line (ctx : taihen_config_lexer) (hs : AtLineStart ctx.token)
    (hne : ctx.input ≠ []) (hlen : get_newline ctx.input < 256) :
    ∃ (calls : List (Int × taihen_config_lexer)) (ctx' : taihen_config_lexer),
      calls.length ≤ 3
      ∧ (∀ m, lex_calls (m + calls.length) ctx = calls ++ lex_calls m ctx')
      ∧ (∀ x ∈ calls, 0 < x.1 ∧ x.2.token ≠ CONFIG_END_TOKEN)
      ∧ AtLineStart ctx'.token
      ∧ ctx'.input = ctx.input.drop (get_newline ctx.input + 1) := by
  obtain ⟨ctx1, h1, hin1, hk⟩ := lex_line_spec ctx hne hlen
  rw [← lex_of_atLineStart hs] at h1
  rcases hk with ⟨_, htok⟩ | ⟨p, _, htok, _⟩ | ⟨r, _, htok, hstr⟩
  · refine ⟨[(1, ctx1)], ctx1, by simp, ?_, ?_, by simp [AtLineStart, htok], hin1⟩
    · intro m; simp [lex_calls_succ, h1]
    · simp [htok]
  · refine ⟨[(1, ctx1)], ctx1, by simp, ?_, ?_, by simp [AtLineStart, htok], hin1⟩
    · intro m; simp [lex_calls_succ, h1]
    · simp [htok]
  · obtain ⟨hyes, hno⟩ := lex_section_spec ctx1 r htok hstr
    by_cases h33 : (r.dropWhile isspace).head? = some 33
    · obtain ⟨ctx2, ctx3, h2, htok2, h3, htok3, hin3, _⟩ := hyes h33
      refine ⟨[(1, ctx1), (1, ctx2), (1, ctx3)], ctx3, by simp, ?_, ?_,
        by simp [AtLineStart, htok3], by rw [hin3, hin1]⟩
      · intro m
        show lex_calls (m + 1 + 1 + 1) ctx = _
        simp [lex_calls_succ, h1, h2, h3]
      · simp [htok, htok2, htok3]
    · obtain ⟨ctx2, h2, htok2, hin2, _⟩ := hno h33
      refine ⟨[(1, ctx1), (1, ctx2)], ctx2, by simp, ?_, ?_,
        by simp [AtLineStart, htok2], by rw [hin2, hin1]⟩
      · intro m
        show lex_calls (m + 1 + 1) ctx = _
        simp [lex_calls_succ, h1, h2]
      · simp [htok, htok2]

theorem atLineStart_ne_end {t : taihen_config_lexer_token} (h : AtLineStart t) :
    t ≠ CONFIG_END_TOKEN := by
  rcases h with h | h | h | h <;> simp [h]

/-- Driving the tokenizer from a state where a line is to be read: finitely many calls with
a positive return value, at most three per physical line, and then either the return value 0
with the token End, when no line has 256 bytes or more, or a negative return value, when some
line has. -/
theorem lex_run (n : Nat) :
    ∀ ctx : taihen_config_lexer, ctx.input.length ≤ n → AtLineStart ctx.token →
      0 ∉ ctx.input →
      ∃ (k : Nat) (pre : List (Int × taihen_config_lexer)) (r : Int × taihen_config_lexer),
        lex_calls (k + 1) ctx = pre ++ [r]
        ∧ (∀ x ∈ pre, 0 < x.1 ∧ x.2.token ≠ CONFIG_END_TOKEN)
        ∧ k ≤ (if ctx.input = [] then 0 else 3 * (physLines ctx.input).length)
        ∧ ((r.1 = 0 ∧ r.2.token = CONFIG_END_TOKEN
              ∧ ∀ l ∈ physLines ctx.input, l.length < 256)
          ∨ (r.1 < 0 ∧ r.2.token ≠ CONFIG_END_TOKEN
              ∧ ∃ l ∈ physLines ctx.input, 256 ≤ l.length)) := by
  induction n with
  | zero =>
    intro ctx hn hs h0
    have hnil : ctx.input = [] := List.length_eq_zero.1 (by omega)
    refine ⟨0, [], taihen_config_lex ctx, by simp [lex_calls_succ, lex_calls], by simp,
      by simp [hnil], Or.inl ?_⟩
    rw [lex_at_end hs hnil, hnil, physLines_nil]
    simp
  | succ n ih =>
    intro ctx hn hs h0
    by_cases hnil : ctx.input = []
    · refine ⟨0, [], taihen_config_lex ctx, by simp [lex_calls_succ, lex_calls], by simp,
        by simp [hnil], Or.inl ?_⟩
      rw [lex_at_end hs hnil, hnil, physLines_nil]
      simp
    · obtain ⟨tl, hpl, htl⟩ := physLines_cons ctx.input h0
      have hll := length_take_get_newline ctx.input
      by_cases hlong : 256 ≤ get_newline ctx.input
      · refine ⟨0, [], taihen_config_lex ctx, by simp [lex_calls_succ, lex_calls], by simp,
          by simp, Or.inr ?_⟩
        rw [lex_of_atLineStart hs, lex_line_long hnil hlong]
        refine ⟨by norm_num, atLineStart_ne_end hs, _, ?_, by rw [hll]; exact hlong⟩
        rw [hpl]; exact List.mem_cons_self _ _
      · obtain ⟨calls, ctx', hc3, hcalls, hpos, hs', hin'⟩ :=
          lex_consumes_line ctx hs hnil (by omega)
        have hrest := length_drop_lt hnil (get_newline ctx.input)
        obtain ⟨k, pre, r, hk, hpre, hbound, hres⟩ := ih ctx' (by rw [hin']; omega) hs'
          (by rw [hin']; exact not_mem_drop h0 _)
        refine ⟨k + calls.length, calls ++ pre, r, ?_, ?_, ?_, ?_⟩
        · rw [show k + calls.length + 1 = (k + 1) + calls.length by omega, hcalls, hk,
            List.append_assoc]
        · intro x hx
          rcases List.mem_append.1 hx with e | e
          · exact hpos x e
          · exact hpre x e
        · rw [if_neg hnil, hpl, List.length_cons]
          by_cases hr : ctx'.input = []
          · rw [if_pos hr] at hbound; omega
          · rw [if_neg hr] at hbound
            rcases htl with e | ⟨_, e⟩
            · rw [e, ← hin']; omega
            · exact absurd (hin'.trans e) hr
        · have hshort : (ctx.input.take (get_newline ctx.input)).length < 256 := by
            rw [hll]; omega
          rw [hin'] at hres
          rcases hres with ⟨e0, etok, hall⟩ | ⟨eneg, etok, l, hl, hlen⟩
          · left
            refine ⟨e0, etok, ?_⟩
            intro l hl
            rw [hpl] at hl
            rcases List.mem_cons.1 hl with e | e
            · rw [e]; exact hshort
            · rcases htl with e' | ⟨e', _⟩
              · exact hall l (e' ▸ e)
              · rw [e'] at e; simp at e
          · right
            refine ⟨eneg, etok, l, ?_, hlen⟩
            rw [hpl]
            rcases htl with e' | ⟨_, e'⟩
            · rw [e']; exact List.mem_cons_of_mem _ hl
            · rw [e', physLines_nil] at hl
              simp only [List.mem_singleton] at hl
              rw [hl] at hlen; simp at hlen

theorem length_le_of_mem_physLines (s l : List Nat) (h : l ∈ physLines s) :
    l.length ≤ s.length := by
  induction s generalizing l with
  | nil => rw [physLines_nil] at h; simp at h; simp [h]
  | cons a as ih =>
    by_cases ha : isEol a = true
    · rw [physLines_cons_eol a as ha] at h
      rcases List.mem_cons.1 h with e | e
      · simp [e]
      · have := ih l e; simp only [List.length_cons]; omega
    · have ha' : isEol a = false := by simpa using ha
      rw [physLines_cons_not_eol a as ha'] at h
      cases hp : physLines as with
      | nil => exact absurd hp (physLines_ne_nil as)
      | cons y ys =>
        rw [hp] at h
        simp only [List.modifyHead, List.mem_cons] at h
        rcases h with e | e
        · have := ih y (by rw [hp]; exact List.mem_cons_self _ _)
          rw [e]; simp only [List.length_cons]; omega
        · have := ih l (by rw [hp]; exact List.mem_cons_of_mem _ e)
          simp only [List.length_cons]; omega

theorem init_lex_run (input : List Nat) :
    ∃ (k : Nat) (pre : List (Int × taihen_config_lexer)) (r : Int × taihen_config_lexer),
      lex_calls (k + 1) (taihen_config_init_lexer input) = pre ++ [r]
      ∧ (∀ x ∈ pre, 0 < x.1 ∧ x.2.token ≠ CONFIG_END_TOKEN)
      ∧ k ≤ 3 * (physLines (input.take (strlen input))).length
      ∧ ((r.1 = 0 ∧ r.2.token = CONFIG_END_TOKEN
            ∧ ∀ l ∈ physLines (input.take (strlen input)), l.length < 256)
        ∨ (r.1 < 0 ∧ r.2.token ≠ CONFIG_END_TOKEN
            ∧ ∃ l ∈ physLines (input.take (strlen input)), 256 ≤ l.length)) := by
  obtain ⟨k, pre, r, h1, h2, h3, h4⟩ := lex_run _ (taihen_config_init_lexer input) (le_refl _)
    (Or.inl rfl) (zero_not_mem_take_strlen input)
  refine ⟨k, pre, r, h1, h2, ?_, h4⟩
  refine le_trans h3 ?_
  split_ifs
  · exact Nat.zero_le _
  · exact le_refl _

theorem singleLine_replicate_a (n : Nat) : singleLine (List.replicate n 97) := by
  intro b hb
  rw [List.eq_of_mem_replicate hb]
  decide

theorem dropWhile_replicate_a (n : Nat) :
    (List.replicate (n + 1) 97).dropWhile isspace = 97 :: List.replicate n 97 := by
  rw [List.replicate_succ, List.dropWhile_cons]
  have : isspace 97 = false := by decide
  rw [this]; rfl

theorem get_newline_append (l rest : List Nat) (hl : singleLine l)
    (hrest : ∀ t, rest.head? = some t → t = 0 ∨ t = 10 ∨ t = 13) :
    get_newline (l ++ rest) = l.length := by
  induction l with
  | nil =>
    cases rest with
    | nil => rfl
    | cons t r =>
      have := hrest t rfl
      have h' : t = 0 ∨ t = 13 ∨ t = 10 := by tauto
      simp [get_newline, h']
  | cons a as ih =>
    have ha := hl a (List.mem_cons_self _ _)
    have : ¬ (a = 0 ∨ a = 13 ∨ a = 10) := by
      simp only [not_or]; exact ⟨ha.1, ha.2.2, ha.2.1⟩
    simp [get_newline, this, ih (fun b hb => hl b (List.mem_cons_of_mem _ hb))]

theorem rdropWhile_append_rest (p : Nat → Bool) (cs : List Nat) :
    ∃ w, cs = cs.rdropWhile p ++ w ∧ ∀ b ∈ w, p b = true := by
  induction cs using List.reverseRecOn with
  | nil => exact ⟨[], by simp, by simp⟩
  | append_singleton l x ih =>
    by_cases hx : p x = true
    · obtain ⟨w, hw, hall⟩ := ih
      refine ⟨w ++ [x], ?_, ?_⟩
      · rw [List.rdropWhile_concat_pos _ _ _ hx, ← List.append_assoc, ← hw]
      · intro b hb
        rcases List.mem_append.1 hb with e | e
        · exact hall b e
        · rw [List.mem_singleton] at e; rw [e]; exact hx
    · exact ⟨[], by rw [List.rdropWhile_concat_neg _ _ _ hx]; simp, by simp⟩

theorem trim_whitespace_rest (buf : List Nat) (pos : Nat) :
    ∃ w, buf = trim_whitespace buf pos ++ w ∧ ∀ b ∈ w, isspace b = true := by
  unfold trim_whitespace
  cases h : buf.drop pos with
  | nil => exact ⟨[], by simp, by simp⟩
  | cons c cs =>
    obtain ⟨w, hw, hall⟩ := rdropWhile_append_rest isspace cs
    refine ⟨w, ?_, hall⟩
    simp only [trim_whitespace_run_eq]
    rw [List.append_assoc, List.cons_append, ← hw, ← h, List.take_append_drop]

theorem lex_line_buffer (ctx : taihen_config_lexer) (hne : ctx.input ≠ [])
    (hlen : get_newline ctx.input < 256) :
    (lex_line ctx).2.line = ctx.input.take (get_newline ctx.input)
      ∨ (lex_line ctx).2.line = trim_whitespace (ctx.input.take (get_newline ctx.input))
          (skip_whitespace (ctx.input.take (get_newline ctx.input)) 0) := by
  have hlen' : ¬ (get_newline ctx.input ≥ CONFIG_MAX_LINE_LENGTH) := by
    simp [CONFIG_MAX_LINE_LENGTH]; omega
  simp only [lex_line, hne, if_false, hlen']
  split_ifs <;> simp

theorem scanOut_halt_flag_irrelevant (q : List Nat) (ls : List (List Nat)) (h h' : Bool) :
    scanOut q ls h false = scanOut q ls h' false := by
  induction ls generalizing h h' with
  | nil => simp [scanOut]
  | cons l ls ih =>
    by_cases hlong : 256 ≤ l.length
    · simp [scanOut, hlong]
    · cases hc : classify l with
      | comment => simpa [scanOut, hlong, hc] using ih h h'
      | header hm n => simp [scanOut, hlong, hc]
      | path p => simpa [scanOut, hlong, hc] using ih h h'

theorem classify_halt_header (n : List Nat) :
    classify (42 :: 33 :: n) = LineKind.header true (strip n) := by
  have h42 : isspace 42 = false := by decide
  have h33 : isspace 33 = false := by decide
  have hd : (42 :: 33 :: n).dropWhile isspace = 42 :: 33 :: n := by
    simp [List.dropWhile_cons, h42]
  have hstrip : strip (42 :: 33 :: n) = 42 :: 33 :: n.rdropWhile isspace := by
    rw [strip_of_dropWhile_cons _ 42 _ hd, rdropWhile_cons_of_neg 33 n h33]
  rw [classify_of_strip_star _ _ hstrip]
  have hd2 : (33 :: n.rdropWhile isspace).dropWhile isspace = 33 :: n.rdropWhile isspace := by
    simp [List.dropWhile_cons, h33]
  rw [hd2]
  simp only [List.head?_cons, if_true, List.tail_cons]
  rw [strip_eq_dropWhile_rdropWhile]

theorem skip_whitespace_run_le (s : List Nat) : skip_whitespace_run s ≤ s.length := by
  induction s with
  | nil => simp [skip_whitespace_run]
  | cons c cs ih => by_cases h : isspace c = true <;> simp [skip_whitespace_run, h]; omega

theorem skip_whitespace_le (buf : List Nat) (pos : Nat) (h : pos ≤ buf.length) :
    skip_whitespace buf pos ≤ buf.length := by
  have := skip_whitespace_run_le (buf.drop pos)
  rw [List.length_drop] at this
  unfold skip_whitespace
  omega

theorem length_trim_whitespace_ge (buf : List Nat) (pos : Nat) (h : pos ≤ buf.length) :
    pos ≤ (trim_whitespace buf pos).length := by
  unfold trim_whitespace
  cases hd : buf.drop pos with
  | nil => exact h
  | cons c cs =>
    simp only [List.length_append, List.length_take, List.length_cons]
    omega

theorem lt_length_of_line_pos_byte_ne_zero (buf : List Nat) (pos : Nat)
    (h : line_pos_byte buf pos ≠ 0) : pos < buf.length := by
  by_contra hc
  apply h
  unfold line_pos_byte
  rw [List.getD_eq_default _ _ (by omega)]

theorem cursorInv_lex_line (ctx : taihen_config_lexer) (h : 0 < (lex_line ctx).1) :
    CursorInv (lex_line ctx).2 := by
  have hsk := skip_whitespace_le (ctx.input.take (get_newline ctx.input)) 0 (Nat.zero_le _)
  have htr := length_trim_whitespace_ge (ctx.input.take (get_newline ctx.input)) _ hsk
  by_cases h1 : ctx.input = []
  · simp [lex_line, h1] at h
  · by_cases h2 : get_newline ctx.input ≥ CONFIG_MAX_LINE_LENGTH
    · simp [lex_line, h1, h2] at h
    · unfold lex_line
      dsimp only
      rw [if_neg h1, if_neg h2]
      by_cases h3 : line_pos_byte (ctx.input.take (get_newline ctx.input))
          (skip_whitespace (ctx.input.take (get_newline ctx.input)) 0) = TOKEN_EMPTY
        ∨ line_pos_byte (ctx.input.take (get_newline ctx.input))
          (skip_whitespace (ctx.input.take (get_newline ctx.input)) 0) = TOKEN_COMMENT_START
      · rw [if_pos h3]
        refine ⟨hsk, ?_, ?_, ?_, ?_⟩ <;> simp
      · rw [if_neg h3]
        by_cases h4 : line_pos_byte
            (trim_whitespace (ctx.input.take (get_newline ctx.input))
              (skip_whitespace (ctx.input.take (get_newline ctx.input)) 0))
            (skip_whitespace (ctx.input.take (get_newline ctx.input)) 0) = TOKEN_EMPTY
        · rw [if_pos h4]
          refine ⟨htr, ?_, ?_, ?_, ?_⟩ <;> simp
        · rw [if_neg h4]
          by_cases h5 : line_pos_byte
              (trim_whitespace (ctx.input.take (get_newline ctx.input))
                (skip_whitespace (ctx.input.take (get_newline ctx.input)) 0))
              (skip_whitespace (ctx.input.take (get_newline ctx.input)) 0)
              = TOKEN_SECTION_START
          · rw [if_pos h5]
            refine ⟨htr, fun _ => h5, ?_, ?_, ?_⟩ <;> simp
          · rw [if_neg h5]
            refine ⟨htr, ?_, ?_, ?_, ?_⟩ <;> simp

theorem cursorInv_step (ctx : taihen_config_lexer) (hinv : CursorInv ctx)
    (h : 0 < (taihen_config_lex ctx).1) : CursorInv (taihen_config_lex ctx).2 := by
  obtain ⟨hle, hsec, hhalt, hns, hne⟩ := hinv
  cases htok : ctx.token with
  | CONFIG_START_TOKEN => exact absurd htok hns
  | CONFIG_END_TOKEN => exact absurd htok hne
  | CONFIG_COMMENT_TOKEN =>
    simp only [taihen_config_lex, htok] at h ⊢
    exact cursorInv_lex_line ctx h
  | CONFIG_PATH_TOKEN =>
    simp only [taihen_config_lex, htok] at h ⊢
    exact cursorInv_lex_line ctx h
  | CONFIG_SECTION_NAME_TOKEN =>
    simp only [taihen_config_lex, htok] at h ⊢
    exact cursorInv_lex_line ctx h
  | CONFIG_SECTION_TOKEN =>
    have hlt := lt_length_of_line_pos_byte_ne_zero _ _ (by rw [hsec htok]; decide)
    have hsk := skip_whitespace_le ctx.line (ctx.line_pos + 1) hlt
    simp only [taihen_config_lex, htok, lex_section_halt]
    by_cases h33 : line_pos_byte ctx.line (skip_whitespace ctx.line (ctx.line_pos + 1))
        = TOKEN_HALT
    · rw [if_pos h33]
      refine ⟨hsk, ?_, fun _ => h33, ?_, ?_⟩ <;> simp
    · rw [if_neg h33]
      refine ⟨hsk, ?_, ?_, ?_, ?_⟩ <;> simp
  | CONFIG_SECTION_HALT_TOKEN =>
    have hlt := lt_length_of_line_pos_byte_ne_zero _ _ (by rw [hhalt htok]; decide)
    have hsk := skip_whitespace_le ctx.line (ctx.line_pos + 1) hlt
    simp only [taihen_config_lex, htok, lex_section_name]
    refine ⟨hsk, ?_, ?_, ?_, ?_⟩ <;> simp

theorem cursorInv_of_reachable (input : List Nat) (ctx : taihen_config_lexer)
    (h : Reachable input ctx) : CursorInv ctx := by
  induction h with
  | first hpos =>
    have hs : AtLineStart (taihen_config_init_lexer input).token := Or.inl rfl
    rw [lex_of_atLineStart hs] at hpos ⊢
    exact cursorInv_lex_line _ hpos
  | next ctx _ hpos ih => exact cursorInv_step ctx ih hpos

/-! ## The properties of the tokenizer -/

/-- C11. For a single-line input shorter than 256 bytes whose first non-whitespace character
is `*`, with `r0` the text after that `*`: when the first non-whitespace character of `r0` is
`!`, four successive calls of `taihen_config_lex` return 1 with Section, 1 with SectionHalt,
1 with SectionName and 0 with End, and the SectionName payload is the text after the `!`
without its leading and trailing blanks; otherwise three successive calls return 1 with
Section, 1 with SectionName and 0 with End, and the payload is `r0` without its leading and
trailing blanks. -/
theorem section_line_token_chain (inp r0 : List Nat) (hl : singleLine inp)
    (hlen : inp.length < 256) (hfirst : inp.dropWhile isspace = 42 :: r0) :
    ((r0.dropWhile isspace).head? = some 33 →
      (lex_calls 4 (taihen_config_init_lexer inp)).map (fun r => (r.1, r.2.token))
          = [(1, CONFIG_SECTION_TOKEN), (1, CONFIG_SECTION_HALT_TOKEN),
              (1, CONFIG_SECTION_NAME_TOKEN), (0, CONFIG_END_TOKEN)]
        ∧ ((lex_calls 4 (taihen_config_init_lexer inp)).map (fun r => line_pos_str r.2))[2]?
          = some (trimBlank (r0.dropWhile isspace).tail))
    ∧ ((r0.dropWhile isspace).head? ≠ some 33 →
      (lex_calls 3 (taihen_config_init_lexer inp)).map (fun r => (r.1, r.2.token))
          = [(1, CONFIG_SECTION_TOKEN), (1, CONFIG_SECTION_NAME_TOKEN), (0, CONFIG_END_TOKEN)]
        ∧ ((lex_calls 3 (taihen_config_init_lexer inp)).map (fun r => line_pos_str r.2))[1]?
          = some (trimBlank r0)) := by
  have hne : inp ≠ [] := by
    intro e; rw [e] at hfirst; simp at hfirst
  have hstrip := strip_of_dropWhile_cons inp 42 r0 hfirst
  have hr0 : singleLine r0 := by
    apply singleLine_of_sublist _ hl
    have h1 : (42 :: r0).Sublist inp := hfirst ▸ List.dropWhile_sublist isspace
    exact (List.sublist_cons_self 42 r0).trans h1
  have hcomm : (r0.rdropWhile isspace).dropWhile isspace
      = (r0.dropWhile isspace).rdropWhile isspace := dropWhile_rdropWhile_comm isspace r0
  have hhead : ((r0.rdropWhile isspace).dropWhile isspace).head?
      = (r0.dropWhile isspace).head? := by
    rw [hcomm, head?_rdropWhile_of_dropWhile]
  obtain ⟨ctx1, h1, hin1, hk⟩ := lex_first_singleLine inp hl hne hlen
  have hcl := classify_of_strip_star inp _ hstrip
  obtain ⟨r, hr, htok1, hstr1⟩ : ∃ r, strip inp = 42 :: r ∧ ctx1.token = CONFIG_SECTION_TOKEN
      ∧ line_pos_str ctx1 = 42 :: r := by
    rcases hk with ⟨hc, _⟩ | ⟨p, hc, _⟩ | h
    · rw [hcl] at hc; split_ifs at hc
    · rw [hcl] at hc; split_ifs at hc
    · exact h
  have hrr : r = r0.rdropWhile isspace := by
    rw [hstrip] at hr
    exact (List.cons.inj hr).2.symm
  subst hrr
  obtain ⟨hyes, hno⟩ := lex_section_spec ctx1 _ htok1 hstr1
  constructor
  · intro h33
    obtain ⟨ctx2, ctx3, h2, htok2, h3, htok3, hin3, hstr3⟩ := hyes (by rw [hhead]; exact h33)
    have h4 := @lex_at_end ctx3 (by simp [AtLineStart, htok3]) (by rw [hin3, hin1])
    have hpay : line_pos_str ctx3 = trimBlank (r0.dropWhile isspace).tail := by
      rw [hstr3, hcomm, tail_rdropWhile_of_dropWhile, ← strip_eq_dropWhile_rdropWhile,
        strip_eq_trimBlank]
      exact singleLine_of_sublist
        ((List.tail_sublist _).trans (List.dropWhile_sublist isspace)) hr0
    simp [lex_calls, h1, h2, h3, h4, htok1, htok2, htok3, hpay]
  · intro h33
    obtain ⟨ctx2, h2, htok2, hin2, hstr2⟩ := hno (by rw [hhead]; exact h33)
    have h3 := @lex_at_end ctx2 (by simp [AtLineStart, htok2]) (by rw [hin2, hin1])
    have hpay : line_pos_str ctx2 = trimBlank r0 := by
      rw [hstr2, ← strip_eq_dropWhile_rdropWhile, strip_eq_trimBlank r0 hr0]
    simp [lex_calls, h1, h2, h3, htok1, htok2, hpay]

/-- Witness for C11 on the two section tests of the tokenizer. -/
theorem section_line_token_chain_witness :
    ((lex_calls 4 (taihen_config_init_lexer (bytes "*!MY SECTION"))).map
          (fun r => (r.1, r.2.token))
        = [(1, CONFIG_SECTION_TOKEN), (1, CONFIG_SECTION_HALT_TOKEN),
            (1, CONFIG_SECTION_NAME_TOKEN), (0, CONFIG_END_TOKEN)]
      ∧ ((lex_calls 4 (taihen_config_init_lexer (bytes "*!MY SECTION"))).map
          (fun r => line_pos_str r.2))[2]? = some (trimBlank (bytes "MY SECTION")))
    ∧ ((lex_calls 3 (taihen_config_init_lexer (bytes "*MY SECTION"))).map
          (fun r => (r.1, r.2.token))
        = [(1, CONFIG_SECTION_TOKEN), (1, CONFIG_SECTION_NAME_TOKEN), (0, CONFIG_END_TOKEN)]
      ∧ ((lex_calls 3 (taihen_config_init_lexer (bytes "*MY SECTION"))).map
          (fun r => line_pos_str r.2))[1]? = some (trimBlank (bytes "MY SECTION"))) :=
  ⟨(section_line_token_chain (bytes "*!MY SECTION") (bytes "!MY SECTION")
      (by unfold singleLine; decide) (by decide) (by decide)).1 (by decide),
   (section_line_token_chain (bytes "*MY SECTION") (bytes "MY SECTION")
      (by unfold singleLine; decide) (by decide) (by decide)).2 (by decide)⟩

/-- C12. For a single-line input shorter than 256 bytes whose first non-whitespace character
exists and is neither `#` nor `*`, two successive calls of `taihen_config_lex` return 1 with
Path and 0 with End, and the Path payload is the line without its leading and trailing
blanks (space, tab, vertical tab, form feed). -/
theorem path_line_token_chain (inp cs : List Nat) (c : Nat) (hl : singleLine inp)
    (hlen : inp.length < 256) (hfirst : inp.dropWhile isspace = c :: cs)
    (h35 : c ≠ 35) (h42 : c ≠ 42) :
    (lex_calls 2 (taihen_config_init_lexer inp)).map (fun r => (r.1, r.2.token))
        = [(1, CONFIG_PATH_TOKEN), (0, CONFIG_END_TOKEN)]
      ∧ line_pos_str (taihen_config_lex (taihen_config_init_lexer inp)).2 = trimBlank inp := by
  obtain ⟨ctx1, htrace, htok1, hstr1⟩ := lex_path_line_trace inp cs c hl hlen hfirst h35 h42
  have h1 : taihen_config_lex (taihen_config_init_lexer inp) = (1, ctx1) := by
    have := congrArg List.head? htrace
    simpa [lex_calls] using this
  refine ⟨by rw [htrace]; simp [htok1], ?_⟩
  rw [h1, hstr1, strip_eq_trimBlank inp hl]

/-- Witness for C12 on the path test of the tokenizer, with blanks around the path. -/
theorem path_line_token_chain_witness :
    (lex_calls 2 (taihen_config_init_lexer (bytes " \tthis:/is/a/path  "))).map
          (fun r => (r.1, r.2.token))
        = [(1, CONFIG_PATH_TOKEN), (0, CONFIG_END_TOKEN)]
      ∧ line_pos_str (taihen_config_lex (taihen_config_init_lexer
          (bytes " \tthis:/is/a/path  "))).2 = trimBlank (bytes " \tthis:/is/a/path  ")
      ∧ trimBlank (bytes " \tthis:/is/a/path  ") = bytes "this:/is/a/path" :=
  ⟨(path_line_token_chain (bytes " \tthis:/is/a/path  ") (bytes "his:/is/a/path  ") 116
      (by unfold singleLine; decide) (by decide) (by decide) (by decide) (by decide)).1,
   (path_line_token_chain (bytes " \tthis:/is/a/path  ") (bytes "his:/is/a/path  ") 116
      (by unfold singleLine; decide) (by decide) (by decide) (by decide) (by decide)).2,
   by decide⟩

/-- C13. For a non-empty single-line input shorter than 256 bytes that consists only of
whitespace, or whose first non-whitespace character is `#`, two successive calls of
`taihen_config_lex` return 1 with Comment and 0 with End. -/
theorem comment_line_token_chain (inp : List Nat) (hl : singleLine inp) (hne : inp ≠ [])
    (hlen : inp.length < 256)
    (hkind : (∀ b ∈ inp, isspace b = true) ∨ (inp.dropWhile isspace).head? = some 35) :
    (lex_calls 2 (taihen_config_init_lexer inp)).map (fun r => (r.1, r.2.token))
      = [(1, CONFIG_COMMENT_TOKEN), (0, CONFIG_END_TOKEN)] := by
  have hcl : classify inp = LineKind.comment := by
    rw [classify_comment_iff]
    rcases hkind with h | h
    · exact Or.inl (List.dropWhile_eq_nil_iff.2 h)
    · exact Or.inr h
  obtain ⟨ctx1, h1, hin1, hk⟩ := lex_first_singleLine inp hl hne hlen
  have htok1 : ctx1.token = CONFIG_COMMENT_TOKEN := by
    rcases hk with ⟨_, ht⟩ | ⟨p, hc, _⟩ | ⟨r, hr, _⟩
    · exact ht
    · rw [hcl] at hc; exact absurd hc (by simp)
    · have := classify_of_strip_star inp r hr
      rw [hcl] at this; split_ifs at this
  have h2 := @lex_at_end ctx1 (by simp [AtLineStart, htok1]) hin1
  simp [lex_calls, h1, h2, htok1]

/-- Witness for C13 on the whitespace test and the comment test of the tokenizer. -/
theorem comment_line_token_chain_witness :
    (lex_calls 2 (taihen_config_init_lexer (bytes "\t\t    \t\t"))).map
          (fun r => (r.1, r.2.token))
        = [(1, CONFIG_COMMENT_TOKEN), (0, CONFIG_END_TOKEN)]
      ∧ (lex_calls 2 (taihen_config_init_lexer (bytes "#this is a comment"))).map
          (fun r => (r.1, r.2.token))
        = [(1, CONFIG_COMMENT_TOKEN), (0, CONFIG_END_TOKEN)] :=
  ⟨comment_line_token_chain (bytes "\t\t    \t\t") (by unfold singleLine; decide)
      (by decide) (by decide) (Or.inl (by decide)),
   comment_line_token_chain (bytes "#this is a comment") (by unfold singleLine; decide)
      (by decide) (by decide) (Or.inr (by decide))⟩

/-- C14, as amended. For every input, of any byte content, whose text up to the terminating
NUL has a physical line of 256 bytes or more, driving the tokenizer from
`taihen_config_init_lexer` by repeated calls of `taihen_config_lex` makes finitely many calls
with a positive return value, none of which sets the token to End, and then one with a
negative return value. -/
theorem overlong_line_ends_in_error (input : List Nat)
    (h : ∃ l ∈ physLines (input.take (strlen input)), 256 ≤ l.length) :
    ∃ (k : Nat) (pre : List (Int × taihen_config_lexer)) (r : Int × taihen_config_lexer),
      lex_calls (k + 1) (taihen_config_init_lexer input) = pre ++ [r]
      ∧ (∀ x ∈ pre, 0 < x.1 ∧ x.2.token ≠ CONFIG_END_TOKEN)
      ∧ r.1 < 0 ∧ r.2.token ≠ CONFIG_END_TOKEN := by
  obtain ⟨k, pre, r, h1, h2, _, h4⟩ := init_lex_run input
  refine ⟨k, pre, r, h1, h2, ?_⟩
  rcases h4 with ⟨_, _, hall⟩ | ⟨hneg, htok, _⟩
  · obtain ⟨l, hl, hlen⟩ := h
    have := hall l hl
    omega
  · exact ⟨hneg, htok⟩

/-- Witness for C14 as amended: the line of 256 bytes of the long-line test. -/
theorem overlong_line_ends_in_error_witness :
    ∃ (k : Nat) (pre : List (Int × taihen_config_lexer)) (r : Int × taihen_config_lexer),
      lex_calls (k + 1) (taihen_config_init_lexer (List.replicate 256 97)) = pre ++ [r]
      ∧ (∀ x ∈ pre, 0 < x.1 ∧ x.2.token ≠ CONFIG_END_TOKEN)
      ∧ r.1 < 0 ∧ r.2.token ≠ CONFIG_END_TOKEN :=
  overlong_line_ends_in_error (List.replicate 256 97)
    ⟨List.replicate 256 97, by
      have h0 : (0 : Nat) ∉ List.replicate 256 97 := by
        intro hm; have := List.eq_of_mem_replicate hm; omega
      rw [take_strlen_of_not_mem h0, physLines_single _
        (fun b hb => by rw [List.eq_of_mem_replicate hb]; decide)]
      exact List.mem_singleton_self _, by rw [List.length_replicate]⟩

/-- C14, counterexample to the claim as stated. An input that is one line of 255 bytes has a
physical line of 255 bytes or more, yet the tokenizer does not fail on it: the first call
returns 1 with a Path token and the second returns 0 with the token End, so no run of calls
with positive return values ends in a negative one. -/
theorem line_of_255_bytes_is_accepted :
    (∃ l ∈ physLines ((List.replicate 255 97).take (strlen (List.replicate 255 97))),
        255 ≤ l.length)
      ∧ (lex_calls 2 (taihen_config_init_lexer (List.replicate 255 97))).map
          (fun r => (r.1, r.2.token))
        = [(1, CONFIG_PATH_TOKEN), (0, CONFIG_END_TOKEN)]
      ∧ ¬ ∃ (k : Nat) (pre : List (Int × taihen_config_lexer))
          (r : Int × taihen_config_lexer),
          lex_calls (k + 1) (taihen_config_init_lexer (List.replicate 255 97)) = pre ++ [r]
          ∧ (∀ x ∈ pre, 0 < x.1 ∧ x.2.token ≠ CONFIG_END_TOKEN)
          ∧ r.1 < 0 ∧ r.2.token ≠ CONFIG_END_TOKEN := by
  have hl := singleLine_replicate_a 255
  have h0 : (0 : Nat) ∉ List.replicate 255 97 := fun hm => (hl 0 hm).1 rfl
  have hlen : (List.replicate 255 97).length < 256 := by
    rw [List.length_replicate]; exact Nat.lt_succ_self 255
  obtain ⟨ctx1, htrace, htok1, _⟩ := lex_path_line_trace (List.replicate 255 97)
    (List.replicate 254 97) 97 hl hlen (dropWhile_replicate_a 254) (by decide) (by decide)
  refine ⟨⟨List.replicate 255 97, ?_, by rw [List.length_replicate]⟩, ?_,
    no_error_of_second_call_zero _ _ _ htrace⟩
  · rw [take_strlen_of_not_mem h0, physLines_single _ (fun b hb => by
      rw [List.eq_of_mem_replicate hb]; decide)]
    exact List.mem_singleton_self _
  · rw [htrace, List.map_cons, List.map_cons, List.map_nil, htok1]

/-- C15. When a line is to be read and the input starts with the physical line `l`, the call
of `taihen_config_lex` returns a negative value exactly when `l` has more than 255 bytes, in
particular when it has `CONFIG_MAX_LINE_LENGTH` bytes or more; a line of 255 bytes or fewer
is accepted, and the line buffer then holds the whole of `l`, apart from the trailing
whitespace that `trim_whitespace` overwrites with NUL on a line that is not a comment. -/
theorem line_length_limit (ctx : taihen_config_lexer) (l rest : List Nat)
    (hs : AtLineStart ctx.token) (hin : ctx.input = l ++ rest) (hne : ctx.input ≠ [])
    (hl : singleLine l) (hrest : ∀ t, rest.head? = some t → t = 0 ∨ t = 10 ∨ t = 13) :
    ((taihen_config_lex ctx).1 < 0 ↔ 255 < l.length)
      ∧ (CONFIG_MAX_LINE_LENGTH ≤ l.length → (taihen_config_lex ctx).1 < 0)
      ∧ (l.length ≤ 255 → 0 < (taihen_config_lex ctx).1
          ∧ ((taihen_config_lex ctx).2.line = l
              ∨ (taihen_config_lex ctx).2.line = trim_whitespace l (skip_whitespace l 0))
          ∧ ∃ w, l = (taihen_config_lex ctx).2.line ++ w ∧ ∀ b ∈ w, isspace b = true) := by
  have hg : get_newline ctx.input = l.length := by
    rw [hin]; exact get_newline_append l rest hl hrest
  have htake : ctx.input.take (get_newline ctx.input) = l := by
    rw [hg, hin, List.take_left']; rfl
  have hneg : 255 < l.length → (taihen_config_lex ctx).1 < 0 := by
    intro h
    rw [lex_of_atLineStart hs, lex_line_long hne (by rw [hg]; omega)]
    norm_num
  have hpos : l.length ≤ 255 → 0 < (taihen_config_lex ctx).1
      ∧ ((taihen_config_lex ctx).2.line = l
          ∨ (taihen_config_lex ctx).2.line = trim_whitespace l (skip_whitespace l 0))
      ∧ ∃ w, l = (taihen_config_lex ctx).2.line ++ w ∧ ∀ b ∈ w, isspace b = true := by
    intro h
    have hlt : get_newline ctx.input < 256 := by rw [hg]; omega
    obtain ⟨ctx1, h1, _, _⟩ := lex_line_spec ctx hne hlt
    have hbuf := lex_line_buffer ctx hne hlt
    rw [htake] at hbuf
    rw [lex_of_atLineStart hs]
    refine ⟨by rw [h1]; norm_num, hbuf, ?_⟩
    rcases hbuf with e | e
    · exact ⟨[], by rw [e]; simp, by simp⟩
    · rw [e]; exact trim_whitespace_rest l _
  refine ⟨⟨?_, hneg⟩, ?_, hpos⟩
  · intro h
    by_contra hc
    have := (hpos (by omega)).1
    omega
  · intro h
    apply hneg
    simp only [CONFIG_MAX_LINE_LENGTH] at h
    omega

/-- Witness for C15: a path line with two trailing blanks, followed by another line. -/
theorem line_length_limit_witness :
    ((taihen_config_lex (taihen_config_init_lexer (bytes "/a.so  \n/b.so"))).1 < 0
        ↔ 255 < (bytes "/a.so  ").length)
      ∧ 0 < (taihen_config_lex (taihen_config_init_lexer (bytes "/a.so  \n/b.so"))).1
      ∧ ∃ w, bytes "/a.so  "
          = (taihen_config_lex (taihen_config_init_lexer (bytes "/a.so  \n/b.so"))).2.line ++ w
        ∧ ∀ b ∈ w, isspace b = true := by
  have h := line_length_limit (taihen_config_init_lexer (bytes "/a.so  \n/b.so"))
    (bytes "/a.so  ") (bytes "\n/b.so") (Or.inl rfl) (by decide) (by decide)
    (by unfold singleLine; decide) (by decide)
  exact ⟨h.1, (h.2.2 (by decide)).1, (h.2.2 (by decide)).2.2⟩

/-- C16. First part: for every input, of any byte content, in which every physical line of
the text up to the terminating NUL has at most 255 bytes (in particular fewer than 255),
repeated calls of `taihen_config_lex` after `taihen_config_init_lexer` return a positive
value finitely many times, at most three times per physical line, and then return 0 with the
token End; no call before that returns a negative value. Second part: this holds for every
input of at most 254 bytes. -/
theorem short_lines_reach_end :
    (∀ input : List Nat, (∀ l ∈ physLines (input.take (strlen input)), l.length < 256) →
      ∃ (k : Nat) (pre : List (Int × taihen_config_lexer)) (r : Int × taihen_config_lexer),
        lex_calls (k + 1) (taihen_config_init_lexer input) = pre ++ [r]
        ∧ (∀ x ∈ pre, 0 < x.1)
        ∧ k ≤ 3 * (physLines (input.take (strlen input))).length
        ∧ r.1 = 0 ∧ r.2.token = CONFIG_END_TOKEN)
    ∧ (∀ input : List Nat, input.length ≤ 254 →
      ∃ (k : Nat) (pre : List (Int × taihen_config_lexer)) (r : Int × taihen_config_lexer),
        lex_calls (k + 1) (taihen_config_init_lexer input) = pre ++ [r]
        ∧ (∀ x ∈ pre, 0 < x.1)
        ∧ k ≤ 3 * (physLines (input.take (strlen input))).length
        ∧ r.1 = 0 ∧ r.2.token = CONFIG_END_TOKEN) := by
  have main : ∀ input : List Nat,
      (∀ l ∈ physLines (input.take (strlen input)), l.length < 256) →
      ∃ (k : Nat) (pre : List (Int × taihen_config_lexer)) (r : Int × taihen_config_lexer),
        lex_calls (k + 1) (taihen_config_init_lexer input) = pre ++ [r]
        ∧ (∀ x ∈ pre, 0 < x.1)
        ∧ k ≤ 3 * (physLines (input.take (strlen input))).length
        ∧ r.1 = 0 ∧ r.2.token = CONFIG_END_TOKEN := by
    intro input hall
    obtain ⟨k, pre, r, h1, h2, h3, h4⟩ := init_lex_run input
    refine ⟨k, pre, r, h1, fun x hx => (h2 x hx).1, h3, ?_⟩
    rcases h4 with ⟨e0, etok, _⟩ | ⟨_, _, l, hl, hlen⟩
    · exact ⟨e0, etok⟩
    · have := hall l hl
      omega
  refine ⟨main, fun input hlen => main input ?_⟩
  intro l hl
  have h1 := length_le_of_mem_physLines _ l hl
  have h2 : (input.take (strlen input)).length ≤ input.length := by
    rw [List.length_take]; exact Nat.min_le_right _ _
  omega

/-- Witness for C16: a document of three lines, and one of arbitrary bytes with a NUL. -/
theorem short_lines_reach_end_witness :
    (∃ (k : Nat) (pre : List (Int × taihen_config_lexer)) (r : Int × taihen_config_lexer),
        lex_calls (k + 1) (taihen_config_init_lexer (bytes "*!ALL\n/a.so\n# c")) = pre ++ [r]
        ∧ (∀ x ∈ pre, 0 < x.1)
        ∧ k ≤ 3 * (physLines ((bytes "*!ALL\n/a.so\n# c").take
            (strlen (bytes "*!ALL\n/a.so\n# c")))).length
        ∧ r.1 = 0 ∧ r.2.token = CONFIG_END_TOKEN)
    ∧ (∃ (k : Nat) (pre : List (Int × taihen_config_lexer)) (r : Int × taihen_config_lexer),
        lex_calls (k + 1) (taihen_config_init_lexer [200, 42, 13, 255, 0, 7]) = pre ++ [r]
        ∧ (∀ x ∈ pre, 0 < x.1)
        ∧ k ≤ 3 * (physLines (([200, 42, 13, 255, 0, 7] : List Nat).take
            (strlen [200, 42, 13, 255, 0, 7]))).length
        ∧ r.1 = 0 ∧ r.2.token = CONFIG_END_TOKEN) :=
  ⟨short_lines_reach_end.1 (bytes "*!ALL\n/a.so\n# c") (by decide),
   short_lines_reach_end.2 [200, 42, 13, 255, 0, 7] (by decide)⟩

/-- C17. Once the current token is End, every further call of `taihen_config_lex` returns a
negative value and leaves the token End, however many calls are made. -/
theorem lex_after_end_is_error (ctx : taihen_config_lexer) (h : ctx.token = CONFIG_END_TOKEN)
    (n : Nat) : ∀ r ∈ lex_calls n ctx, r.1 < 0 ∧ r.2.token = CONFIG_END_TOKEN := by
  have hlex : taihen_config_lex ctx = (-1, ctx) := by simp [taihen_config_lex, h]
  induction n with
  | zero => simp [lex_calls]
  | succ n ih =>
    intro r hr
    simp only [lex_calls, hlex, List.mem_cons] at hr
    rcases hr with e | e
    · subst e; exact ⟨by norm_num, h⟩
    · exact ih r e

/-- Witness for C17: the call that follows the End of the empty input. -/
theorem lex_after_end_is_error_witness :
    (taihen_config_lex (taihen_config_lex (taihen_config_init_lexer [])).2).1 < 0
      ∧ (taihen_config_lex (taihen_config_lex (taihen_config_init_lexer [])).2).2.token
        = CONFIG_END_TOKEN :=
  lex_after_end_is_error (taihen_config_lex (taihen_config_init_lexer [])).2 (by decide) 1
    (taihen_config_lex (taihen_config_lex (taihen_config_init_lexer [])).2)
    (List.mem_singleton_self _)

/-- C18. For the empty input the first call of `taihen_config_lex` after
`taihen_config_init_lexer` returns 0 and sets the token to End, so no Comment, Section or
Path token is produced. -/
theorem empty_input_lexes_to_end :
    (taihen_config_lex (taihen_config_init_lexer [])).1 = 0
      ∧ (taihen_config_lex (taihen_config_init_lexer [])).2.token = CONFIG_END_TOKEN
      ∧ (lex_calls 1 (taihen_config_init_lexer [])).map (fun r => (r.1, r.2.token))
        = [(0, CONFIG_END_TOKEN)] := by
  decide

/-- C19. A halt marker on a section that is not recorded for the query has no effect: for
every requested section `q` (a NUL-free byte string), every single-line section name `n`
shorter than 250 bytes whose trimmed form differs from `q` and is not `"ALL"`, unless `q` is
`"KERNEL"`, and every document `D`, `taihen_config_parse` on `"*!" ++ n ++ "\n" ++ D` returns
having made exactly the handler calls it makes on `D`. -/
theorem unrecorded_halt_has_no_effect (q n D : List Nat) (hq : 0 ∉ q) (hn : singleLine n)
    (hlen : n.length < 250) (h1 : strip n ≠ q)
    (h2 : strip n ≠ TOKEN_ALL_SECTION ∨ q = TOKEN_KERNEL_SECTION) :
    ∃ calls, taihen_config_parse (bytes "*!" ++ n ++ bytes "\n" ++ D) q = some calls
      ∧ taihen_config_parse D q = some calls := by
  have hb1 : bytes "*!" = [42, 33] := by decide
  have hb2 : bytes "\n" = [10] := by decide
  have hH0 : 0 ∉ [42, 33] ++ n ++ [10] := by
    intro hm
    simp only [List.mem_append, List.mem_cons, List.mem_singleton, List.not_mem_nil,
      or_false] at hm
    rcases hm with (h | h) | h
    · omega
    · exact (hn 0 h).1 rfl
    · omega
  have hHeol : ∀ b ∈ [42, 33] ++ n, isEol b = false := by
    intro b hb
    simp only [List.mem_append, List.mem_cons, List.mem_singleton, List.not_mem_nil,
      or_false] at hb
    rcases hb with (h | h) | h
    · rw [h]; decide
    · rw [h]; decide
    · have := hn b h
      simp [isEol, this.2.1, this.2.2]
  have hrec : recorded q (strip n) = false := by
    simp only [recorded, Bool.or_eq_false_iff, decide_eq_false_iff_not, Bool.and_eq_false_iff,
      Bool.not_eq_false', decide_eq_true_eq]
    exact ⟨h1, h2⟩
  have hlines : physLines (([42, 33] ++ n ++ [10]) ++ D.take (strlen D))
      = ([42, 33] ++ n) :: physLines (D.take (strlen D)) := by
    rw [List.append_assoc, List.singleton_append,
      physLines_append_eol _ _ 10 (by decide), physLines_single _ hHeol]
    rfl
  have hshort : ¬ 256 ≤ ([42, 33] ++ n).length := by
    simp only [List.length_append, List.length_cons, List.length_nil]; omega
  refine ⟨_, ?_, taihen_config_parse_eq D q⟩
  rw [taihen_config_parse_eq, hb1, hb2, take_strlen_append_of_not_mem hH0, hlines]
  congr 1
  simp only [scanOut, hshort, if_false]
  have hcl : classify ([42, 33] ++ n) = LineKind.header true (strip n) :=
    classify_halt_header n
  rw [hcl]
  simp only [Bool.and_false, Bool.false_eq_true, if_false]
  rw [take_strlen_of_not_mem hq, hrec]
  exact scanOut_halt_flag_irrelevant q _ true false

/-- Witness for C19: a halt-marked section `OTHER` before the scenario document, queried with
`GAME1`. -/
theorem unrecorded_halt_has_no_effect_witness :
    ∃ calls, taihen_config_parse
        (bytes "*!" ++ bytes " OTHER " ++ bytes "\n" ++ bytes "/x.so\n*ALL\n/a/b.so\n")
        (bytes "GAME1") = some calls
      ∧ taihen_config_parse (bytes "/x.so\n*ALL\n/a/b.so\n") (bytes "GAME1") = some calls :=
  unrecorded_halt_has_no_effect (bytes "GAME1") (bytes " OTHER ")
    (bytes "/x.so\n*ALL\n/a/b.so\n") (by decide) (by unfold singleLine; decide) (by decide)
    (by decide) (Or.inl (by decide))

/-- C20. In every tokenizer state reached from `taihen_config_init_lexer` by calls of
`taihen_config_lex` that returned a positive value: the payload cursor is inside the line
buffer, its offset being at most the length of the line; under a Section token the cursor is
on the `*`, one byte before the end of the line at least, and the next call returns a
positive value with SectionHalt or SectionName on the same line; under a SectionHalt token
the cursor is on the `!`, one byte before the end at least, and the next call returns a
positive value with SectionName on the same line; and a call that moves the input cursor or
changes the line buffer was made after Comment, Path or SectionName (or after Start, which
is the token of the initial state only). -/
theorem cursor_stays_in_line (input : List Nat) (ctx : taihen_config_lexer)
    (h : Reachable input ctx) :
    ctx.line_pos ≤ ctx.line.length
      ∧ (ctx.token = CONFIG_SECTION_TOKEN →
          line_pos_byte ctx.line ctx.line_pos = 42 ∧ ctx.line_pos + 1 ≤ ctx.line.length
            ∧ 0 < (taihen_config_lex ctx).1
            ∧ ((taihen_config_lex ctx).2.token = CONFIG_SECTION_HALT_TOKEN
                ∨ (taihen_config_lex ctx).2.token = CONFIG_SECTION_NAME_TOKEN)
            ∧ (taihen_config_lex ctx).2.input = ctx.input
            ∧ (taihen_config_lex ctx).2.line = ctx.line)
      ∧ (ctx.token = CONFIG_SECTION_HALT_TOKEN →
          line_pos_byte ctx.line ctx.line_pos = 33 ∧ ctx.line_pos + 1 ≤ ctx.line.length
            ∧ 0 < (taihen_config_lex ctx).1
            ∧ (taihen_config_lex ctx).2.token = CONFIG_SECTION_NAME_TOKEN
            ∧ (taihen_config_lex ctx).2.input = ctx.input
            ∧ (taihen_config_lex ctx).2.line = ctx.line)
      ∧ ((taihen_config_lex ctx).2.input ≠ ctx.input ∨ (taihen_config_lex ctx).2.line ≠ ctx.line →
          AtLineStart ctx.token) := by
  obtain ⟨hle, hsec, hhalt, hns, hne⟩ := cursorInv_of_reachable input ctx h
  have hS : ctx.token = CONFIG_SECTION_TOKEN →
      line_pos_byte ctx.line ctx.line_pos = 42 ∧ ctx.line_pos + 1 ≤ ctx.line.length
        ∧ 0 < (taihen_config_lex ctx).1
        ∧ ((taihen_config_lex ctx).2.token = CONFIG_SECTION_HALT_TOKEN
            ∨ (taihen_config_lex ctx).2.token = CONFIG_SECTION_NAME_TOKEN)
        ∧ (taihen_config_lex ctx).2.input = ctx.input
        ∧ (taihen_config_lex ctx).2.line = ctx.line := by
    intro htok
    have hlt := lt_length_of_line_pos_byte_ne_zero _ _ (by rw [hsec htok]; decide)
    refine ⟨hsec htok, hlt, ?_⟩
    simp only [taihen_config_lex, htok, lex_section_halt]
    split_ifs <;> simp
  have hH : ctx.token = CONFIG_SECTION_HALT_TOKEN →
      line_pos_byte ctx.line ctx.line_pos = 33 ∧ ctx.line_pos + 1 ≤ ctx.line.length
        ∧ 0 < (taihen_config_lex ctx).1
        ∧ (taihen_config_lex ctx).2.token = CONFIG_SECTION_NAME_TOKEN
        ∧ (taihen_config_lex ctx).2.input = ctx.input
        ∧ (taihen_config_lex ctx).2.line = ctx.line := by
    intro htok
    have hlt := lt_length_of_line_pos_byte_ne_zero _ _ (by rw [hhalt htok]; decide)
    refine ⟨hhalt htok, hlt, ?_⟩
    simp [taihen_config_lex, htok, lex_section_name]
  refine ⟨hle, hS, hH, ?_⟩
  intro hch
  cases htok : ctx.token with
  | CONFIG_START_TOKEN => exact Or.inl rfl
  | CONFIG_END_TOKEN => exact absurd htok hne
  | CONFIG_COMMENT_TOKEN => exact Or.inr (Or.inl rfl)
  | CONFIG_PATH_TOKEN => exact Or.inr (Or.inr (Or.inl rfl))
  | CONFIG_SECTION_NAME_TOKEN => exact Or.inr (Or.inr (Or.inr rfl))
  | CONFIG_SECTION_TOKEN =>
    obtain ⟨_, _, _, _, h5, h6⟩ := hS htok
    rcases hch with e | e
    · exact absurd h5 e
    · exact absurd h6 e
  | CONFIG_SECTION_HALT_TOKEN =>
    obtain ⟨_, _, _, _, h5, h6⟩ := hH htok
    rcases hch with e | e
    · exact absurd h5 e
    · exact absurd h6 e

/-- Witness for C20: the state after the first call on a halt-marked header, where the token
is Section. -/
theorem cursor_stays_in_line_witness :
    (taihen_config_lex (taihen_config_init_lexer (bytes "  *!X\n/a"))).2.token
        = CONFIG_SECTION_TOKEN
      ∧ (taihen_config_lex (taihen_config_init_lexer (bytes "  *!X\n/a"))).2.line_pos
        ≤ (taihen_config_lex (taihen_config_init_lexer (bytes "  *!X\n/a"))).2.line.length
      ∧ line_pos_byte (taihen_config_lex (taihen_config_init_lexer (bytes "  *!X\n/a"))).2.line
          (taihen_config_lex (taihen_config_init_lexer (bytes "  *!X\n/a"))).2.line_pos = 42 := by
  have h := cursor_stays_in_line (bytes "  *!X\n/a") _ (Reachable.first (by decide))
  have htok : (taihen_config_lex (taihen_config_init_lexer (bytes "  *!X\n/a"))).2.token
      = CONFIG_SECTION_TOKEN := by decide
  exact ⟨htok, h.1, (h.2.1 htok).1⟩

/-! ## Path payloads and blank lines -/

/-- The function `trim_whitespace` leaves the byte under the cursor as it is. -/
theorem line_pos_byte_trim_whitespace (buf : List Nat) (pos : Nat) :
    line_pos_byte (trim_whitespace buf pos) pos = line_pos_byte buf pos := by
  cases hd : buf.drop pos with
  | nil => simp [trim_whitespace, hd]
  | cons c cs =>
    rw [line_pos_byte_eq, line_pos_byte_eq, drop_trim_whitespace buf pos c cs hd, hd]
    rfl

theorem strip_head_not_space (l : List Nat) (c : Nat) (h : (strip l).head? = some c) :
    isspace c = false := by
  rw [strip_eq_dropWhile_rdropWhile] at h
  cases hd : (l.rdropWhile isspace).dropWhile isspace with
  | nil => simp [hd] at h
  | cons a as =>
    rw [hd] at h
    simp only [List.head?_cons, Option.some.injEq] at h
    rw [← h]
    exact dropWhile_head_not_space _ a as hd

theorem strip_getLast_not_space (l : List Nat) (c : Nat) (h : (strip l).getLast? = some c) :
    isspace c = false := by
  have hne : strip l ≠ [] := by
    intro e; rw [e] at h; simp at h
  have hlast : (strip l).getLast hne = c := by
    rw [List.getLast?_eq_getLast _ hne] at h
    exact Option.some.inj h
  have := List.rdropWhile_last_not isspace (l.dropWhile isspace) hne
  rw [← hlast]
  simpa using this

/-- A Path token left by `lex_line` carries the stripped line, which is not empty. -/
theorem lex_line_path_payload (ctx : taihen_config_lexer) (hpos : 0 < (lex_line ctx).1)
    (htok : (lex_line ctx).2.token = CONFIG_PATH_TOKEN) :
    ∃ l, line_pos_str (lex_line ctx).2 = strip l ∧ strip l ≠ [] ∧ 0 ∉ strip l := by
  have hne : ctx.input ≠ [] := by
    intro e; rw [lex_line_nil e] at hpos; simp at hpos
  have hlen : get_newline ctx.input < 256 := by
    by_contra hc
    rw [lex_line_long hne (by omega)] at hpos
    simp at hpos
  obtain ⟨ctx1, h1, _, hk⟩ := lex_line_spec ctx hne hlen
  rw [h1] at htok ⊢
  rcases hk with ⟨_, ht⟩ | ⟨p, hc, _, hp⟩ | ⟨r, _, ht, _⟩
  · simp only at htok; rw [ht] at htok; simp at htok
  · obtain ⟨e, hpne⟩ := classify_path_eq hc
    refine ⟨ctx.input.take (get_newline ctx.input), ?_, ?_, ?_⟩
    · simp only; rw [hp, e]
    · rw [← e]; exact hpne
    · exact fun hm => zero_not_mem_take_get_newline ctx.input (strip_subset _ 0 hm)
  · simp only at htok; rw [ht] at htok; simp at htok

/-- A positive call of `taihen_config_lex` that leaves a Path token has read a line. -/
theorem lex_path_payload (ctx : taihen_config_lexer) (hpos : 0 < (taihen_config_lex ctx).1)
    (htok : (taihen_config_lex ctx).2.token = CONFIG_PATH_TOKEN) :
    ∃ l, line_pos_str (taihen_config_lex ctx).2 = strip l ∧ strip l ≠ [] ∧ 0 ∉ strip l := by
  cases ht : ctx.token with
  | CONFIG_START_TOKEN =>
    simp only [taihen_config_lex, ht] at hpos htok ⊢
    exact lex_line_path_payload ctx hpos htok
  | CONFIG_COMMENT_TOKEN =>
    simp only [taihen_config_lex, ht] at hpos htok ⊢
    exact lex_line_path_payload ctx hpos htok
  | CONFIG_PATH_TOKEN =>
    simp only [taihen_config_lex, ht] at hpos htok ⊢
    exact lex_line_path_payload ctx hpos htok
  | CONFIG_SECTION_NAME_TOKEN =>
    simp only [taihen_config_lex, ht] at hpos htok ⊢
    exact lex_line_path_payload ctx hpos htok
  | CONFIG_END_TOKEN => simp [taihen_config_lex, ht] at hpos
  | CONFIG_SECTION_TOKEN =>
    simp only [taihen_config_lex, ht, lex_section_halt] at htok
    split_ifs at htok
  | CONFIG_SECTION_HALT_TOKEN =>
    simp [taihen_config_lex, ht, lex_section_name] at htok

theorem path_payload_of_reachable (input : List Nat) (ctx : taihen_config_lexer)
    (h : Reachable input ctx) (htok : ctx.token = CONFIG_PATH_TOKEN) :
    ∃ l, line_pos_str ctx = strip l ∧ strip l ≠ [] ∧ 0 ∉ strip l := by
  cases h with
  | first hpos => exact lex_path_payload _ hpos htok
  | next c _ hpos => exact lex_path_payload c hpos htok

/-- A line shorter than 256 bytes that trims to empty is read as a Comment. -/
theorem lex_blank_line (ctx : taihen_config_lexer) (l rest : List Nat)
    (hs : AtLineStart ctx.token) (hin : ctx.input = l ++ rest) (hne : ctx.input ≠ [])
    (hl : singleLine l) (hrest : ∀ t, rest.head? = some t → t = 0 ∨ t = 10 ∨ t = 13)
    (hlen : l.length < 256) (hblank : strip l = []) :
    0 < (taihen_config_lex ctx).1
      ∧ (taihen_config_lex ctx).2.token = CONFIG_COMMENT_TOKEN := by
  have hg : get_newline ctx.input = l.length := by
    rw [hin]; exact get_newline_append l rest hl hrest
  have htake : ctx.input.take (get_newline ctx.input) = l := by
    rw [hg, hin, List.take_left']; rfl
  obtain ⟨ctx1, h1, _, hk⟩ := lex_line_spec ctx hne (by rw [hg]; exact hlen)
  rw [htake] at hk
  have hcl : classify l = LineKind.comment := by simp [classify, hblank]
  rw [lex_of_atLineStart hs, h1]
  refine ⟨by norm_num, ?_⟩
  rcases hk with ⟨_, ht⟩ | ⟨p, hc, _⟩ | ⟨r, hr, _⟩
  · exact ht
  · rw [hcl] at hc; exact absurd hc (by simp)
  · rw [hblank] at hr; exact absurd hr (by simp)

theorem blank_replicate (n : Nat) : ∀ b ∈ List.replicate n 32, isspace b = true := by
  intro b hb
  rw [List.eq_of_mem_replicate hb]
  decide

theorem singleLine_replicate_blank (n : Nat) : singleLine (List.replicate n 32) := by
  intro b hb
  rw [List.eq_of_mem_replicate hb]
  decide

/-! ## The property of path payloads -/

/-- C21, as amended. First part: for every input, a Path token of the tokenizer has a
non-empty payload, of non-zero `strlen`, whose first and last bytes are not whitespace.
Second part: a line shorter than 256 bytes that trims to empty is read as a Comment. Third
part: `trim_whitespace` leaves the byte under the cursor as it is, so the second emptiness
test of `lex_line` cannot succeed where the first one failed. Fourth part: in a document (a
NUL-free byte string) a whitespace-only line shorter than 256 bytes, inserted with a line
terminator at a line boundary, leaves the result of `taihen_config_validate` as it is, so it
never turns a non-zero result into zero. -/
theorem path_payload_is_trimmed :
    (∀ (input : List Nat) (ctx : taihen_config_lexer), Reachable input ctx →
      ctx.token = CONFIG_PATH_TOKEN →
      line_pos_str ctx ≠ [] ∧ strlen (line_pos_str ctx) ≠ 0
        ∧ (∀ c, (line_pos_str ctx).head? = some c → isspace c = false)
        ∧ (∀ c, (line_pos_str ctx).getLast? = some c → isspace c = false))
    ∧ (∀ (ctx : taihen_config_lexer) (l rest : List Nat), AtLineStart ctx.token →
      ctx.input = l ++ rest → ctx.input ≠ [] → singleLine l →
      (∀ t, rest.head? = some t → t = 0 ∨ t = 10 ∨ t = 13) → l.length < 256 → strip l = [] →
      0 < (taihen_config_lex ctx).1
        ∧ (taihen_config_lex ctx).2.token = CONFIG_COMMENT_TOKEN)
    ∧ (∀ (buf : List Nat) (pos : Nat),
      line_pos_byte (trim_whitespace buf pos) pos = line_pos_byte buf pos)
    ∧ (∀ (A B w : List Nat) (t : Nat), 0 ∉ A ++ w ++ t :: B → atLineBoundary A = true →
      (∀ b ∈ w, isspace b = true ∧ isEol b = false) → w.length < 256 → isEol t = true →
      ∃ v, taihen_config_validate (A ++ w ++ t :: B) = some v
        ∧ taihen_config_validate (A ++ B) = some v) := by
  refine ⟨?_, ?_, line_pos_byte_trim_whitespace, ?_⟩
  · intro input ctx hreach htok
    obtain ⟨l, hstr, hne, h0⟩ := path_payload_of_reachable input ctx hreach htok
    rw [hstr]
    refine ⟨hne, ?_, strip_head_not_space l, strip_getLast_not_space l⟩
    rw [strlen_eq_length h0]
    exact fun e => hne (List.length_eq_zero.1 e)
  · intro ctx l rest hs hin hne hl hrest hlen hblank
    exact lex_blank_line ctx l rest hs hin hne hl hrest hlen hblank
  · intro A B w t hdoc hA hw hlen ht
    have hAB : 0 ∉ A ++ B := by
      intro hm
      apply hdoc
      simp only [List.mem_append, List.mem_cons] at hm ⊢
      tauto
    have hkind : classify w = LineKind.comment := by
      rw [classify_comment_iff]
      exact Or.inl (List.dropWhile_eq_nil_iff.2 (fun b hb => (hw b hb).1))
    have hl1 : physLines (A ++ w ++ t :: B) = (physLines A).dropLast ++ w :: physLines B := by
      rw [List.append_assoc, (physLines_append_of_boundary hA _).1,
        physLines_append_eol w B t ht, physLines_single w (fun b hb => (hw b hb).2)]
      rfl
    have hl2 : physLines (A ++ B) = (physLines A).dropLast ++ physLines B :=
      (physLines_append_of_boundary hA B).1
    refine ⟨_, ?_, taihen_config_validate_eq _⟩
    rw [taihen_config_validate_eq, take_strlen_of_not_mem hdoc, take_strlen_of_not_mem hAB,
      hl1, hl2, validLines_append_congr _ _ _
        (fun hs => validLines_comment_cons w _ hs hlen hkind) false]

/-- Witness for C21 as amended: the Path token of the third call on a section with one
path, and a blank line inserted after a section header that the validator accepts. -/
theorem path_payload_is_trimmed_witness :
    line_pos_str (taihen_config_lex (taihen_config_lex (taihen_config_lex
        (taihen_config_init_lexer (bytes "*X\n /a.so \n"))).2).2).2 ≠ []
      ∧ ∃ v, taihen_config_validate ([42, 195, 10] ++ bytes " \t " ++ 10 :: bytes "# end") = some v
        ∧ taihen_config_validate ([42, 195, 10] ++ bytes "# end") = some v ∧ v = 1 := by
  refine ⟨(path_payload_is_trimmed.1 (bytes "*X\n /a.so \n") _
    (Reachable.next _ (Reachable.next _ (Reachable.first (by decide)) (by decide))
      (by decide)) (by decide)).1, ?_⟩
  obtain ⟨v, h1, h2⟩ := path_payload_is_trimmed.2.2.2 [42, 195, 10] (bytes "# end")
    (bytes " \t ") 10 (by decide) (by decide) (by decide) (by decide) (by decide)
  refine ⟨v, h1, h2, ?_⟩
  have h3 : taihen_config_validate ([42, 195, 10] ++ bytes "# end") = some 1 := by decide
  rw [h3] at h2
  exact (Option.some.inj h2).symm

/-- C21, counterexample to the claim as stated. A line of 256 spaces trims to empty, yet the
tokenizer does not read it as a Comment: the call returns a negative value. Placed after the
section header `*\xC3`, which `taihen_config_validate` accepts, it makes
`taihen_config_validate` return zero. -/
theorem overlong_blank_line_is_rejected :
    strip (List.replicate 256 32) = []
      ∧ (taihen_config_lex (taihen_config_init_lexer (List.replicate 256 32))).1 < 0
      ∧ taihen_config_validate [42, 195, 10] = some 1
      ∧ taihen_config_validate ([42, 195, 10] ++ List.replicate 256 32) = some 0 := by
  have hblank := blank_replicate 256
  have hl := singleLine_replicate_blank 256
  have hlen : (List.replicate 256 32).length = 256 := List.length_replicate 256 32
  refine ⟨?_, ?_, by decide, ?_⟩
  · exact strip_of_dropWhile_nil _ (List.dropWhile_eq_nil_iff.2 hblank)
  · have hs : AtLineStart (taihen_config_init_lexer (List.replicate 256 32)).token :=
      Or.inl rfl
    have hi := init_input_of_singleLine _ hl
    have hne : (taihen_config_init_lexer (List.replicate 256 32)).input ≠ [] := by
      rw [hi]
      intro e
      have := congrArg List.length e
      rw [hlen] at this
      exact absurd this (by decide)
    rw [lex_of_atLineStart hs, lex_line_long hne
      (by rw [hi, get_newline_of_singleLine _ hl, hlen])]
    norm_num
  · have h0 : 0 ∉ [42, 195, 10] ++ List.replicate 256 32 := by
      intro hm
      rcases List.mem_append.1 hm with e | e
      · revert e; decide
      · exact (hl 0 e).1 rfl
    have hlines : physLines ([42, 195, 10] ++ List.replicate 256 32)
        = [[42, 195], List.replicate 256 32] := by
      have e1 : ([42, 195, 10] : List Nat) ++ List.replicate 256 32
          = [42, 195] ++ 10 :: List.replicate 256 32 := rfl
      rw [e1, physLines_append_eol _ _ 10 (by decide), physLines_single [42, 195] (by decide),
        physLines_single _ (fun b hb => by rw [List.eq_of_mem_replicate hb]; decide)]
      rfl
    have hv : validLines [[42, 195], List.replicate 256 32] false = false := by
      have hc : classify [42, 195] = LineKind.header false [195] := by decide
      have hu : check_utf8 [195] = some 1 := by decide
      have hlong : 256 ≤ (List.replicate 256 32).length := by rw [hlen]
      have hshort : ¬ 256 ≤ ([42, 195] : List Nat).length := by decide
      rw [validLines, if_neg hshort, hc]
      simp only [hu]
      rw [validLines, if_pos hlong]
      simp
    rw [taihen_config_validate_eq, take_strlen_of_not_mem h0, hlines, hv]
    rfl

end Taihen
